import Mathlib

/-!
Verification development for the Seshat radix-trie core
(`src/RadixTrie.cc`, `src/RadixNode.h`).

The C++ code is shallowly embedded as executable Lean functions.
Conventions of the embedding:

* `char` is modelled as `Byte := Fin 256`.  The target platform of the
  repository (a Node.js native addon built on x86-64 Linux/macOS) has a
  *signed* `char`, so every `char < char` comparison in the source is
  modelled by the signed-byte order `sgnLt` (bytes 128..255 compare below
  bytes 0..127).  `std::string::operator<` in contrast compares by
  *unsigned* bytes (`memcmp` semantics) and is modelled by `lexLt`.
* `std::lower_bound` over a node's child vector is modelled by the linear
  scan `findLB`; on a sorted vector (the only kind the trie ever builds,
  and the only kind on which `lower_bound` is defined behaviour) the two
  agree: the split point is the first entry whose key is not below the
  probe.
* The in-place pointer mutations of the C++ are modelled by functions that
  rebuild the tree along the descent path.  Parent pointers (`parent`,
  `parent_char`) are not stored: in every tree the code can build they are
  determined by the position of a node in its parent's child list, and the
  only consumer, `cleanup_orphaned_nodes`, is re-expressed as the
  equivalent top-down pruning pass `prunePathGo`.
* Functions that the C++ runs forever on (descending through a child whose
  edge label is empty) are given a harmless default in that branch; such
  trees are never produced by the code and are excluded by the invariant
  `nodeWF`.
-/

/-- A byte, the element type of words stored in the trie (`char` in C++). -/
abbrev Byte := Fin 256

/-- The value of a byte read through a *signed* `char`, as on the reference
platform: bytes `0..127` map to themselves, bytes `128..255` to `b - 256`. -/
def sgn (b : Byte) : Int := if b.val < 128 then (b.val : Int) else (b.val : Int) - 256

/-- The comparison `char < char` used by `find_child`'s `lower_bound`
(signed on the reference platform). -/
def sgnLt (a b : Byte) : Bool := decide (sgn a < sgn b)

/-- Strict lexicographic order on byte strings by *unsigned* bytes:
`std::string::operator<` (`char_traits<char>` compares as unsigned). -/
def lexLt : List Byte → List Byte → Bool
  | [], [] => false
  | [], _ :: _ => true
  | _ :: _, [] => false
  | a :: as, b :: bs => decide (a.val < b.val) || (decide (a = b) && lexLt as bs)

/-- Strict lexicographic order on byte strings induced by the signed byte
order; `words_with_prefix` emits words ascending in this order. -/
def slexLt : List Byte → List Byte → Bool
  | [], [] => false
  | [], _ :: _ => true
  | _ :: _, [] => false
  | a :: as, b :: bs => sgnLt a b || (decide (a = b) && slexLt as bs)

/-- `'*'` -/
def star : Byte := 42
/-- `'?'` -/
def qmark : Byte := 63

/-- `std::isspace` in the `"C"` locale on an `unsigned char`:
space and `\t \n \v \f \r`. -/
def isSpaceB (b : Byte) : Bool := decide (b.val = 32) || (decide (9 ≤ b.val) && decide (b.val ≤ 13))

/-- A record delimiter in `bulk_insert_from_file`: `'\n'` or `'\r'`. -/
def isDelimB (b : Byte) : Bool := decide (b.val = 10) || decide (b.val = 13)

/-- A trie node (`RadixNode`): edge label `key`, terminal flag `is_end`,
and the ordered child vector of `(first-byte, node)` pairs.  The C++
`parent`/`parent_char` back-references are not stored (see file header). -/
inductive RNode : Type where
  | mk (key : List Byte) (is_end : Bool) (children : List (Byte × RNode))
deriving Repr

/-- Edge label of a node. -/
def RNode.key : RNode → List Byte
  | .mk k _ _ => k

/-- Terminal flag of a node. -/
def RNode.is_end : RNode → Bool
  | .mk _ e _ => e

/-- Child vector of a node. -/
def RNode.children : RNode → List (Byte × RNode)
  | .mk _ _ cs => cs

/-- Induction over a node and all nodes below it. -/
theorem RNode.ind {P : RNode → Prop}
    (h : ∀ k e cs, (∀ p ∈ cs, P (Prod.snd p)) → P (.mk k e cs)) : ∀ n, P n
  | .mk k e cs => h k e cs (fun p hp => RNode.ind h p.2)
termination_by n => sizeOf n
decreasing_by
  have h1 : sizeOf p < sizeOf cs := List.sizeOf_lt_of_mem hp
  cases p with
  | mk a b => simp only [Prod.mk.sizeOf_spec] at h1; simp; omega

/-- `RadixTrie::find_child`, i.e. `std::lower_bound` over the child vector
with comparison `pair.first < c` (signed `char`): splits the vector at the
first entry whose key is not below `c`.  Modelled as the linear scan, which
agrees with binary search on every sorted vector. -/
def findLB (cs : List (Byte × RNode)) (c : Byte) : List (Byte × RNode) × List (Byte × RNode) :=
  match cs with
  | [] => ([], [])
  | (k, n) :: rest =>
    if sgnLt k c then
      let (pre, post) := findLB rest c
      ((k, n) :: pre, post)
    else
      ([], (k, n) :: rest)

/-- `RadixTrie::common_prefix_length`. -/
def commonPrefixLen : List Byte → List Byte → Nat
  | a :: as, b :: bs => if a = b then commonPrefixLen as bs + 1 else 0
  | _, _ => 0

/-- The body of `RadixTrie::insert` below the empty-word guard, rebuilding
the tree along the descent.  Returns the new node and whether `word_count_`
was incremented.  Branches follow the C++ loop:
no child with the needed first byte → splice in a new terminal leaf at the
`lower_bound` position; the child's full key matches → descend (or mark the
child terminal when the word ends there, a no-op if already terminal);
otherwise → split the child's edge at the common prefix, re-hang the
shortened child under the new intermediate node, and either mark the
intermediate terminal (word exhausted) or attach the unread suffix as a new
leaf in sorted position. -/
def insertGo (n : RNode) (r : List Byte) : RNode × Bool :=
  match n, r with
  | n, [] => (n, false)
  | .mk k e cs, c :: rtl =>
    let lb := findLB cs c
    match lb.2 with
    | [] => (.mk k e (lb.1 ++ [(c, .mk (c :: rtl) true [])]), true)
    | (k1, child) :: rest =>
      if k1 ≠ c then
        (.mk k e (lb.1 ++ (c, .mk (c :: rtl) true []) :: lb.2), true)
      else
        let m := commonPrefixLen child.key (c :: rtl)
        if hm : m = child.key.length then
          if hr : (c :: rtl).length = m then
            if child.is_end then (.mk k e cs, false)
            else (.mk k e (lb.1 ++ (k1, .mk child.key true child.children) :: rest), true)
          else
            if hk : child.key = [] then (.mk k e cs, false)
            else
              let res := insertGo child ((c :: rtl).drop m)
              (.mk k e (lb.1 ++ (k1, res.1) :: rest), res.2)
        else
          let ck := child.key
          let demoted : RNode := .mk (ck.drop m) child.is_end child.children
          let dk : Byte := (ck.drop m).headD 0
          if (c :: rtl).length = m then
            (.mk k e (lb.1 ++ (k1, .mk (ck.take m) true [(dk, demoted)]) :: rest), true)
          else
            let rk : Byte := ((c :: rtl).drop m).headD 0
            let lb2 := findLB [(dk, demoted)] rk
            (.mk k e
              (lb.1 ++
                (k1, .mk (ck.take m) false (lb2.1 ++ (rk, .mk ((c :: rtl).drop m) true []) :: lb2.2)) ::
                  rest),
              true)
termination_by r.length
decreasing_by
  simp only [List.length_drop]
  have hlen : child.key.length ≠ 0 := by
    intro h0
    exact hk (List.eq_nil_of_length_eq_zero h0)
  simp only [List.length_cons] at hr ⊢
  omega

/-- The trie object: the root node and the cached `word_count_`. -/
structure Trie where
  root : RNode
  count : Nat
deriving Repr

/-- `RadixTrie()`: a fresh root with an empty edge label, zero words. -/
def emptyTrie : Trie := ⟨.mk [] false [], 0⟩

/-- `RadixTrie::insert`: ignore the empty word, otherwise run the descent
and bump `word_count_` when a terminal flag was newly set. -/
def insertT (t : Trie) (w : List Byte) : Trie :=
  if w = [] then t
  else
    let res := insertGo t.root w
    ⟨res.1, t.count + (if res.2 then 1 else 0)⟩

/-- `RadixTrie::size`. -/
def sizeT (t : Trie) : Nat := t.count

/-- `RadixTrie::empty`. -/
def emptyB (t : Trie) : Bool := decide (t.count = 0)

/-- The loop of `RadixTrie::find_node`: descend from `n` consuming `r`
against child edge labels; `none` models returning `nullptr`.  (On a child
with an empty edge label the C++ loops forever; such trees are never built,
and the embedding answers `none` there.) -/
def findNodeGo (n : RNode) (r : List Byte) : Option RNode :=
  match r with
  | [] => some n
  | c :: rtl =>
    match (findLB n.children c).2 with
    | [] => none
    | (k1, child) :: _ =>
      if k1 ≠ c then none
      else if hk : child.key = [] then none
      else if child.key.length > (c :: rtl).length then none
      else if (c :: rtl).take child.key.length ≠ child.key then none
      else findNodeGo child ((c :: rtl).drop child.key.length)
termination_by r.length
decreasing_by
  simp only [List.length_drop, List.length_cons]
  have hlen : child.key.length ≠ 0 := by
    intro h0
    exact hk (List.eq_nil_of_length_eq_zero h0)
  omega

/-- `RadixTrie::find_node`: `nullptr` on the empty word, else descend. -/
def findNodeT (t : Trie) (w : List Byte) : Option RNode :=
  if w = [] then none else findNodeGo t.root w

/-- `RadixTrie::search`: found and terminal. -/
def searchT (t : Trie) (w : List Byte) : Bool :=
  match findNodeT t w with
  | some n => n.is_end
  | none => false

mutual

/-- `RadixTrie::collect_words_from_node`: DFS emitting `prefix ++ key` at
every terminal node, then the children in child-vector order. -/
def collectWords (n : RNode) (pre : List Byte) : List (List Byte) :=
  match n with
  | .mk k e cs =>
    (if e then [pre ++ k] else []) ++ collectChildren (pre ++ k) cs

/-- The child loop of `collect_words_from_node`. -/
def collectChildren (pre : List Byte) : List (Byte × RNode) → List (List Byte)
  | [] => []
  | (_, c) :: rest => collectWords c pre ++ collectChildren pre rest

end

/-- The descent loop of `RadixTrie::words_with_prefix` for a non-empty
prefix.  `consumed` is the part of the prefix already matched
(`prefix.substr(0, pos)` in the C++, i.e. everything consumed before
entering the child under examination).  When the prefix ends inside a
child's edge label, all words below that child are collected under
`consumed` (`collect_words_from_node(child, prefix.substr(0, pos), …)`);
when it ends exactly on the child's key boundary, the post-loop block
fires: it resizes `base_prefix` by `current->key`, which is again
`consumed`, and collects from the child.  The empty-remainder arm is never
reached (`words_with_prefix` handles the empty prefix itself and the loop
stops before consuming past the prefix), mirroring the C++ loop condition
`pos < prefix.length()`. -/
def wwpGo (n : RNode) (consumed : List Byte) (r : List Byte) : List (List Byte) :=
  match r with
  | [] => []
  | c :: rtl =>
    match (findLB n.children c).2 with
    | [] => []
    | (k1, child) :: _ =>
      if k1 ≠ c then []
      else if (c :: rtl).length < child.key.length then
        if child.key.take (c :: rtl).length = c :: rtl then collectWords child consumed else []
      else if (c :: rtl).take child.key.length ≠ child.key then []
      else if hk : child.key = [] then []
      else if (c :: rtl).length = child.key.length then collectWords child consumed
      else wwpGo child (consumed ++ child.key) ((c :: rtl).drop child.key.length)
termination_by r.length
decreasing_by
  simp only [List.length_drop, List.length_cons]
  have hlen : child.key.length ≠ 0 := by
    intro h0
    exact hk (List.eq_nil_of_length_eq_zero h0)
  omega

/-- `RadixTrie::words_with_prefix`: empty prefix enumerates every stored
word from the root; otherwise descend on the prefix. -/
def wordsWithPfx (t : Trie) (p : List Byte) : List (List Byte) :=
  if p = [] then collectWords t.root [] else wwpGo t.root [] p

/-- The flag mutation of `RadixTrie::remove` (`node->is_end = false`),
expressed as a rebuild along the same descent as `find_node`. -/
def clearEndGo (n : RNode) (r : List Byte) : RNode :=
  match n, r with
  | .mk k _ cs, [] => .mk k false cs
  | .mk k e cs, c :: rtl =>
    match (findLB cs c).2 with
    | [] => .mk k e cs
    | (k1, child) :: rest =>
      if k1 ≠ c then .mk k e cs
      else if hk : child.key = [] then .mk k e cs
      else if child.key.length > (c :: rtl).length then .mk k e cs
      else if (c :: rtl).take child.key.length ≠ child.key then .mk k e cs
      else
        .mk k e
          ((findLB cs c).1 ++ (k1, clearEndGo child ((c :: rtl).drop child.key.length)) :: rest)
termination_by r.length
decreasing_by
  simp only [List.length_drop, List.length_cons]
  have hlen : child.key.length ≠ 0 := by
    intro h0
    exact hk (List.eq_nil_of_length_eq_zero h0)
  omega

/-- The upward loop of `RadixTrie::cleanup_orphaned_nodes`, expressed
top-down: descend to the node for `r`; on the way back erase a child from
its parent's vector when it has become childless and non-terminal (the
erase via `find_child(parent, parent_char)`).  The C++ loop walks parent
pointers from the target and stops at the first node it cannot erase;
rebuilding bottom-up erases exactly the same chain, because a surviving
node keeps its parent non-childless. -/
def prunePathGo (n : RNode) (r : List Byte) : RNode :=
  match n, r with
  | n, [] => n
  | .mk k e cs, c :: rtl =>
    match (findLB cs c).2 with
    | [] => .mk k e cs
    | (k1, child) :: rest =>
      if k1 ≠ c then .mk k e cs
      else if hk : child.key = [] then .mk k e cs
      else if child.key.length > (c :: rtl).length then .mk k e cs
      else if (c :: rtl).take child.key.length ≠ child.key then .mk k e cs
      else if (c :: rtl).length = child.key.length then
        -- `child` is the target node: first iteration of the upward loop.
        if child.children.isEmpty && !child.is_end then .mk k e ((findLB cs c).1 ++ rest)
        else .mk k e cs
      else
        let child' := prunePathGo child ((c :: rtl).drop child.key.length)
        if child'.children.isEmpty && !child'.is_end then .mk k e ((findLB cs c).1 ++ rest)
        else .mk k e ((findLB cs c).1 ++ (k1, child') :: rest)
termination_by r.length
decreasing_by
  simp only [List.length_drop, List.length_cons]
  have hlen : child.key.length ≠ 0 := by
    intro h0
    exact hk (List.eq_nil_of_length_eq_zero h0)
  omega

/-- `RadixTrie::cleanup_orphaned_nodes`: empty-word guard, re-descent to
the node for `word`, and the guard `current && current->is_end` in front of
the upward pruning loop. -/
def cleanupOrphanedNodes (root : RNode) (w : List Byte) : RNode :=
  if w = [] then root
  else
    match findNodeGo root w with
    | none => root
    | some tgt => if tgt.is_end then prunePathGo root w else root

/-- `RadixTrie::remove`: `false` on the empty word or when the word is not
stored; otherwise clear the terminal flag, decrement `word_count_`, and run
the cleanup pass. -/
def removeT (t : Trie) (w : List Byte) : Bool × Trie :=
  if w = [] then (false, t)
  else
    match findNodeT t w with
    | some n =>
      if n.is_end then
        let root1 := clearEndGo t.root w
        let root2 := cleanupOrphanedNodes root1 w
        (true, ⟨root2, t.count - 1⟩)
      else (false, t)
    | none => (false, t)

/-- `RadixTrie::matches_pattern`.  The C++ is an index loop with a
recursive call on `'*'`; re-expressed as recursion on the two suffixes.
When the word is exhausted the loop stops, trailing `'*'`s are stripped and
both strings must be consumed; `'?'` consumes one byte; a non-final `'*'`
tries every suffix of the remaining word (indices `word_idx..word_len`,
i.e. all tails including the empty one) against the rest of the pattern; a
final `'*'` succeeds outright. -/
def matchesPattern (word pat : List Byte) : Bool :=
  match word, pat with
  | [], p => (p.dropWhile (fun q => decide (q = star))).isEmpty
  | _ :: _, [] => false
  | c :: w', q :: p' =>
    if q = qmark then matchesPattern w' p'
    else if q = star then
      if p' = [] then true
      else (c :: w').tails.any (fun s => matchesPattern s p')
    else if q = c then matchesPattern w' p'
    else false
termination_by pat.length
decreasing_by
  all_goals simp only [List.length_cons]
  all_goals omega

/-- Modelled from the spec: the glob semantics the pattern language is
specified to have — a literal byte matches itself, `?` matches exactly one
byte, `*` matches zero or more bytes. -/
def globMatch (word pat : List Byte) : Bool :=
  match pat with
  | [] => word.isEmpty
  | q :: p' =>
    if q = star then
      globMatch word p' ||
        (match word with
         | [] => false
         | _ :: w' => globMatch w' (q :: p'))
    else
      match word with
      | [] => false
      | c :: w' => (decide (q = qmark) || decide (q = c)) && globMatch w' p'
termination_by (pat.length, word.length)
decreasing_by
  all_goals simp only [List.length_cons]
  all_goals first
    | apply Prod.Lex.left; omega
    | apply Prod.Lex.right'; omega; omega

mutual

/-- `RadixTrie::pattern_match_recursive`: the word-collecting DFS filtered
through `matches_pattern`. -/
def patternMatchGo (n : RNode) (pre : List Byte) (pat : List Byte) : List (List Byte) :=
  match n with
  | .mk k e cs =>
    (if e && matchesPattern (pre ++ k) pat then [pre ++ k] else []) ++
      patternMatchChildren (pre ++ k) pat cs

/-- The child loop of `pattern_match_recursive`. -/
def patternMatchChildren (pre : List Byte) (pat : List Byte) :
    List (Byte × RNode) → List (List Byte)
  | [] => []
  | (_, c) :: rest => patternMatchGo c pre pat ++ patternMatchChildren pre pat rest

end

/-- Sorted insertion by `lexLt` (unsigned `std::string` order). -/
def insSorted (w : List Byte) : List (List Byte) → List (List Byte)
  | [] => [w]
  | x :: xs => if lexLt w x then w :: x :: xs else x :: insSorted w xs

/-- The `std::sort` call at the end of `pattern_search`: the result is the
ascending reordering of the matches under `std::string::operator<`
(a linear order, so every correct sort returns the same list; modelled by
insertion sort). -/
def sortWords (l : List (List Byte)) : List (List Byte) :=
  l.foldr insSorted []

/-- `RadixTrie::pattern_search`: empty pattern or empty trie give the empty
result; otherwise collect every terminal word matching the pattern and sort
ascending. -/
def patternSearchT (t : Trie) (pat : List Byte) : List (List Byte) :=
  if pat = [] || emptyB t then []
  else sortWords (patternMatchGo t.root [] pat)

/-- The trailing-whitespace trim of `bulk_insert_from_file`
(`while (e > b && isspace(s[e-1])) --e`). -/
def trimEndB (l : List Byte) : List Byte := (l.reverse.dropWhile isSpaceB).reverse

/-- The full trim of `bulk_insert_from_file`: trailing then leading ASCII
whitespace (the order is as in the C++; the bound `b < e` is implicit). -/
def trimB (l : List Byte) : List Byte := (trimEndB l).dropWhile isSpaceB

/-- One chunk of the ingest loop, processed byte by byte.  `seg` is the
current segment `buffer[line_start..i)`, `carry` the partial line carried
in from previous chunks.  At a delimiter the C++ inserts the trimmed
`carry + segment` when it is non-empty (its two branches compute exactly
that: the view branch has an empty carry), clears the carry, and skips
ahead; skipped consecutive delimiters are the no-record case below.  At the
end of the chunk the remaining segment is appended to the carry. -/
def scanChunkGo (t : Trie) (cnt : Nat) (carry seg : List Byte) :
    List Byte → Trie × Nat × List Byte
  | [] => (t, cnt, carry ++ seg)
  | b :: rest =>
    if isDelimB b then
      if seg.length > 0 || !(carry.isEmpty) then
        let tr := trimB (carry ++ seg)
        if tr.isEmpty then scanChunkGo t cnt [] [] rest
        else scanChunkGo (insertT t tr) (cnt + 1) [] [] rest
      else scanChunkGo t cnt [] [] rest
    else scanChunkGo t cnt carry (seg ++ [b]) rest

/-- The fixed-size reads of `bulk_insert_from_file`: the stream's bytes in
order, grouped into chunks of `B` (`file.read(buffer, B)` / `gcount`).
With `B = 0` every read returns zero bytes and the loop exits at once. -/
def chunksOf (B : Nat) (l : List Byte) : List (List Byte) :=
  if h : l = [] ∨ B = 0 then []
  else l.take B :: chunksOf B (l.drop B)
termination_by l.length
decreasing_by
  push_neg at h
  obtain ⟨h1, h2⟩ := h
  simp only [List.length_drop]
  have : l.length ≠ 0 := fun h0 => h1 (List.eq_nil_of_length_eq_zero h0)
  omega

/-- The final-carry block after the read loop of `bulk_insert_from_file`:
trim the leftover partial line and insert it when non-empty. -/
def finalCarry : Trie × Nat × List Byte → Trie × Nat
  | (t, cnt, carry) =>
    if carry.isEmpty then (t, cnt)
    else
      let tr := trimB carry
      if tr.isEmpty then (t, cnt) else (insertT t tr, cnt + 1)

/-- `RadixTrie::bulk_insert_from_file`, as a function of the stream's byte
contents and the buffer size: fold the chunk scanner over the fixed-size
reads, then process the final carry.  Returns the new trie and the number
of `insert` calls made (`words_inserted`). -/
def bulkT (t : Trie) (bytes : List Byte) (B : Nat) : Trie × Nat :=
  let st := (chunksOf B bytes).foldl
    (fun (acc : Trie × Nat × List Byte) chunk => scanChunkGo acc.1 acc.2.1 acc.2.2 [] chunk)
    (t, 0, [])
  finalCarry st

/-- Modelled from the spec: the raw records of a byte stream — the maximal
non-empty runs of non-delimiter bytes (splitting at every run of `\n`/`\r`
yields no empty record). -/
def splitGo (cur : List Byte) : List Byte → List (List Byte)
  | [] => if cur.isEmpty then [] else [cur]
  | b :: rest =>
    if isDelimB b then
      if cur.isEmpty then splitGo [] rest else cur :: splitGo [] rest
    else splitGo (cur ++ [b]) rest

/-- Modelled from the spec: the records a stream denotes — split at runs of
delimiters, trim each segment of ASCII whitespace, drop the ones that are
empty after trimming. -/
def recordsOf (bytes : List Byte) : List (List Byte) :=
  ((splitGo [] bytes).map trimB).filter (fun r => !r.isEmpty)

/-- A public mutating operation of the trie API. -/
inductive Op : Type where
  | ins (w : List Byte)
  | rem (w : List Byte)
  | clr
  | blk (bytes : List Byte) (B : Nat)

/-- Apply one public operation. -/
def applyOp (t : Trie) : Op → Trie
  | .ins w => insertT t w
  | .rem w => (removeT t w).2
  | .clr => emptyTrie
  | .blk bytes B => (bulkT t bytes B).1

/-- The trie reached from a fresh `RadixTrie()` by a sequence of public
operations. -/
def applyOps (ops : List Op) : Trie := ops.foldl applyOp emptyTrie

/-- Adjacent strict sortedness of a child vector under the signed byte
order (what `lower_bound` requires and insertion maintains). -/
def chainSortedB : List (Byte × RNode) → Bool
  | [] => true
  | [_] => true
  | (k1, c1) :: (k2, c2) :: rest => sgnLt k1 k2 && chainSortedB ((k2, c2) :: rest)

mutual

/-- Structural well-formedness of a node: its child vector is strictly
sorted by the signed byte order, and every child has a non-empty edge label
whose first byte is its pair key. -/
def nodeWF : RNode → Bool
  | .mk _ _ cs => chainSortedB cs && childrenWF cs

/-- Well-formedness of all entries of a child vector. -/
def childrenWF : List (Byte × RNode) → Bool
  | [] => true
  | (k, c) :: rest =>
    !(c.key.isEmpty) && decide (c.key.headD 0 = k) && nodeWF c && childrenWF rest

end

mutual

/-- Every node strictly below this one is terminal or has at least two
children (so in particular no non-root non-terminal node has exactly one
child, and every leaf is terminal). -/
def subGoodB : RNode → Bool
  | .mk _ _ cs => childrenGoodB cs

/-- `nodeGoodB` over all entries of a child vector. -/
def childrenGoodB : List (Byte × RNode) → Bool
  | [] => true
  | (_, c) :: rest => nodeGoodB c && childrenGoodB rest

/-- A non-root node is good when it is terminal or has at least two
children, and all nodes below it are good. -/
def nodeGoodB (n : RNode) : Bool :=
  (n.is_end || decide (2 ≤ n.children.length)) && subGoodB n

end

mutual

/-- No node strictly below this one is non-terminal with exactly one child
(the compression property claimed of the trie, root excluded). -/
def subNoLoneB : RNode → Bool
  | .mk _ _ cs => childrenNoLoneB cs

/-- `noLoneB` over all entries of a child vector. -/
def childrenNoLoneB : List (Byte × RNode) → Bool
  | [] => true
  | (_, c) :: rest => noLoneB c && childrenNoLoneB rest

/-- A non-root node is not a lone-child violation: terminal, or its number
of children differs from one; and the same below it. -/
def noLoneB (n : RNode) : Bool :=
  (n.is_end || decide (n.children.length ≠ 1)) && subNoLoneB n

end

/-- The compression property of a trie: no non-root node is non-terminal
with exactly one child. -/
def noLoneTrieB (t : Trie) : Bool := subNoLoneB t.root

/-- A child vector's keys ascending in raw (unsigned) byte order. -/
def unsignedSortedB : List Byte → Bool
  | [] => true
  | [_] => true
  | a :: b :: rest => decide (a.val < b.val) && unsignedSortedB (b :: rest)

/-! ### Basic facts about the byte orders -/

theorem sgn_inj {a b : Byte} (h : sgn a = sgn b) : a = b := by
  have ha := a.isLt
  have hb := b.isLt
  unfold sgn at h
  apply Fin.ext
  split at h <;> split at h <;> omega

theorem sgnLt_irrefl (a : Byte) : sgnLt a a = false := by
  simp [sgnLt]

theorem sgnLt_trans {a b c : Byte} (h1 : sgnLt a b = true) (h2 : sgnLt b c = true) :
    sgnLt a c = true := by
  simp only [sgnLt, decide_eq_true_eq] at *
  exact lt_trans h1 h2

theorem sgnLt_asymm {a b : Byte} (h : sgnLt a b = true) : sgnLt b a = false := by
  simp only [sgnLt, decide_eq_true_eq, decide_eq_false_iff_not, not_lt] at *
  exact le_of_lt h

theorem sgnLt_of_not_of_ne {a b : Byte} (h1 : sgnLt a b = false) (h2 : a ≠ b) :
    sgnLt b a = true := by
  simp only [sgnLt, decide_eq_true_eq, decide_eq_false_iff_not, not_lt] at *
  rcases lt_or_eq_of_le h1 with h | h
  · exact h
  · exact absurd (sgn_inj h) (Ne.symm h2)

/-! ### Facts about `findLB` -/

theorem findLB_append (cs : List (Byte × RNode)) (c : Byte) :
    (findLB cs c).1 ++ (findLB cs c).2 = cs := by
  induction cs with
  | nil => rfl
  | cons p rest ih =>
    obtain ⟨k, n⟩ := p
    simp only [findLB]
    split
    · simpa using ih
    · rfl

theorem findLB_nil (c : Byte) : findLB [] c = ([], []) := rfl

theorem findLB_pre_lt (cs : List (Byte × RNode)) (c : Byte) :
    ∀ p ∈ (findLB cs c).1, sgnLt p.1 c = true := by
  induction cs with
  | nil => intro p hp; simp [findLB] at hp
  | cons q rest ih =>
    obtain ⟨k, n⟩ := q
    intro p hp
    simp only [findLB] at hp
    split at hp
    · rcases (List.mem_cons).1 hp with h | h
      · subst h; assumption
      · exact ih p h
    · simp at hp

theorem findLB_post_head {cs : List (Byte × RNode)} {c k1 : Byte} {child : RNode}
    {rest : List (Byte × RNode)} (h : (findLB cs c).2 = (k1, child) :: rest) :
    sgnLt k1 c = false := by
  induction cs with
  | nil => simp [findLB] at h
  | cons q rest2 ih =>
    obtain ⟨k, n⟩ := q
    simp only [findLB] at h
    split at h
    · exact ih h
    · rename_i hlt
      obtain ⟨h1, h2⟩ := Prod.mk.injEq .. ▸ (List.cons.injEq .. ▸ h).1
      subst h1
      simpa using hlt

/-! ### `cleanup_orphaned_nodes` never changes the tree

`remove` clears the terminal flag *before* calling the cleanup pass, and
the pass only acts when the node it re-finds is still terminal — in which
case its upward loop stops at that very node on the first iteration.
Consequently the pass is the identity on every input. -/

theorem findNodeGo_children_ne_nil {n : RNode} {r : List Byte} {tgt : RNode}
    (hr : r ≠ []) (h : findNodeGo n r = some tgt) : n.children ≠ [] := by
  intro hnil
  cases r with
  | nil => exact hr rfl
  | cons c rtl =>
    rw [findNodeGo, hnil, findLB_nil] at h
    simp at h

theorem prunePathGo_of_found {n : RNode} {r : List Byte} {tgt : RNode}
    (hfind : findNodeGo n r = some tgt) (hend : tgt.is_end = true) :
    prunePathGo n r = n := by
  induction n, r using prunePathGo.induct with
  | case1 n =>
    cases n
    rw [prunePathGo.eq_def]
  | case2 k e cs c rtl hpost =>
    rw [prunePathGo.eq_def]
    simp only [hpost]
  | case3 k e cs c rtl k1 child rest hpost hne =>
    rw [findNodeGo.eq_def] at hfind
    simp only [RNode.children, hpost, if_pos hne] at hfind
    exact Option.noConfusion hfind
  | case4 k e cs c rtl k1 child rest hpost hne hk =>
    rw [findNodeGo.eq_def] at hfind
    simp only [RNode.children, hpost, if_neg hne, dif_pos hk] at hfind
    exact Option.noConfusion hfind
  | case5 k e cs c rtl k1 child rest hpost hne hk hlen =>
    rw [findNodeGo.eq_def] at hfind
    simp only [RNode.children, hpost, if_neg hne, dif_neg hk, if_pos hlen] at hfind
    exact Option.noConfusion hfind
  | case6 k e cs c rtl k1 child rest hpost hne hk hlen htake =>
    rw [findNodeGo.eq_def] at hfind
    simp only [RNode.children, hpost, if_neg hne, dif_neg hk, if_neg hlen, if_pos htake] at hfind
    exact Option.noConfusion hfind
  | case7 k e cs c rtl k1 child rest hpost hne hk hlen htake heq hcond =>
    -- the found node would be the target, but it is terminal while the
    -- erase condition demands non-terminal: contradiction with `hend`.
    rw [findNodeGo.eq_def] at hfind
    simp only [RNode.children, hpost, if_neg hne, dif_neg hk, if_neg hlen, if_neg htake] at hfind
    have hdrop : (c :: rtl).drop child.key.length = [] := by
      apply List.eq_nil_of_length_eq_zero
      simp only [List.length_drop]
      omega
    rw [hdrop, findNodeGo.eq_def] at hfind
    simp only [Option.some.injEq] at hfind
    subst hfind
    simp only [Bool.and_eq_true, Bool.not_eq_true'] at hcond
    rw [hend] at hcond
    exact absurd hcond.2 (by simp)
  | case8 k e cs c rtl k1 child rest hpost hne hk hlen htake heq hcond =>
    rw [prunePathGo.eq_def]
    simp only [hpost, if_neg hne, dif_neg hk, if_neg hlen, if_neg htake, if_pos heq, if_neg hcond]
  | case9 k e cs c rtl k1 child rest hpost hne hk hlen htake hne2 child2 hcond ih =>
    -- the recursive call leaves `child` unchanged, and `child` cannot be
    -- childless (the descent went through one of its children).
    rw [findNodeGo.eq_def] at hfind
    simp only [RNode.children, hpost, if_neg hne, dif_neg hk, if_neg hlen, if_neg htake] at hfind
    have hprune := ih hfind
    have hc2 : child2 = child := by
      rw [show child2 = prunePathGo child (List.drop child.key.length (c :: rtl)) from rfl, hprune]
    rw [hc2] at hcond
    have hdropne : (c :: rtl).drop child.key.length ≠ [] := by
      intro h0
      have := congrArg List.length h0
      simp only [List.length_drop, List.length_nil, List.length_cons] at this hlen hne2
      omega
    have hcne : child.children ≠ [] := findNodeGo_children_ne_nil hdropne hfind
    simp only [Bool.and_eq_true, List.isEmpty_iff] at hcond
    exact absurd hcond.1 hcne
  | case10 k e cs c rtl k1 child rest hpost hne hk hlen htake hne2 child2 hcond ih =>
    rw [findNodeGo.eq_def] at hfind
    simp only [RNode.children, hpost, if_neg hne, dif_neg hk, if_neg hlen, if_neg htake] at hfind
    have hprune := ih hfind
    have hc2 : child2 = child := by
      rw [show child2 = prunePathGo child (List.drop child.key.length (c :: rtl)) from rfl, hprune]
    rw [hc2] at hcond
    rw [prunePathGo.eq_def]
    simp only [hpost, if_neg hne, dif_neg hk, if_neg hlen, if_neg htake, if_neg hne2, hprune,
      if_neg hcond]
    conv_rhs => rw [← findLB_append cs c, hpost]

/-- The cleanup pass of `remove` is the identity on every tree and every
word: either the re-descent fails, or the node it finds is non-terminal
(failing the guard), or it is terminal and the upward loop stops on it at
once. -/
theorem cleanupOrphanedNodes_id (root : RNode) (w : List Byte) :
    cleanupOrphanedNodes root w = root := by
  by_cases hw : w = []
  · simp [cleanupOrphanedNodes, hw]
  · cases hfind : findNodeGo root w with
    | none => simp [cleanupOrphanedNodes, hw, hfind]
    | some tgt =>
      by_cases hend : tgt.is_end = true
      · simp [cleanupOrphanedNodes, hw, hfind, hend, prunePathGo_of_found hfind hend]
      · simp [cleanupOrphanedNodes, hw, hfind, hend]

/-- What `remove` does on success: clear the terminal flag along the path
and decrement the counter (the cleanup pass changes nothing). -/
theorem removeT_found {t : Trie} {w : List Byte} {tgt : RNode} (hw : w ≠ [])
    (hfind : findNodeT t w = some tgt) (hend : tgt.is_end = true) :
    removeT t w = (true, ⟨clearEndGo t.root w, t.count - 1⟩) := by
  unfold removeT
  rw [if_neg hw, hfind]
  simp only [hend, if_true, cleanupOrphanedNodes_id]

/-- `remove` leaves the trie untouched whenever it returns `false`. -/
theorem removeT_false_eq {t : Trie} {w : List Byte} (h : (removeT t w).1 = false) :
    (removeT t w).2 = t := by
  by_cases hw : w = []
  · simp [removeT, hw]
  · cases hfind : findNodeT t w with
    | none => simp [removeT, hw, hfind]
    | some n =>
      by_cases hend : n.is_end = true
      · exfalso
        rw [removeT_found hw hfind hend] at h
        simp at h
      · simp [removeT, hw, hfind, hend]

/-- C9: for every trie state and every word `w`, if `remove(w)` returns
`false` then the trie is completely unchanged — same root tree and same
`word_count` (the code mutates nothing before any `return false`). -/
theorem c9_remove_false_unchanged (t : Trie) (w : List Byte)
    (h : (removeT t w).1 = false) :
    (removeT t w).2 = t ∧ sizeT (removeT t w).2 = sizeT t := by
  refine ⟨removeT_false_eq h, ?_⟩
  rw [removeT_false_eq h]

/-- Witness for C9 at a concrete input: removing `"a"` from the empty trie
returns `false` and changes nothing. -/
theorem c9_witness :
    (removeT emptyTrie [97]).1 = false ∧ (removeT emptyTrie [97]).2 = emptyTrie := by
  have hfalse : (removeT emptyTrie [97]).1 = false := by
    simp [removeT, findNodeT, findNodeGo, findLB, emptyTrie, RNode.children]
  exact ⟨hfalse, (c9_remove_false_unchanged emptyTrie [97] hfalse).1⟩

/-- C10: `search` on the empty string returns `false` (`find_node` refuses
the empty word) and `remove` on the empty string returns `false`, on every
trie state. -/
theorem c10_empty_word_queries (t : Trie) :
    searchT t [] = false ∧ (removeT t []).1 = false := by
  constructor
  · simp [searchT, findNodeT]
  · simp [removeT]

set_option maxRecDepth 4000

/-- Counterexample to C1 as stated: from the empty trie, `insert "a"`,
`insert "ab"`, `remove "a")` leaves the node labelled `"a"` non-terminal
with exactly one child `"b"` — nothing is detached or merged, because the
cleanup pass re-checks the terminal flag after `remove` has already cleared
it. -/
theorem c1_counterexample :
    noLoneTrieB (applyOps [Op.ins [97], Op.ins [97, 98], Op.rem [97]]) = false := by
  simp [applyOps, applyOp, insertT, insertGo, findLB, commonPrefixLen, emptyTrie, removeT,
    findNodeT, findNodeGo, clearEndGo, cleanupOrphanedNodes_id, noLoneTrieB, subNoLoneB,
    childrenNoLoneB, noLoneB, RNode.children, RNode.key, RNode.is_end, sgnLt, sgn]

/-- Counterexample to C5 as stated: when `w` is already stored,
`insert(w); remove(w)` deletes it — starting from the trie holding `"a"`,
the sequence drops `size()` from 1 to 0. -/
theorem c5_counterexample :
    sizeT (removeT (insertT (applyOps [Op.ins [97]]) [97]) [97]).2 ≠
      sizeT (applyOps [Op.ins [97]]) := by
  simp [applyOps, applyOp, insertT, insertGo, findLB, commonPrefixLen, emptyTrie, removeT,
    findNodeT, findNodeGo, clearEndGo, cleanupOrphanedNodes_id, sizeT,
    RNode.children, RNode.key, RNode.is_end, sgnLt, sgn]

/-- Counterexample to C8 as stated: `find_child` compares `char`s, which
are signed on the reference platform, so after inserting `"A"` (0x41) and
then `"\xC8"` (0xC8) the root's child keys stand in the order
`[0xC8, 0x41]` — not ascending in raw unsigned byte order. -/
theorem c8_counterexample :
    unsignedSortedB ((applyOps [Op.ins [65], Op.ins [200]]).root.children.map Prod.fst) =
      false := by
  simp [applyOps, applyOp, insertT, insertGo, findLB, emptyTrie, unsignedSortedB,
    RNode.children, RNode.key, RNode.is_end, sgnLt, sgn]

/-! ### Infrastructure: the word-collecting DFS -/

theorem collectChildren_append (pre : List Byte) (xs ys : List (Byte × RNode)) :
    collectChildren pre (xs ++ ys) = collectChildren pre xs ++ collectChildren pre ys := by
  induction xs with
  | nil => simp [collectChildren]
  | cons p rest ih =>
    obtain ⟨a, c⟩ := p
    simp [collectChildren, ih]

theorem collectWords_mk (k : List Byte) (e : Bool) (cs : List (Byte × RNode)) (pre : List Byte) :
    collectWords (.mk k e cs) pre =
      (if e then [pre ++ k] else []) ++ collectChildren (pre ++ k) cs := by
  rw [collectWords]

/-- Splitting an edge label does not change the collected words. -/
theorem collectWords_split_key (a b : List Byte) (e : Bool) (cs : List (Byte × RNode))
    (pre : List Byte) :
    collectWords (.mk (a ++ b) e cs) pre = collectWords (.mk b e cs) (pre ++ a) := by
  rw [collectWords_mk, collectWords_mk, List.append_assoc]

/-- Every word collected below `n` extends `pre ++ n.key`. -/
theorem collectWords_shape (n : RNode) :
    ∀ pre w, w ∈ collectWords n pre → ∃ suffix, w = pre ++ n.key ++ suffix := by
  induction n using RNode.ind with
  | _ k e cs ih =>
    intro pre w hw
    rw [collectWords_mk] at hw
    rcases List.mem_append.1 hw with h | h
    · refine ⟨[], ?_⟩
      split at h <;> simp_all [RNode.key]
    · clear hw
      induction cs with
      | nil => simp [collectChildren] at h
      | cons p rest ihl =>
        obtain ⟨a, c⟩ := p
        rw [collectChildren, List.mem_append] at h
        rcases h with h | h
        · obtain ⟨s2, hs2⟩ := ih (a, c) (by simp) (pre ++ k) w h
          exact ⟨c.key ++ s2, by simpa [RNode.key, List.append_assoc] using hs2⟩
        · exact ihl (fun p hp => ih p (by simp [hp])) h

/-! ### Infrastructure: `findLB` and `commonPrefixLen` -/

/-- `lower_bound` recomputed on a rebuilt child vector: if everything in
`xs` is below `c` and the head of the tail part is not, the split point is
between them. -/
theorem findLB_rebuild {xs : List (Byte × RNode)} {c : Byte} {y : Byte × RNode}
    {ys : List (Byte × RNode)} (hxs : ∀ p ∈ xs, sgnLt p.1 c = true)
    (hy : sgnLt y.1 c = false) :
    findLB (xs ++ y :: ys) c = (xs, y :: ys) := by
  induction xs with
  | nil =>
    obtain ⟨b, m⟩ := y
    simp only [List.nil_append, findLB]
    rw [hy]
    simp
  | cons p rest ih =>
    obtain ⟨a, m⟩ := p
    simp only [List.cons_append, findLB]
    rw [hxs (a, m) (by simp)]
    simp only [if_true]
    simp [ih (fun q hq => hxs q (by simp [hq]))]

theorem commonPrefixLen_le_left (a b : List Byte) : commonPrefixLen a b ≤ a.length := by
  induction a generalizing b with
  | nil => simp [commonPrefixLen]
  | cons x xs ih =>
    cases b with
    | nil => simp [commonPrefixLen]
    | cons y ys =>
      rw [commonPrefixLen]
      split
      · simpa using ih ys
      · simp

theorem commonPrefixLen_le_right (a b : List Byte) : commonPrefixLen a b ≤ b.length := by
  induction a generalizing b with
  | nil => simp [commonPrefixLen]
  | cons x xs ih =>
    cases b with
    | nil => simp [commonPrefixLen]
    | cons y ys =>
      rw [commonPrefixLen]
      split
      · simpa using ih ys
      · simp

/-- `commonPrefixLen a b = a.length` exactly when `a` is a prefix of `b`. -/
theorem commonPrefixLen_eq_length_iff {a b : List Byte} (hle : a.length ≤ b.length) :
    commonPrefixLen a b = a.length ↔ b.take a.length = a := by
  induction a generalizing b with
  | nil => simp [commonPrefixLen]
  | cons x xs ih =>
    cases b with
    | nil => simp at hle
    | cons y ys =>
      simp only [List.length_cons, List.take_succ_cons] at *
      rw [commonPrefixLen]
      split
      · rename_i hxy
        subst hxy
        constructor
        · intro h
          rw [(ih (by omega)).1 (by omega)]
        · intro h
          have := (List.cons.injEq .. ▸ h).2
          rw [(ih (by omega)).2 this]
      · rename_i hxy
        constructor
        · intro h
          have := commonPrefixLen_le_left xs ys
          omega
        · intro h
          exact absurd (List.cons.injEq .. ▸ h).1 (fun he => hxy he.symm)

/-- The two strings agree on the first `commonPrefixLen` bytes. -/
theorem commonPrefixLen_take (a b : List Byte) :
    a.take (commonPrefixLen a b) = b.take (commonPrefixLen a b) := by
  induction a generalizing b with
  | nil =>
    rw [show commonPrefixLen [] b = 0 from by cases b <;> rfl]
    simp
  | cons x xs ih =>
    cases b with
    | nil => simp [commonPrefixLen]
    | cons y ys =>
      rw [commonPrefixLen]
      split
      · rename_i hxy
        subst hxy
        simp only [List.take_succ_cons, List.cons.injEq, true_and]
        exact ih ys
      · simp

/-- At the end of the common prefix, the strings differ (when both go on). -/
theorem commonPrefixLen_ne {a b : List Byte} (ha : commonPrefixLen a b < a.length)
    (hb : commonPrefixLen a b < b.length) :
    a.getD (commonPrefixLen a b) 0 ≠ b.getD (commonPrefixLen a b) 0 := by
  induction a generalizing b with
  | nil => simp at ha
  | cons x xs ih =>
    cases b with
    | nil => simp at hb
    | cons y ys =>
      by_cases hxy : x = y
      · subst hxy
        have hcp : commonPrefixLen (x :: xs) (x :: ys) = commonPrefixLen xs ys + 1 := by
          rw [commonPrefixLen]
          simp
        rw [hcp] at ha hb ⊢
        simp only [List.getD_cons_succ]
        simp only [List.length_cons, Nat.add_lt_add_iff_right] at ha hb
        exact ih ha hb
      · have hcp : commonPrefixLen (x :: xs) (y :: ys) = 0 := by
          rw [commonPrefixLen]
          simp [hxy]
        rw [hcp]
        simpa using hxy

/-! ### Infrastructure: basic shape facts about `insertGo` -/

theorem insertGo_key (n : RNode) (r : List Byte) : (insertGo n r).1.key = n.key := by
  rw [insertGo.eq_def]
  dsimp only
  split
  · rfl
  · split
    · simp [RNode.key]
    · split
      · simp [RNode.key]
      · split
        · split
          · split <;> simp [RNode.key]
          · split
            · simp [RNode.key]
            · simp [RNode.key]
        · split <;> simp [RNode.key]

theorem insertGo_is_end (n : RNode) (r : List Byte) : (insertGo n r).1.is_end = n.is_end := by
  rw [insertGo.eq_def]
  dsimp only
  split
  · rfl
  · split
    · simp [RNode.is_end]
    · split
      · simp [RNode.is_end]
      · split
        · split
          · split <;> simp [RNode.is_end]
          · split
            · simp [RNode.is_end]
            · simp [RNode.is_end]
        · split <;> simp [RNode.is_end]

theorem insertGo_children_length (n : RNode) (r : List Byte) :
    n.children.length ≤ (insertGo n r).1.children.length := by
  rw [insertGo.eq_def]
  dsimp only
  split
  · exact le_refl _
  · rename_i k e cs c rtl
    have hsplit := findLB_append cs c
    split
    · rename_i hpost
      have := congrArg List.length hsplit
      rw [hpost] at this
      simp only [RNode.children]
      simp at this ⊢
      omega
    · rename_i k1 child rest hpost
      have := congrArg List.length hsplit
      rw [hpost] at this
      simp only [List.length_append, List.length_cons] at this
      split
      · simp only [RNode.children, hpost, List.length_append, List.length_cons]
        omega
      · split
        · split
          · split <;> simp only [RNode.children, hpost, List.length_append, List.length_cons] <;>
              omega
          · split
            · simp only [RNode.children]
              omega
            · simp only [RNode.children, hpost, List.length_append, List.length_cons]
              omega
        · split <;> simp only [RNode.children, hpost, List.length_append, List.length_cons] <;>
            omega

/-! ### Case equations for `insertGo` -/

theorem insertGo_nil (n : RNode) : insertGo n [] = (n, false) := by
  cases n
  rw [insertGo.eq_def]

theorem insertGo_eq_newleaf {cs : List (Byte × RNode)} {c : Byte} (k : List Byte) (e : Bool)
    (rtl : List Byte) (hpost : (findLB cs c).2 = []) :
    insertGo (.mk k e cs) (c :: rtl) =
      (.mk k e ((findLB cs c).1 ++ [(c, .mk (c :: rtl) true [])]), true) := by
  rw [insertGo.eq_def]
  dsimp only
  rw [hpost]

theorem insertGo_eq_wrongkey {cs : List (Byte × RNode)} {c k1 : Byte} {child : RNode}
    {rest : List (Byte × RNode)} (k : List Byte) (e : Bool) (rtl : List Byte)
    (hpost : (findLB cs c).2 = (k1, child) :: rest) (hne : k1 ≠ c) :
    insertGo (.mk k e cs) (c :: rtl) =
      (.mk k e ((findLB cs c).1 ++ (c, .mk (c :: rtl) true []) :: (k1, child) :: rest), true) := by
  rw [insertGo.eq_def]
  dsimp only
  rw [hpost]
  dsimp only
  rw [if_pos hne]

theorem insertGo_eq_exact_done {cs : List (Byte × RNode)} {c k1 : Byte} {child : RNode}
    {rest : List (Byte × RNode)} (k : List Byte) (e : Bool) (rtl : List Byte)
    (hpost : (findLB cs c).2 = (k1, child) :: rest) (hne : ¬k1 ≠ c)
    (hm : commonPrefixLen child.key (c :: rtl) = child.key.length)
    (hr : (c :: rtl).length = commonPrefixLen child.key (c :: rtl))
    (hend : child.is_end = true) :
    insertGo (.mk k e cs) (c :: rtl) = (.mk k e cs, false) := by
  rw [insertGo.eq_def]
  dsimp only
  rw [hpost]
  dsimp only
  rw [if_neg hne, dif_pos hm, dif_pos hr, if_pos hend]

theorem insertGo_eq_exact_set {cs : List (Byte × RNode)} {c k1 : Byte} {child : RNode}
    {rest : List (Byte × RNode)} (k : List Byte) (e : Bool) (rtl : List Byte)
    (hpost : (findLB cs c).2 = (k1, child) :: rest) (hne : ¬k1 ≠ c)
    (hm : commonPrefixLen child.key (c :: rtl) = child.key.length)
    (hr : (c :: rtl).length = commonPrefixLen child.key (c :: rtl))
    (hend : ¬child.is_end = true) :
    insertGo (.mk k e cs) (c :: rtl) =
      (.mk k e ((findLB cs c).1 ++ (k1, .mk child.key true child.children) :: rest), true) := by
  rw [insertGo.eq_def]
  dsimp only
  rw [hpost]
  dsimp only
  rw [if_neg hne, dif_pos hm, dif_pos hr, if_neg hend]

theorem insertGo_eq_emptykey {cs : List (Byte × RNode)} {c k1 : Byte} {child : RNode}
    {rest : List (Byte × RNode)} (k : List Byte) (e : Bool) (rtl : List Byte)
    (hpost : (findLB cs c).2 = (k1, child) :: rest) (hne : ¬k1 ≠ c)
    (hm : commonPrefixLen child.key (c :: rtl) = child.key.length)
    (hr : ¬(c :: rtl).length = commonPrefixLen child.key (c :: rtl))
    (hk : child.key = []) :
    insertGo (.mk k e cs) (c :: rtl) = (.mk k e cs, false) := by
  rw [insertGo.eq_def]
  dsimp only
  rw [hpost]
  dsimp only
  rw [if_neg hne, dif_pos hm, dif_neg hr, dif_pos hk]

theorem insertGo_eq_descend {cs : List (Byte × RNode)} {c k1 : Byte} {child : RNode}
    {rest : List (Byte × RNode)} (k : List Byte) (e : Bool) (rtl : List Byte)
    (hpost : (findLB cs c).2 = (k1, child) :: rest) (hne : ¬k1 ≠ c)
    (hm : commonPrefixLen child.key (c :: rtl) = child.key.length)
    (hr : ¬(c :: rtl).length = commonPrefixLen child.key (c :: rtl))
    (hk : ¬child.key = []) :
    insertGo (.mk k e cs) (c :: rtl) =
      (.mk k e
        ((findLB cs c).1 ++
          (k1, (insertGo child ((c :: rtl).drop (commonPrefixLen child.key (c :: rtl)))).1) ::
            rest),
        (insertGo child ((c :: rtl).drop (commonPrefixLen child.key (c :: rtl)))).2) := by
  rw [insertGo.eq_def]
  dsimp only
  rw [hpost]
  dsimp only
  rw [if_neg hne, dif_pos hm, dif_neg hr, dif_neg hk]

theorem insertGo_eq_split_done {cs : List (Byte × RNode)} {c k1 : Byte} {child : RNode}
    {rest : List (Byte × RNode)} (k : List Byte) (e : Bool) (rtl : List Byte)
    (hpost : (findLB cs c).2 = (k1, child) :: rest) (hne : ¬k1 ≠ c)
    (hm : ¬commonPrefixLen child.key (c :: rtl) = child.key.length)
    (hr : (c :: rtl).length = commonPrefixLen child.key (c :: rtl)) :
    insertGo (.mk k e cs) (c :: rtl) =
      (.mk k e
        ((findLB cs c).1 ++
          (k1, .mk (child.key.take (commonPrefixLen child.key (c :: rtl))) true
            [((child.key.drop (commonPrefixLen child.key (c :: rtl))).headD 0,
              .mk (child.key.drop (commonPrefixLen child.key (c :: rtl))) child.is_end
                child.children)]) ::
            rest),
        true) := by
  rw [insertGo.eq_def]
  dsimp only
  rw [hpost]
  dsimp only
  rw [if_neg hne, dif_neg hm, if_pos hr]

theorem insertGo_eq_split_two {cs : List (Byte × RNode)} {c k1 : Byte} {child : RNode}
    {rest : List (Byte × RNode)} (k : List Byte) (e : Bool) (rtl : List Byte)
    (hpost : (findLB cs c).2 = (k1, child) :: rest) (hne : ¬k1 ≠ c)
    (hm : ¬commonPrefixLen child.key (c :: rtl) = child.key.length)
    (hr : ¬(c :: rtl).length = commonPrefixLen child.key (c :: rtl)) :
    insertGo (.mk k e cs) (c :: rtl) =
      (.mk k e
        ((findLB cs c).1 ++
          (k1, .mk (child.key.take (commonPrefixLen child.key (c :: rtl))) false
            ((findLB
                [((child.key.drop (commonPrefixLen child.key (c :: rtl))).headD 0,
                  .mk (child.key.drop (commonPrefixLen child.key (c :: rtl))) child.is_end
                    child.children)]
                (((c :: rtl).drop (commonPrefixLen child.key (c :: rtl))).headD 0)).1 ++
              ((((c :: rtl).drop (commonPrefixLen child.key (c :: rtl))).headD 0),
                .mk ((c :: rtl).drop (commonPrefixLen child.key (c :: rtl))) true []) ::
                (findLB
                  [((child.key.drop (commonPrefixLen child.key (c :: rtl))).headD 0,
                    .mk (child.key.drop (commonPrefixLen child.key (c :: rtl))) child.is_end
                      child.children)]
                  (((c :: rtl).drop (commonPrefixLen child.key (c :: rtl))).headD 0)).2)) ::
            rest),
        true) := by
  rw [insertGo.eq_def]
  dsimp only
  rw [hpost]
  dsimp only
  rw [if_neg hne, dif_neg hm, if_neg hr]

/-- When `insert`'s descent reports no growth it has changed nothing: the
only non-growing paths return the node as they found it. -/
theorem insertGo_false_id : ∀ (n : RNode) (r : List Byte),
    (insertGo n r).2 = false → insertGo n r = (n, false) := by
  intro n r
  induction n, r using insertGo.induct with
  | case1 n =>
    intro _
    exact insertGo_nil n
  | case2 k e cs c rtl lb hpost =>
    intro h
    rw [insertGo_eq_newleaf k e rtl hpost] at h
    simp at h
  | case3 k e cs c rtl lb k1 child rest hpost hne =>
    intro h
    rw [insertGo_eq_wrongkey k e rtl hpost hne] at h
    simp at h
  | case4 k e cs c rtl lb k1 child rest hpost hne m hm hr hend =>
    intro _
    exact insertGo_eq_exact_done k e rtl hpost hne hm hr hend
  | case5 k e cs c rtl lb k1 child rest hpost hne m hm hr hend =>
    intro h
    rw [insertGo_eq_exact_set k e rtl hpost hne hm hr hend] at h
    simp at h
  | case6 k e cs c rtl lb k1 child rest hpost hne m hm hr hk =>
    intro _
    exact insertGo_eq_emptykey k e rtl hpost hne hm hr hk
  | case7 k e cs c rtl lb k1 child rest hpost hne m hm hr hk ih =>
    intro h
    rw [insertGo_eq_descend k e rtl hpost hne hm hr hk] at h ⊢
    simp only at h
    rw [ih h]
    have hcs := findLB_append cs c
    rw [hpost] at hcs
    simp only [Prod.mk.injEq, RNode.mk.injEq, true_and, and_true]
    exact hcs
  | case8 k e cs c rtl lb k1 child rest hpost hne m hm hr2 =>
    intro h
    rw [insertGo_eq_split_done k e rtl hpost hne hm hr2] at h
    simp at h
  | case9 k e cs c rtl lb k1 child rest hpost hne m hm hr2 =>
    intro h
    rw [insertGo_eq_split_two k e rtl hpost hne hm hr2] at h
    simp at h

/-! ### Infrastructure: sortedness of child vectors -/

/-- Adjacent strict sortedness of a key list under the signed order. -/
def chainKeys : List Byte → Bool
  | [] => true
  | [_] => true
  | a :: b :: rest => sgnLt a b && chainKeys (b :: rest)

theorem chainSortedB_eq_chainKeys (cs : List (Byte × RNode)) :
    chainSortedB cs = chainKeys (cs.map Prod.fst) := by
  induction cs with
  | nil => rfl
  | cons p rest ih =>
    obtain ⟨a, x⟩ := p
    cases rest with
    | nil => rfl
    | cons q rest2 =>
      obtain ⟨b, y⟩ := q
      rw [chainSortedB, chainKeys.eq_def]
      simp only [List.map_cons]
      rw [ih]
      rfl

theorem chainKeys_iff_chain' (l : List Byte) :
    chainKeys l = true ↔ List.Chain' (fun a b => sgnLt a b = true) l := by
  induction l with
  | nil => simp [chainKeys]
  | cons a rest ih =>
    cases rest with
    | nil => simp [chainKeys]
    | cons b rest2 =>
      rw [chainKeys, Bool.and_eq_true, ih, List.chain'_cons]

/-- Inserting a fresh key at the `lower_bound` split point keeps the key
list strictly sorted. -/
theorem chainKeys_insert {P Q : List Byte} {c : Byte}
    (h : chainKeys (P ++ Q) = true) (hP : ∀ k ∈ P, sgnLt k c = true)
    (hQ : ∀ q, Q.head? = some q → sgnLt c q = true) :
    chainKeys (P ++ c :: Q) = true := by
  rw [chainKeys_iff_chain'] at h ⊢
  rw [List.chain'_append] at h ⊢
  obtain ⟨h1, h2, _⟩ := h
  refine ⟨h1, ?_, ?_⟩
  · rw [List.chain'_cons']
    exact ⟨fun y hy => hQ y hy, h2⟩
  · intro x hx y hy
    simp only [List.head?_cons, Option.mem_def, Option.some.injEq] at hy
    subst hy
    exact hP x (List.mem_of_mem_getLast? hx)

theorem chainKeys_singleton (a : Byte) : chainKeys [a] = true := rfl

/-- A two-element key list is sorted when the first is below the second. -/
theorem chainKeys_pair {a b : Byte} (h : sgnLt a b = true) : chainKeys [a, b] = true := by
  rw [chainKeys, h, chainKeys_singleton]
  rfl

theorem nodeWF_mk (k : List Byte) (e : Bool) (cs : List (Byte × RNode)) :
    nodeWF (.mk k e cs) = (chainSortedB cs && childrenWF cs) := by
  rw [nodeWF]

theorem childrenWF_nil : childrenWF [] = true := rfl

theorem childrenWF_cons (k : Byte) (c : RNode) (rest : List (Byte × RNode)) :
    childrenWF ((k, c) :: rest) =
      (!(c.key.isEmpty) && decide (c.key.headD 0 = k) && nodeWF c && childrenWF rest) := by
  rw [childrenWF]

theorem childrenWF_append (xs ys : List (Byte × RNode)) :
    childrenWF (xs ++ ys) = (childrenWF xs && childrenWF ys) := by
  induction xs with
  | nil => simp [childrenWF_nil]
  | cons p rest ih =>
    obtain ⟨k, c⟩ := p
    simp only [List.cons_append, childrenWF_cons, ih, Bool.and_assoc]

/-- What `childrenWF` says about one entry of the vector. -/
theorem childrenWF_mem {cs : List (Byte × RNode)} (h : childrenWF cs = true) {k1 : Byte}
    {child : RNode} (hmem : (k1, child) ∈ cs) :
    child.key ≠ [] ∧ child.key.headD 0 = k1 ∧ nodeWF child = true := by
  induction cs with
  | nil => simp at hmem
  | cons p rest ih =>
    obtain ⟨a, c⟩ := p
    rw [childrenWF_cons] at h
    simp only [Bool.and_eq_true, Bool.not_eq_true', decide_eq_true_eq] at h
    rcases List.mem_cons.1 hmem with hhd | htl
    · obtain ⟨he1, he2⟩ := Prod.mk.injEq .. ▸ hhd
      subst he1
      subst he2
      refine ⟨?_, h.1.1.2, h.1.2⟩
      intro hnil
      have h1 := h.1.1.1
      rw [hnil] at h1
      simp at h1
    · exact ih h.2 htl

theorem headD_drop (l : List Byte) (m : Nat) (d : Byte) :
    (l.drop m).headD d = l.getD m d := by
  induction l generalizing m with
  | nil => cases m <;> rfl
  | cons x xs ih =>
    cases m with
    | zero => rfl
    | succ m2 => simpa using ih m2

theorem nodeWF_parts {k : List Byte} {e : Bool} {cs : List (Byte × RNode)}
    (h : nodeWF (.mk k e cs) = true) :
    chainSortedB cs = true ∧ childrenWF cs = true := by
  rw [nodeWF_mk, Bool.and_eq_true] at h
  exact h

theorem nodeWF_of_parts {k : List Byte} {e : Bool} {cs : List (Byte × RNode)}
    (h1 : chainSortedB cs = true) (h2 : childrenWF cs = true) :
    nodeWF (.mk k e cs) = true := by
  rw [nodeWF_mk, h1, h2]
  rfl

/-- `nodeWF` ignores the edge label and terminal flag of the node itself. -/
theorem nodeWF_reflag {k1 k2 : List Byte} {e1 e2 : Bool} {cs : List (Byte × RNode)}
    (h : nodeWF (.mk k1 e1 cs) = true) : nodeWF (.mk k2 e2 cs) = true := by
  obtain ⟨h1, h2⟩ := nodeWF_parts h
  exact nodeWF_of_parts h1 h2

theorem nodeWF_leaf (w : List Byte) (e : Bool) : nodeWF (.mk w e []) = true := by
  apply nodeWF_of_parts <;> rfl

theorem chainSortedB_nil : chainSortedB [] = true := rfl

/-- The common prefix is at least one byte long when the child's key starts
with the probe byte. -/
theorem commonPrefixLen_pos {ck : List Byte} {c : Byte} (hk : ck ≠ [])
    (hhd : ck.headD 0 = c) (rtl : List Byte) :
    1 ≤ commonPrefixLen ck (c :: rtl) := by
  cases ck with
  | nil => exact absurd rfl hk
  | cons c0 ck2 =>
    simp only [List.headD_cons] at hhd
    subst hhd
    rw [commonPrefixLen]
    simp

theorem headD_take {ck : List Byte} {m : Nat} (hm : 1 ≤ m) (d : Byte) :
    (ck.take m).headD d = ck.headD d := by
  cases ck with
  | nil => simp
  | cons x xs =>
    cases m with
    | zero => omega
    | succ m2 => simp

/-- Keys of a child vector with one entry's node replaced. -/
theorem map_fst_replace (P R : List (Byte × RNode)) (a : Byte) (x y : RNode) :
    (P ++ (a, x) :: R).map Prod.fst = (P ++ (a, y) :: R).map Prod.fst := by
  simp


theorem childrenWF_cons_parts {k1 : Byte} {child : RNode} {rest : List (Byte × RNode)}
    (h : childrenWF ((k1, child) :: rest) = true) :
    child.key.isEmpty = false ∧ child.key.headD 0 = k1 ∧ nodeWF child = true ∧
      childrenWF rest = true := by
  rw [childrenWF_cons] at h
  simp only [Bool.and_eq_true, Bool.not_eq_true', decide_eq_true_eq] at h
  exact ⟨h.1.1.1, h.1.1.2, h.1.2, h.2⟩

theorem childrenWF_cons_of {k1 : Byte} {child : RNode} {rest : List (Byte × RNode)}
    (h1 : child.key.isEmpty = false) (h2 : child.key.headD 0 = k1)
    (h3 : nodeWF child = true) (h4 : childrenWF rest = true) :
    childrenWF ((k1, child) :: rest) = true := by
  rw [childrenWF_cons]
  simp only [Bool.and_eq_true, Bool.not_eq_true', decide_eq_true_eq]
  exact ⟨⟨⟨h1, h2⟩, h3⟩, h4⟩

theorem childrenWF_append_of {xs ys : List (Byte × RNode)} (h1 : childrenWF xs = true)
    (h2 : childrenWF ys = true) : childrenWF (xs ++ ys) = true := by
  rw [childrenWF_append, h1, h2]
  rfl

theorem childrenWF_append_parts {xs ys : List (Byte × RNode)}
    (h : childrenWF (xs ++ ys) = true) : childrenWF xs = true ∧ childrenWF ys = true := by
  rw [childrenWF_append, Bool.and_eq_true] at h
  exact h

theorem isEmpty_false_of_ne {l : List Byte} (h : l ≠ []) : l.isEmpty = false := by
  cases l
  · exact absurd rfl h
  · rfl

/-- `insert`'s descent preserves structural well-formedness: child vectors
stay strictly sorted by the signed byte order and every child keeps a
non-empty key starting with its pair key. -/
theorem insertGo_WF : ∀ (n : RNode) (r : List Byte), nodeWF n = true →
    nodeWF (insertGo n r).1 = true := by
  intro n r
  induction n, r using insertGo.induct with
  | case1 n =>
    intro h
    rw [insertGo_nil]
    exact h
  | case2 k e cs c rtl lb hpost =>
    intro hwf
    obtain ⟨hsort, hcwf⟩ := nodeWF_parts hwf
    have hpost2 : (findLB cs c).2 = [] := hpost
    have hcs := findLB_append cs c
    rw [hpost2, List.append_nil] at hcs
    rw [insertGo_eq_newleaf k e rtl hpost2]
    apply nodeWF_of_parts
    · rw [chainSortedB_eq_chainKeys]
      simp only [List.map_append, List.map_cons, List.map_nil]
      apply @chainKeys_insert _ ([] : List Byte) _
      · rw [List.append_nil, hcs, ← chainSortedB_eq_chainKeys]
        exact hsort
      · intro p hp
        simp only [List.mem_map] at hp
        obtain ⟨q, hq, hq2⟩ := hp
        subst hq2
        exact findLB_pre_lt cs c q hq
      · intro q hq
        simp at hq
    · apply childrenWF_append_of
      · rw [hcs]
        exact hcwf
      · exact childrenWF_cons_of rfl rfl (nodeWF_leaf _ _) childrenWF_nil
  | case3 k e cs c rtl lb k1 child rest hpost hne =>
    intro hwf
    obtain ⟨hsort, hcwf⟩ := nodeWF_parts hwf
    have hpost2 : (findLB cs c).2 = (k1, child) :: rest := hpost
    have hcs := findLB_append cs c
    rw [hpost2] at hcs
    rw [insertGo_eq_wrongkey k e rtl hpost2 hne]
    apply nodeWF_of_parts
    · rw [chainSortedB_eq_chainKeys]
      simp only [List.map_append, List.map_cons]
      apply chainKeys_insert
      · rw [show k1 :: List.map Prod.fst rest = List.map Prod.fst ((k1, child) :: rest) from rfl,
          ← List.map_append, hcs, ← chainSortedB_eq_chainKeys]
        exact hsort
      · intro p hp
        simp only [List.mem_map] at hp
        obtain ⟨q, hq, hq2⟩ := hp
        subst hq2
        exact findLB_pre_lt cs c q hq
      · intro q hq
        simp only [List.head?_cons, Option.some.injEq] at hq
        subst hq
        exact sgnLt_of_not_of_ne (findLB_post_head hpost2) hne
    · have hflat : childrenWF ((findLB cs c).1 ++ (k1, child) :: rest) = true := by
        rw [hcs]
        exact hcwf
      have hparts := childrenWF_append_parts hflat
      exact childrenWF_append_of hparts.1
        (childrenWF_cons_of rfl rfl (nodeWF_leaf _ _) hparts.2)
  | case4 k e cs c rtl lb k1 child rest hpost hne m hm hr hend =>
    intro hwf
    rw [insertGo_eq_exact_done k e rtl hpost hne hm hr hend]
    exact hwf
  | case5 k e cs c rtl lb k1 child rest hpost hne m hm hr hend =>
    intro hwf
    obtain ⟨hsort, hcwf⟩ := nodeWF_parts hwf
    have hpost2 : (findLB cs c).2 = (k1, child) :: rest := hpost
    have hcs := findLB_append cs c
    rw [hpost2] at hcs
    rw [insertGo_eq_exact_set k e rtl hpost2 hne hm hr hend]
    have hflat : childrenWF ((findLB cs c).1 ++ (k1, child) :: rest) = true := by
      rw [hcs]
      exact hcwf
    have hparts := childrenWF_append_parts hflat
    obtain ⟨he1, he2, he3, he4⟩ := childrenWF_cons_parts hparts.2
    apply nodeWF_of_parts
    · rw [chainSortedB_eq_chainKeys, map_fst_replace _ _ _ _ child, ← chainSortedB_eq_chainKeys,
        hcs]
      exact hsort
    · refine childrenWF_append_of hparts.1 (childrenWF_cons_of ?_ ?_ ?_ he4)
      · simpa [RNode.key] using he1
      · simpa [RNode.key] using he2
      · obtain ⟨ck, ce, ccs⟩ := child
        exact nodeWF_reflag he3
  | case6 k e cs c rtl lb k1 child rest hpost hne m hm hr hk =>
    intro hwf
    rw [insertGo_eq_emptykey k e rtl hpost hne hm hr hk]
    exact hwf
  | case7 k e cs c rtl lb k1 child rest hpost hne m hm hr hk ih =>
    intro hwf
    obtain ⟨hsort, hcwf⟩ := nodeWF_parts hwf
    have hpost2 : (findLB cs c).2 = (k1, child) :: rest := hpost
    have hcs := findLB_append cs c
    rw [hpost2] at hcs
    rw [insertGo_eq_descend k e rtl hpost2 hne hm hr hk]
    have hflat : childrenWF ((findLB cs c).1 ++ (k1, child) :: rest) = true := by
      rw [hcs]
      exact hcwf
    have hparts := childrenWF_append_parts hflat
    obtain ⟨he1, he2, he3, he4⟩ := childrenWF_cons_parts hparts.2
    have hwfchild : nodeWF
        (insertGo child ((c :: rtl).drop (commonPrefixLen child.key (c :: rtl)))).1 = true :=
      ih he3
    apply nodeWF_of_parts
    · rw [chainSortedB_eq_chainKeys, map_fst_replace _ _ _ _ child, ← chainSortedB_eq_chainKeys,
        hcs]
      exact hsort
    · refine childrenWF_append_of hparts.1 (childrenWF_cons_of ?_ ?_ hwfchild he4)
      · rw [insertGo_key]
        exact he1
      · rw [insertGo_key]
        exact he2
  | case8 k e cs c rtl lb k1 child rest hpost hne m hm hr =>
    intro hwf
    obtain ⟨hsort, hcwf⟩ := nodeWF_parts hwf
    have hpost2 : (findLB cs c).2 = (k1, child) :: rest := hpost
    have hm2 : ¬commonPrefixLen child.key (c :: rtl) = child.key.length := hm
    have hr2 : (c :: rtl).length = commonPrefixLen child.key (c :: rtl) := hr
    have hcs := findLB_append cs c
    rw [hpost2] at hcs
    rw [insertGo_eq_split_done k e rtl hpost2 hne hm2 hr2]
    have hflat : childrenWF ((findLB cs c).1 ++ (k1, child) :: rest) = true := by
      rw [hcs]
      exact hcwf
    have hparts := childrenWF_append_parts hflat
    obtain ⟨he1, he2, he3, he4⟩ := childrenWF_cons_parts hparts.2
    have hkc : k1 = c := not_ne_iff.mp hne
    have hkne : child.key ≠ [] := by
      intro h0
      rw [h0] at he1
      simp at he1
    have hm1 : 1 ≤ commonPrefixLen child.key (c :: rtl) :=
      commonPrefixLen_pos hkne (hkc ▸ he2) rtl
    have hmlt : commonPrefixLen child.key (c :: rtl) < child.key.length := by
      have := commonPrefixLen_le_left child.key (c :: rtl)
      omega
    apply nodeWF_of_parts
    · rw [chainSortedB_eq_chainKeys, map_fst_replace _ _ _ _ child, ← chainSortedB_eq_chainKeys,
        hcs]
      exact hsort
    · refine childrenWF_append_of hparts.1 (childrenWF_cons_of ?_ ?_ ?_ he4)
      · show (child.key.take (commonPrefixLen child.key (c :: rtl))).isEmpty = false
        apply isEmpty_false_of_ne
        intro h0
        have := congrArg List.length h0
        simp only [List.length_take, List.length_nil] at this
        omega
      · show (child.key.take (commonPrefixLen child.key (c :: rtl))).headD 0 = k1
        rw [headD_take hm1]
        exact he2
      · apply nodeWF_of_parts
        · rfl
        · refine childrenWF_cons_of ?_ ?_ ?_ childrenWF_nil
          · show (child.key.drop (commonPrefixLen child.key (c :: rtl))).isEmpty = false
            apply isEmpty_false_of_ne
            intro h0
            have := congrArg List.length h0
            simp only [List.length_drop, List.length_nil] at this
            omega
          · rfl
          · show nodeWF (RNode.mk (child.key.drop (commonPrefixLen child.key (c :: rtl)))
              child.is_end child.children) = true
            obtain ⟨ck, ce, ccs⟩ := child
            simp only [RNode.key, RNode.children, RNode.is_end]
            exact @nodeWF_reflag _ (ck.drop (commonPrefixLen ck (c :: rtl))) _ _ _ he3
  | case9 k e cs c rtl lb k1 child rest hpost hne m hm hr =>
    intro hwf
    obtain ⟨hsort, hcwf⟩ := nodeWF_parts hwf
    have hpost2 : (findLB cs c).2 = (k1, child) :: rest := hpost
    have hm2 : ¬commonPrefixLen child.key (c :: rtl) = child.key.length := hm
    have hr2 : ¬(c :: rtl).length = commonPrefixLen child.key (c :: rtl) := hr
    have hcs := findLB_append cs c
    rw [hpost2] at hcs
    rw [insertGo_eq_split_two k e rtl hpost2 hne hm2 hr2]
    have hflat : childrenWF ((findLB cs c).1 ++ (k1, child) :: rest) = true := by
      rw [hcs]
      exact hcwf
    have hparts := childrenWF_append_parts hflat
    obtain ⟨he1, he2, he3, he4⟩ := childrenWF_cons_parts hparts.2
    have hkc : k1 = c := not_ne_iff.mp hne
    have hkne : child.key ≠ [] := by
      intro h0
      rw [h0] at he1
      simp at he1
    have hm1 : 1 ≤ commonPrefixLen child.key (c :: rtl) :=
      commonPrefixLen_pos hkne (hkc ▸ he2) rtl
    have hmlt : commonPrefixLen child.key (c :: rtl) < child.key.length := by
      have := commonPrefixLen_le_left child.key (c :: rtl)
      omega
    have hmltr : commonPrefixLen child.key (c :: rtl) < (c :: rtl).length := by
      have := commonPrefixLen_le_right child.key (c :: rtl)
      omega
    have hdkrk : (child.key.drop (commonPrefixLen child.key (c :: rtl))).headD 0 ≠
        ((c :: rtl).drop (commonPrefixLen child.key (c :: rtl))).headD 0 := by
      rw [headD_drop, headD_drop]
      exact commonPrefixLen_ne hmlt hmltr
    -- well-formedness of the demoted child and the new leaf
    have hdemWF : nodeWF (RNode.mk (child.key.drop (commonPrefixLen child.key (c :: rtl)))
        child.is_end child.children) = true := by
      obtain ⟨ck, ce, ccs⟩ := child
      simp only [RNode.key, RNode.children, RNode.is_end]
      exact @nodeWF_reflag _ (ck.drop (commonPrefixLen ck (c :: rtl))) _ _ _ he3
    have hdemKey : (child.key.drop (commonPrefixLen child.key (c :: rtl))).isEmpty = false := by
      apply isEmpty_false_of_ne
      intro h0
      have := congrArg List.length h0
      simp only [List.length_drop, List.length_nil] at this
      omega
    have hleafKey : ((c :: rtl).drop (commonPrefixLen child.key (c :: rtl))).isEmpty = false := by
      apply isEmpty_false_of_ne
      intro h0
      have := congrArg List.length h0
      simp only [List.length_drop, List.length_nil] at this
      omega
    have hmidWF : nodeWF (RNode.mk (child.key.take (commonPrefixLen child.key (c :: rtl))) false
        ((findLB
            [((child.key.drop (commonPrefixLen child.key (c :: rtl))).headD 0,
              .mk (child.key.drop (commonPrefixLen child.key (c :: rtl))) child.is_end
                child.children)]
            (((c :: rtl).drop (commonPrefixLen child.key (c :: rtl))).headD 0)).1 ++
          ((((c :: rtl).drop (commonPrefixLen child.key (c :: rtl))).headD 0),
            .mk ((c :: rtl).drop (commonPrefixLen child.key (c :: rtl))) true []) ::
            (findLB
              [((child.key.drop (commonPrefixLen child.key (c :: rtl))).headD 0,
                .mk (child.key.drop (commonPrefixLen child.key (c :: rtl))) child.is_end
                  child.children)]
              (((c :: rtl).drop (commonPrefixLen child.key (c :: rtl))).headD 0)).2)) = true := by
      by_cases hlt : sgnLt ((child.key.drop (commonPrefixLen child.key (c :: rtl))).headD 0)
          (((c :: rtl).drop (commonPrefixLen child.key (c :: rtl))).headD 0) = true
      · rw [show findLB
            [((child.key.drop (commonPrefixLen child.key (c :: rtl))).headD 0,
              .mk (child.key.drop (commonPrefixLen child.key (c :: rtl))) child.is_end
                child.children)]
            (((c :: rtl).drop (commonPrefixLen child.key (c :: rtl))).headD 0) =
            ([((child.key.drop (commonPrefixLen child.key (c :: rtl))).headD 0,
              .mk (child.key.drop (commonPrefixLen child.key (c :: rtl))) child.is_end
                child.children)], []) from by simp only [findLB, hlt, if_true]]
        apply nodeWF_of_parts
        · rw [chainSortedB_eq_chainKeys]
          simp only [List.cons_append, List.nil_append, List.map_cons, List.map_nil]
          exact chainKeys_pair hlt
        · refine childrenWF_append_of ?_ ?_
          · exact childrenWF_cons_of hdemKey rfl hdemWF childrenWF_nil
          · exact childrenWF_cons_of hleafKey rfl (nodeWF_leaf _ _) childrenWF_nil
      · rw [show findLB
            [((child.key.drop (commonPrefixLen child.key (c :: rtl))).headD 0,
              .mk (child.key.drop (commonPrefixLen child.key (c :: rtl))) child.is_end
                child.children)]
            (((c :: rtl).drop (commonPrefixLen child.key (c :: rtl))).headD 0) =
            ([], [((child.key.drop (commonPrefixLen child.key (c :: rtl))).headD 0,
              .mk (child.key.drop (commonPrefixLen child.key (c :: rtl))) child.is_end
                child.children)]) from by
              simp only [findLB, hlt]
              rfl]
        apply nodeWF_of_parts
        · rw [chainSortedB_eq_chainKeys]
          simp only [List.nil_append, List.map_cons, List.map_nil]
          exact chainKeys_pair
            (sgnLt_of_not_of_ne (Bool.eq_false_iff.mpr hlt) hdkrk)
        · refine childrenWF_append_of childrenWF_nil ?_
          refine childrenWF_cons_of hleafKey rfl (nodeWF_leaf _ _) ?_
          exact childrenWF_cons_of hdemKey rfl hdemWF childrenWF_nil
    apply nodeWF_of_parts
    · rw [chainSortedB_eq_chainKeys, map_fst_replace _ _ _ _ child, ← chainSortedB_eq_chainKeys,
        hcs]
      exact hsort
    · refine childrenWF_append_of hparts.1 (childrenWF_cons_of ?_ ?_ hmidWF he4)
      · show (child.key.take (commonPrefixLen child.key (c :: rtl))).isEmpty = false
        apply isEmpty_false_of_ne
        intro h0
        have := congrArg List.length h0
        simp only [List.length_take, List.length_nil] at this
        omega
      · show (child.key.take (commonPrefixLen child.key (c :: rtl))).headD 0 = k1
        rw [headD_take hm1]
        exact he2

/-! ### Infrastructure: descent steps of `find_node` -/

theorem findLB_insert_self (cs : List (Byte × RNode)) (c : Byte) (x : RNode)
    (post2 : List (Byte × RNode)) :
    findLB ((findLB cs c).1 ++ (c, x) :: post2) c = ((findLB cs c).1, (c, x) :: post2) :=
  findLB_rebuild (findLB_pre_lt cs c) (sgnLt_irrefl c)

theorem findLB_replace {cs : List (Byte × RNode)} {c k1 : Byte} {child : RNode}
    {rest : List (Byte × RNode)} (hpost : (findLB cs c).2 = (k1, child) :: rest) (x : RNode)
    (rest2 : List (Byte × RNode)) :
    findLB ((findLB cs c).1 ++ (k1, x) :: rest2) c = ((findLB cs c).1, (k1, x) :: rest2) :=
  findLB_rebuild (findLB_pre_lt cs c) (findLB_post_head hpost)

/-- One successful step of `find_node`'s loop. -/
theorem findNodeGo_cons_step {k : List Byte} {e : Bool} {cs : List (Byte × RNode)} {c : Byte}
    {rtl : List Byte} {k1 : Byte} {child : RNode} {rest : List (Byte × RNode)}
    (hpost : (findLB cs c).2 = (k1, child) :: rest) (hk1 : ¬k1 ≠ c)
    (hk : ¬child.key = []) (hlen : ¬child.key.length > (c :: rtl).length)
    (htake : ¬(c :: rtl).take child.key.length ≠ child.key) :
    findNodeGo (.mk k e cs) (c :: rtl) =
      findNodeGo child ((c :: rtl).drop child.key.length) := by
  rw [findNodeGo.eq_def]
  simp only [RNode.children, hpost]
  rw [if_neg hk1, dif_neg hk, if_neg hlen, if_neg htake]

/-- `find_node` ends on a node exactly when the query is fully consumed. -/
theorem findNodeGo_self (n : RNode) : findNodeGo n [] = some n := by
  rw [findNodeGo.eq_def]

/-- The query reached a node whose key consumed all of it. -/
theorem findNodeGo_cons_hit {k : List Byte} {e : Bool} {cs : List (Byte × RNode)} {c : Byte}
    {rtl : List Byte} {k1 : Byte} {child : RNode} {rest : List (Byte × RNode)}
    (hpost : (findLB cs c).2 = (k1, child) :: rest) (hk1 : ¬k1 ≠ c)
    (hk : ¬child.key = []) (hlen : child.key.length = (c :: rtl).length)
    (htake : ¬(c :: rtl).take child.key.length ≠ child.key) :
    findNodeGo (.mk k e cs) (c :: rtl) = some child := by
  rw [findNodeGo_cons_step hpost hk1 hk (by omega) htake]
  rw [show (c :: rtl).drop child.key.length = [] from by
    apply List.eq_nil_of_length_eq_zero
    simp [hlen]]
  exact findNodeGo_self child

/-- After `insert`'s descent, re-descending on the same word finds a
terminal node. -/
theorem findNodeGo_after_insert : ∀ (n : RNode) (r : List Byte), nodeWF n = true → r ≠ [] →
    ∃ tgt, findNodeGo (insertGo n r).1 r = some tgt ∧ tgt.is_end = true := by
  intro n r
  induction n, r using insertGo.induct with
  | case1 n =>
    intro _ hr
    exact absurd rfl hr
  | case2 k e cs c rtl lb hpost =>
    intro hwf _
    have hpost2 : (findLB cs c).2 = [] := hpost
    rw [insertGo_eq_newleaf k e rtl hpost2]
    refine ⟨.mk (c :: rtl) true [], ?_, rfl⟩
    apply @findNodeGo_cons_hit _ _ _ _ _ _ _ ([] : List (Byte × RNode))
    · rw [show (findLB cs c).1 ++ [(c, RNode.mk (c :: rtl) true [])] =
        (findLB cs c).1 ++ (c, RNode.mk (c :: rtl) true []) :: [] from rfl]
      rw [show (findLB ((findLB cs c).1 ++ (c, RNode.mk (c :: rtl) true []) :: []) c).2 =
        ((findLB cs c).1, (c, RNode.mk (c :: rtl) true []) :: []).2 from by
          rw [findLB_insert_self]]
    · simp
    · simp [RNode.key]
    · simp [RNode.key]
    · simp [RNode.key]
  | case3 k e cs c rtl lb k1 child rest hpost hne =>
    intro hwf _
    have hpost2 : (findLB cs c).2 = (k1, child) :: rest := hpost
    rw [insertGo_eq_wrongkey k e rtl hpost2 hne]
    refine ⟨.mk (c :: rtl) true [], ?_, rfl⟩
    apply @findNodeGo_cons_hit _ _ _ _ _ _ _ ((k1, child) :: rest)
    · rw [show (findLB ((findLB cs c).1 ++ (c, RNode.mk (c :: rtl) true []) ::
        (k1, child) :: rest) c).2 =
        ((findLB cs c).1, (c, RNode.mk (c :: rtl) true []) :: (k1, child) :: rest).2 from by
          rw [findLB_insert_self]]
    · simp
    · simp [RNode.key]
    · simp [RNode.key]
    · simp [RNode.key]
  | case4 k e cs c rtl lb k1 child rest hpost hne m hm hr hend =>
    intro hwf _
    have hpost2 : (findLB cs c).2 = (k1, child) :: rest := hpost
    have hm2 : commonPrefixLen child.key (c :: rtl) = child.key.length := hm
    have hr2 : (c :: rtl).length = commonPrefixLen child.key (c :: rtl) := hr
    rw [insertGo_eq_exact_done k e rtl hpost2 hne hm2 hr2 hend]
    refine ⟨child, ?_, hend⟩
    have hklen : child.key.length = (c :: rtl).length := by omega
    have hkne : ¬child.key = [] := by
      intro h0
      rw [h0] at hklen
      simp at hklen
    apply findNodeGo_cons_hit hpost2 hne hkne hklen
    intro hx
    exact hx ((commonPrefixLen_eq_length_iff (by omega)).1 hm2)
  | case5 k e cs c rtl lb k1 child rest hpost hne m hm hr hend =>
    intro hwf _
    have hpost2 : (findLB cs c).2 = (k1, child) :: rest := hpost
    have hm2 : commonPrefixLen child.key (c :: rtl) = child.key.length := hm
    have hr2 : (c :: rtl).length = commonPrefixLen child.key (c :: rtl) := hr
    rw [insertGo_eq_exact_set k e rtl hpost2 hne hm2 hr2 hend]
    refine ⟨.mk child.key true child.children, ?_, rfl⟩
    have hklen : child.key.length = (c :: rtl).length := by omega
    have hkne : ¬child.key = [] := by
      intro h0
      rw [h0] at hklen
      simp at hklen
    apply findNodeGo_cons_hit (by rw [findLB_replace hpost2] : _) hne
    · exact hkne
    · exact hklen
    · show ¬(c :: rtl).take child.key.length ≠ child.key
      intro hx
      exact hx ((commonPrefixLen_eq_length_iff (by omega)).1 hm2)
  | case6 k e cs c rtl lb k1 child rest hpost hne m hm hr hk =>
    intro hwf _
    -- excluded by well-formedness: a child key is never empty
    have hpost2 : (findLB cs c).2 = (k1, child) :: rest := hpost
    obtain ⟨_, hcwf⟩ := nodeWF_parts hwf
    have hcs := findLB_append cs c
    rw [hpost2] at hcs
    obtain ⟨hx, _, _⟩ := childrenWF_mem hcwf (by rw [← hcs]; simp : (k1, child) ∈ cs)
    exact absurd hk hx
  | case7 k e cs c rtl lb k1 child rest hpost hne m hm hr hk ih =>
    intro hwf _
    obtain ⟨hsort, hcwf⟩ := nodeWF_parts hwf
    have hpost2 : (findLB cs c).2 = (k1, child) :: rest := hpost
    have hm2 : commonPrefixLen child.key (c :: rtl) = child.key.length := hm
    have hr2 : ¬(c :: rtl).length = commonPrefixLen child.key (c :: rtl) := hr
    have hcs := findLB_append cs c
    rw [hpost2] at hcs
    obtain ⟨_, _, hwfc⟩ := childrenWF_mem hcwf (by rw [← hcs]; simp : (k1, child) ∈ cs)
    have hle : child.key.length ≤ (c :: rtl).length := by
      have := commonPrefixLen_le_right child.key (c :: rtl)
      omega
    have hrne : (c :: rtl).drop (commonPrefixLen child.key (c :: rtl)) ≠ [] := by
      intro h0
      have := congrArg List.length h0
      simp only [List.length_drop, List.length_nil] at this
      omega
    obtain ⟨tgt, htgt, htgtend⟩ := ih hwfc hrne
    rw [insertGo_eq_descend k e rtl hpost2 hne hm2 hr2 hk]
    refine ⟨tgt, ?_, htgtend⟩
    rw [show findNodeGo (.mk k e ((findLB cs c).1 ++
        (k1, (insertGo child ((c :: rtl).drop (commonPrefixLen child.key (c :: rtl)))).1) ::
        rest)) (c :: rtl) =
      findNodeGo (insertGo child ((c :: rtl).drop (commonPrefixLen child.key (c :: rtl)))).1
        ((c :: rtl).drop
          ((insertGo child
            ((c :: rtl).drop (commonPrefixLen child.key (c :: rtl)))).1.key.length)) from by
        apply findNodeGo_cons_step
        · rw [findLB_replace hpost2 _ rest]
        · exact hne
        · rw [insertGo_key]
          exact hk
        · rw [insertGo_key]
          omega
        · rw [insertGo_key]
          intro hx
          exact hx ((commonPrefixLen_eq_length_iff hle).1 hm2)]
    rw [insertGo_key]
    rw [show child.key.length = commonPrefixLen child.key (c :: rtl) from hm2.symm]
    exact htgt
  | case8 k e cs c rtl lb k1 child rest hpost hne m hm hr =>
    intro hwf _
    obtain ⟨hsort, hcwf⟩ := nodeWF_parts hwf
    have hpost2 : (findLB cs c).2 = (k1, child) :: rest := hpost
    have hm2 : ¬commonPrefixLen child.key (c :: rtl) = child.key.length := hm
    have hr2 : (c :: rtl).length = commonPrefixLen child.key (c :: rtl) := hr
    have hcs := findLB_append cs c
    rw [hpost2] at hcs
    obtain ⟨hx1, hx2, _⟩ := childrenWF_mem hcwf (by rw [← hcs]; simp : (k1, child) ∈ cs)
    have hkc : k1 = c := not_ne_iff.mp hne
    have hm1 : 1 ≤ commonPrefixLen child.key (c :: rtl) :=
      commonPrefixLen_pos hx1 (hkc ▸ hx2) rtl
    have hmle : commonPrefixLen child.key (c :: rtl) ≤ child.key.length :=
      commonPrefixLen_le_left child.key (c :: rtl)
    rw [insertGo_eq_split_done k e rtl hpost2 hne hm2 hr2]
    refine ⟨.mk (child.key.take (commonPrefixLen child.key (c :: rtl))) true
      [((child.key.drop (commonPrefixLen child.key (c :: rtl))).headD 0,
        .mk (child.key.drop (commonPrefixLen child.key (c :: rtl))) child.is_end
          child.children)], ?_, rfl⟩
    apply findNodeGo_cons_hit (by rw [findLB_replace hpost2] : _) hne
    · show ¬child.key.take (commonPrefixLen child.key (c :: rtl)) = []
      intro h0
      have := congrArg List.length h0
      simp only [List.length_take, List.length_nil] at this
      omega
    · show (child.key.take (commonPrefixLen child.key (c :: rtl))).length = (c :: rtl).length
      simp only [List.length_take]
      omega
    · show ¬(c :: rtl).take (child.key.take (commonPrefixLen child.key (c :: rtl))).length ≠
        child.key.take (commonPrefixLen child.key (c :: rtl))
      intro hx
      apply hx
      rw [show (child.key.take (commonPrefixLen child.key (c :: rtl))).length =
        commonPrefixLen child.key (c :: rtl) from by simp only [List.length_take]; omega]
      exact (commonPrefixLen_take child.key (c :: rtl)).symm
  | case9 k e cs c rtl lb k1 child rest hpost hne m hm hr =>
    intro hwf _
    obtain ⟨hsort, hcwf⟩ := nodeWF_parts hwf
    have hpost2 : (findLB cs c).2 = (k1, child) :: rest := hpost
    have hm2 : ¬commonPrefixLen child.key (c :: rtl) = child.key.length := hm
    have hr2 : ¬(c :: rtl).length = commonPrefixLen child.key (c :: rtl) := hr
    have hcs := findLB_append cs c
    rw [hpost2] at hcs
    obtain ⟨hx1, hx2, _⟩ := childrenWF_mem hcwf (by rw [← hcs]; simp : (k1, child) ∈ cs)
    have hkc : k1 = c := not_ne_iff.mp hne
    have hm1 : 1 ≤ commonPrefixLen child.key (c :: rtl) :=
      commonPrefixLen_pos hx1 (hkc ▸ hx2) rtl
    have hmle : commonPrefixLen child.key (c :: rtl) ≤ child.key.length :=
      commonPrefixLen_le_left child.key (c :: rtl)
    have hmler : commonPrefixLen child.key (c :: rtl) ≤ (c :: rtl).length :=
      commonPrefixLen_le_right child.key (c :: rtl)
    rw [insertGo_eq_split_two k e rtl hpost2 hne hm2 hr2]
    refine ⟨.mk ((c :: rtl).drop (commonPrefixLen child.key (c :: rtl))) true [], ?_, rfl⟩
    rw [show findNodeGo (.mk k e ((findLB cs c).1 ++
        (k1, .mk (child.key.take (commonPrefixLen child.key (c :: rtl))) false
          ((findLB
              [((child.key.drop (commonPrefixLen child.key (c :: rtl))).headD 0,
                .mk (child.key.drop (commonPrefixLen child.key (c :: rtl))) child.is_end
                  child.children)]
              (((c :: rtl).drop (commonPrefixLen child.key (c :: rtl))).headD 0)).1 ++
            ((((c :: rtl).drop (commonPrefixLen child.key (c :: rtl))).headD 0),
              .mk ((c :: rtl).drop (commonPrefixLen child.key (c :: rtl))) true []) ::
              (findLB
                [((child.key.drop (commonPrefixLen child.key (c :: rtl))).headD 0,
                  .mk (child.key.drop (commonPrefixLen child.key (c :: rtl))) child.is_end
                    child.children)]
                (((c :: rtl).drop (commonPrefixLen child.key (c :: rtl))).headD 0)).2)) ::
        rest)) (c :: rtl) =
      findNodeGo (.mk (child.key.take (commonPrefixLen child.key (c :: rtl))) false
          ((findLB
              [((child.key.drop (commonPrefixLen child.key (c :: rtl))).headD 0,
                .mk (child.key.drop (commonPrefixLen child.key (c :: rtl))) child.is_end
                  child.children)]
              (((c :: rtl).drop (commonPrefixLen child.key (c :: rtl))).headD 0)).1 ++
            ((((c :: rtl).drop (commonPrefixLen child.key (c :: rtl))).headD 0),
              .mk ((c :: rtl).drop (commonPrefixLen child.key (c :: rtl))) true []) ::
              (findLB
                [((child.key.drop (commonPrefixLen child.key (c :: rtl))).headD 0,
                  .mk (child.key.drop (commonPrefixLen child.key (c :: rtl))) child.is_end
                    child.children)]
                (((c :: rtl).drop (commonPrefixLen child.key (c :: rtl))).headD 0)).2))
        ((c :: rtl).drop (commonPrefixLen child.key (c :: rtl))) from by
      rw [show (c :: rtl).drop (commonPrefixLen child.key (c :: rtl)) =
        (c :: rtl).drop ((child.key.take (commonPrefixLen child.key (c :: rtl))).length)
        from by
          congr 1
          simp only [List.length_take]
          omega]
      apply findNodeGo_cons_step
      · rw [findLB_replace hpost2 _ rest]
      · exact hne
      · show ¬child.key.take (commonPrefixLen child.key (c :: rtl)) = []
        intro h0
        have := congrArg List.length h0
        simp only [List.length_take, List.length_nil] at this
        omega
      · show ¬(child.key.take (commonPrefixLen child.key (c :: rtl))).length >
          (c :: rtl).length
        simp only [List.length_take]
        omega
      · show ¬(c :: rtl).take (child.key.take (commonPrefixLen child.key (c :: rtl))).length ≠
          child.key.take (commonPrefixLen child.key (c :: rtl))
        intro hx
        apply hx
        rw [show (child.key.take (commonPrefixLen child.key (c :: rtl))).length =
          commonPrefixLen child.key (c :: rtl) from by simp only [List.length_take]; omega]
        exact (commonPrefixLen_take child.key (c :: rtl)).symm]
    obtain ⟨c2, rtl2, hr2eq⟩ : ∃ c2 rtl2,
        (c :: rtl).drop (commonPrefixLen child.key (c :: rtl)) = c2 :: rtl2 := by
      cases hdr : (c :: rtl).drop (commonPrefixLen child.key (c :: rtl)) with
      | nil =>
        exfalso
        have := congrArg List.length hdr
        simp only [List.length_drop, List.length_nil] at this
        omega
      | cons a b => exact ⟨a, b, rfl⟩
    rw [hr2eq]
    simp only [List.headD_cons]
    apply findNodeGo_cons_hit
    · rw [findLB_insert_self]
    · simp
    · show ¬(c2 :: rtl2) = []
      simp
    · rfl
    · show ¬(c2 :: rtl2).take (c2 :: rtl2).length ≠ (c2 :: rtl2)
      simp

/-- `find_node` fails when the query diverges inside the child's edge. -/
theorem findNodeGo_cons_none_mid {k : List Byte} {e : Bool} {cs : List (Byte × RNode)}
    {c : Byte} {rtl : List Byte} {k1 : Byte} {child : RNode} {rest : List (Byte × RNode)}
    (hpost : (findLB cs c).2 = (k1, child) :: rest) (hne : ¬k1 ≠ c)
    (hk : ¬child.key = [])
    (hm : ¬commonPrefixLen child.key (c :: rtl) = child.key.length) :
    findNodeGo (.mk k e cs) (c :: rtl) = none := by
  rw [findNodeGo.eq_def]
  simp only [RNode.children, hpost]
  rw [if_neg hne, dif_neg hk]
  by_cases hlen : child.key.length > (c :: rtl).length
  · rw [if_pos hlen]
  · rw [if_neg hlen]
    rw [if_pos (by
      intro htk
      exact hm ((commonPrefixLen_eq_length_iff (by omega)).2 htk))]

/-- When `search` already sees the word, `insert` is a complete no-op. -/
theorem insertGo_of_found : ∀ (n : RNode) (r : List Byte), nodeWF n = true →
    (∃ tgt, findNodeGo n r = some tgt ∧ tgt.is_end = true) → insertGo n r = (n, false) := by
  intro n r
  induction n, r using insertGo.induct with
  | case1 n =>
    intro _ _
    exact insertGo_nil n
  | case2 k e cs c rtl lb hpost =>
    intro _ hfind
    obtain ⟨tgt, htgt, _⟩ := hfind
    rw [findNodeGo.eq_def] at htgt
    simp only [RNode.children, show (findLB cs c).2 = [] from hpost] at htgt
    exact Option.noConfusion htgt
  | case3 k e cs c rtl lb k1 child rest hpost hne =>
    intro _ hfind
    obtain ⟨tgt, htgt, _⟩ := hfind
    rw [findNodeGo.eq_def] at htgt
    simp only [RNode.children, show (findLB cs c).2 = (k1, child) :: rest from hpost,
      if_pos hne] at htgt
    exact Option.noConfusion htgt
  | case4 k e cs c rtl lb k1 child rest hpost hne m hm hr hend =>
    intro _ _
    exact insertGo_eq_exact_done k e rtl hpost hne hm hr hend
  | case5 k e cs c rtl lb k1 child rest hpost hne m hm hr hend =>
    intro _ hfind
    obtain ⟨tgt, htgt, htgtend⟩ := hfind
    have hpost2 : (findLB cs c).2 = (k1, child) :: rest := hpost
    have hm2 : commonPrefixLen child.key (c :: rtl) = child.key.length := hm
    have hr2 : (c :: rtl).length = commonPrefixLen child.key (c :: rtl) := hr
    have hklen : child.key.length = (c :: rtl).length := by omega
    have hkne : ¬child.key = [] := by
      intro h0
      rw [h0] at hklen
      simp at hklen
    rw [findNodeGo_cons_hit hpost2 hne hkne hklen (by
      intro hx
      exact hx ((commonPrefixLen_eq_length_iff (by omega)).1 hm2))] at htgt
    have : child = tgt := by simpa using htgt
    subst this
    exact absurd htgtend hend
  | case6 k e cs c rtl lb k1 child rest hpost hne m hm hr hk =>
    intro hwf _
    have hpost2 : (findLB cs c).2 = (k1, child) :: rest := hpost
    obtain ⟨_, hcwf⟩ := nodeWF_parts hwf
    have hcs := findLB_append cs c
    rw [hpost2] at hcs
    obtain ⟨hx, _, _⟩ := childrenWF_mem hcwf (by rw [← hcs]; simp : (k1, child) ∈ cs)
    exact absurd hk hx
  | case7 k e cs c rtl lb k1 child rest hpost hne m hm hr hk ih =>
    intro hwf hfind
    obtain ⟨tgt, htgt, htgtend⟩ := hfind
    obtain ⟨hsort, hcwf⟩ := nodeWF_parts hwf
    have hpost2 : (findLB cs c).2 = (k1, child) :: rest := hpost
    have hm2 : commonPrefixLen child.key (c :: rtl) = child.key.length := hm
    have hcs := findLB_append cs c
    rw [hpost2] at hcs
    obtain ⟨_, _, hwfc⟩ := childrenWF_mem hcwf (by rw [← hcs]; simp : (k1, child) ∈ cs)
    have hle : child.key.length ≤ (c :: rtl).length := by
      have := commonPrefixLen_le_right child.key (c :: rtl)
      omega
    rw [findNodeGo_cons_step hpost2 hne hk (by omega) (by
      intro hx
      exact hx ((commonPrefixLen_eq_length_iff hle).1 hm2))] at htgt
    have hchild := ih hwfc ⟨tgt, by
      rw [show (c :: rtl).drop (commonPrefixLen child.key (c :: rtl)) =
        (c :: rtl).drop child.key.length from by rw [hm2]]
      exact htgt, htgtend⟩
    rw [insertGo_eq_descend k e rtl hpost2 hne hm2 hr hk]
    rw [hchild]
    simp only [Prod.mk.injEq, RNode.mk.injEq, true_and, and_true]
    exact hcs
  | case8 k e cs c rtl lb k1 child rest hpost hne m hm hr =>
    intro _ hfind
    obtain ⟨tgt, htgt, _⟩ := hfind
    have hpost2 : (findLB cs c).2 = (k1, child) :: rest := hpost
    have hm2 : ¬commonPrefixLen child.key (c :: rtl) = child.key.length := hm
    have hkne : ¬child.key = [] := by
      intro h0
      apply hm2
      rw [h0]
      rfl
    rw [findNodeGo_cons_none_mid hpost2 hne hkne hm2] at htgt
    exact Option.noConfusion htgt
  | case9 k e cs c rtl lb k1 child rest hpost hne m hm hr =>
    intro _ hfind
    obtain ⟨tgt, htgt, _⟩ := hfind
    have hpost2 : (findLB cs c).2 = (k1, child) :: rest := hpost
    have hm2 : ¬commonPrefixLen child.key (c :: rtl) = child.key.length := hm
    have hkne : ¬child.key = [] := by
      intro h0
      apply hm2
      rw [h0]
      rfl
    rw [findNodeGo_cons_none_mid hpost2 hne hkne hm2] at htgt
    exact Option.noConfusion htgt

/-- `search` seen as the existence of a terminal node for the word. -/
theorem searchT_eq_true_iff {t : Trie} {w : List Byte} :
    searchT t w = true ↔ ∃ tgt, findNodeT t w = some tgt ∧ tgt.is_end = true := by
  unfold searchT
  cases h : findNodeT t w with
  | none => simp
  | some tgt =>
    simp only [Option.some.injEq]
    constructor
    · intro he
      exact ⟨tgt, rfl, he⟩
    · intro ⟨tgt2, h2, he2⟩
      rw [h2]
      exact he2

/-! ### Trie-level consequences for `insert` -/

theorem insertT_WF {t : Trie} (h : nodeWF t.root = true) (w : List Byte) :
    nodeWF (insertT t w).root = true := by
  unfold insertT
  split
  · exact h
  · exact insertGo_WF t.root w h

theorem insertT_root {t : Trie} {w : List Byte} (hw : w ≠ []) :
    (insertT t w).root = (insertGo t.root w).1 := by
  unfold insertT
  rw [if_neg hw]

theorem searchT_insertT {t : Trie} {w : List Byte} (h : nodeWF t.root = true) (hw : w ≠ []) :
    searchT (insertT t w) w = true := by
  rw [searchT_eq_true_iff]
  obtain ⟨tgt, h1, h2⟩ := findNodeGo_after_insert t.root w h hw
  refine ⟨tgt, ?_, h2⟩
  unfold findNodeT
  rw [if_neg hw, insertT_root hw]
  exact h1

theorem trie_eta (u : Trie) : (⟨u.root, u.count⟩ : Trie) = u := by
  cases u
  rfl

/-- Inserting a word already found by `search` changes nothing. -/
theorem insertT_of_found {t : Trie} {w : List Byte} (h : nodeWF t.root = true)
    (hs : searchT t w = true) : insertT t w = t := by
  by_cases hw : w = []
  · unfold insertT
    rw [if_pos hw]
  · rw [searchT_eq_true_iff] at hs
    obtain ⟨tgt, hf, he⟩ := hs
    unfold findNodeT at hf
    rw [if_neg hw] at hf
    have h3 := insertGo_of_found t.root w h ⟨tgt, hf, he⟩
    unfold insertT
    rw [if_neg hw, h3]
    simpa using trie_eta t

/-- C6's engine: a second insertion of the same word is a no-op. -/
theorem insertT_idem {t : Trie} {w : List Byte} (h : nodeWF t.root = true) (hw : w ≠ []) :
    insertT (insertT t w) w = insertT t w :=
  insertT_of_found (insertT_WF h w) (searchT_insertT h hw)

/-! ### `remove`'s flag clearing preserves well-formedness -/

theorem clearEndGo_key (n : RNode) (r : List Byte) : (clearEndGo n r).key = n.key := by
  rw [clearEndGo.eq_def]
  split
  · rfl
  · split
    · rfl
    · split
      · rfl
      · split
        · rfl
        · split
          · rfl
          · split
            · rfl
            · rfl

theorem clearEndGo_WF : ∀ (n : RNode) (r : List Byte), nodeWF n = true →
    nodeWF (clearEndGo n r) = true := by
  intro n r
  induction n, r using clearEndGo.induct with
  | case1 k e cs =>
    intro h
    rw [clearEndGo.eq_def]
    exact nodeWF_reflag h
  | case2 k e cs c rtl hpost =>
    intro h
    rw [clearEndGo.eq_def]
    simp only [hpost]
    exact h
  | case3 k e cs c rtl k1 child rest hpost hne =>
    intro h
    rw [clearEndGo.eq_def]
    simp only [hpost]
    rw [if_pos hne]
    exact h
  | case4 k e cs c rtl k1 child rest hpost hne hk =>
    intro h
    rw [clearEndGo.eq_def]
    simp only [hpost]
    rw [if_neg hne, dif_pos hk]
    exact h
  | case5 k e cs c rtl k1 child rest hpost hne hk hlen =>
    intro h
    rw [clearEndGo.eq_def]
    simp only [hpost]
    rw [if_neg hne, dif_neg hk, if_pos hlen]
    exact h
  | case6 k e cs c rtl k1 child rest hpost hne hk hlen htake =>
    intro h
    rw [clearEndGo.eq_def]
    simp only [hpost]
    rw [if_neg hne, dif_neg hk, if_neg hlen, if_pos htake]
    exact h
  | case7 k e cs c rtl k1 child rest hpost hne hk hlen htake ih =>
    intro h
    rw [clearEndGo.eq_def]
    simp only [hpost]
    rw [if_neg hne, dif_neg hk, if_neg hlen, if_neg htake]
    obtain ⟨hsort, hcwf⟩ := nodeWF_parts h
    have hcs := findLB_append cs c
    rw [hpost] at hcs
    have hflat : childrenWF ((findLB cs c).1 ++ (k1, child) :: rest) = true := by
      rw [hcs]
      exact hcwf
    have hparts := childrenWF_append_parts hflat
    obtain ⟨he1, he2, he3, he4⟩ := childrenWF_cons_parts hparts.2
    apply nodeWF_of_parts
    · rw [chainSortedB_eq_chainKeys, map_fst_replace _ _ _ _ child, ← chainSortedB_eq_chainKeys,
        hcs]
      exact hsort
    · refine childrenWF_append_of hparts.1 (childrenWF_cons_of ?_ ?_ (ih he3) he4)
      · rw [clearEndGo_key]
        exact he1
      · rw [clearEndGo_key]
        exact he2

theorem removeT_WF {t : Trie} (h : nodeWF t.root = true) (w : List Byte) :
    nodeWF (removeT t w).2.root = true := by
  by_cases hres : (removeT t w).1 = false
  · rw [removeT_false_eq hres]
    exact h
  · by_cases hw : w = []
    · unfold removeT at hres
      rw [if_pos hw] at hres
      simp at hres
    · cases hfind : findNodeT t w with
      | none =>
        unfold removeT at hres
        rw [if_neg hw, hfind] at hres
        simp at hres
      | some tgt =>
        by_cases hend : tgt.is_end = true
        · rw [removeT_found hw hfind hend]
          exact clearEndGo_WF t.root w h
        · unfold removeT at hres
          rw [if_neg hw, hfind] at hres
          simp only [hend] at hres
          simp at hres

theorem scanChunkGo_WF : ∀ (bs : List Byte) (t : Trie) (cnt : Nat) (carry seg : List Byte),
    nodeWF t.root = true → nodeWF (scanChunkGo t cnt carry seg bs).1.root = true := by
  intro bs
  induction bs with
  | nil =>
    intro t cnt carry seg h
    exact h
  | cons b rest ih =>
    intro t cnt carry seg h
    rw [scanChunkGo]
    dsimp only
    split
    · split
      · split
        · exact ih _ _ _ _ h
        · exact ih _ _ _ _ (insertT_WF h _)
      · exact ih _ _ _ _ h
    · exact ih _ _ _ _ h

theorem finalCarry_WF (st : Trie × Nat × List Byte) (h : nodeWF st.1.root = true) :
    nodeWF (finalCarry st).1.root = true := by
  obtain ⟨t, cnt, carry⟩ := st
  simp only [finalCarry]
  split
  · exact h
  · split
    · exact h
    · exact insertT_WF h _

theorem foldl_scan_WF (chunks : List (List Byte)) :
    ∀ (st : Trie × Nat × List Byte), nodeWF st.1.root = true →
      nodeWF ((chunks.foldl
        (fun (acc : Trie × Nat × List Byte) chunk =>
          scanChunkGo acc.1 acc.2.1 acc.2.2 [] chunk) st)).1.root = true := by
  induction chunks with
  | nil =>
    intro st h
    exact h
  | cons chunk rest ih =>
    intro st h
    rw [List.foldl_cons]
    exact ih _ (scanChunkGo_WF _ _ _ _ _ h)

theorem bulkT_WF {t : Trie} (h : nodeWF t.root = true) (bytes : List Byte) (B : Nat) :
    nodeWF (bulkT t bytes B).1.root = true := by
  unfold bulkT
  dsimp only
  exact finalCarry_WF _ (foldl_scan_WF (chunksOf B bytes) (t, 0, []) h)

theorem emptyTrie_WF : nodeWF emptyTrie.root = true := nodeWF_leaf [] false

theorem applyOp_WF {t : Trie} (h : nodeWF t.root = true) (op : Op) :
    nodeWF (applyOp t op).root = true := by
  cases op with
  | ins w => exact insertT_WF h w
  | rem w => exact removeT_WF h w
  | clr => exact emptyTrie_WF
  | blk bytes B => exact bulkT_WF h bytes B

/-- Every trie reachable from `RadixTrie()` by public operations is
structurally well-formed. -/
theorem applyOps_WF (ops : List Op) : nodeWF (applyOps ops).root = true := by
  unfold applyOps
  have : ∀ (l : List Op) (t : Trie), nodeWF t.root = true →
      nodeWF (l.foldl applyOp t).root = true := by
    intro l
    induction l with
    | nil =>
      intro t h
      exact h
    | cons op rest ih =>
      intro t h
      rw [List.foldl_cons]
      exact ih _ (applyOp_WF h op)
  exact this ops emptyTrie emptyTrie_WF

/-- C6: on every reachable trie, inserting a non-empty word a second time
is a complete no-op — the state is unchanged, so `size()`, `search` and
`words_with_prefix` agree on every input with their values after the first
insert. -/
theorem c6_insert_idempotent (ops : List Op) (w : List Byte) (hw : w ≠ []) :
    insertT (insertT (applyOps ops) w) w = insertT (applyOps ops) w ∧
    sizeT (insertT (insertT (applyOps ops) w) w) = sizeT (insertT (applyOps ops) w) ∧
    (∀ q, searchT (insertT (insertT (applyOps ops) w) w) q =
      searchT (insertT (applyOps ops) w) q) ∧
    (∀ p, wordsWithPfx (insertT (insertT (applyOps ops) w) w) p =
      wordsWithPfx (insertT (applyOps ops) w) p) := by
  have hid := insertT_idem (applyOps_WF ops) hw
  exact ⟨hid, by rw [hid], fun q => by rw [hid], fun p => by rw [hid]⟩

/-- Witness for C6 at a concrete input: double-inserting `"a"` into the
empty trie equals inserting it once. -/
theorem c6_witness :
    ([97] : List Byte) ≠ [] ∧
      insertT (insertT (applyOps []) [97]) [97] = insertT (applyOps []) [97] :=
  ⟨by simp, (c6_insert_idempotent [] [97] (by simp)).1⟩

/-! ### Infrastructure: the insert-only compression invariant -/

theorem subGoodB_mk (k : List Byte) (e : Bool) (cs : List (Byte × RNode)) :
    subGoodB (.mk k e cs) = childrenGoodB cs := by
  rw [subGoodB]

theorem childrenGoodB_nil : childrenGoodB [] = true := by
  rw [childrenGoodB]

theorem childrenGoodB_cons (a : Byte) (c : RNode) (rest : List (Byte × RNode)) :
    childrenGoodB ((a, c) :: rest) = (nodeGoodB c && childrenGoodB rest) := by
  rw [childrenGoodB]

theorem childrenGoodB_append (xs ys : List (Byte × RNode)) :
    childrenGoodB (xs ++ ys) = (childrenGoodB xs && childrenGoodB ys) := by
  induction xs with
  | nil => simp [childrenGoodB_nil]
  | cons p rest ih =>
    obtain ⟨a, c⟩ := p
    simp only [List.cons_append, childrenGoodB_cons, ih, Bool.and_assoc]

theorem nodeGoodB_parts {n : RNode} (h : nodeGoodB n = true) :
    (n.is_end || decide (2 ≤ n.children.length)) = true ∧ subGoodB n = true := by
  rw [nodeGoodB, Bool.and_eq_true] at h
  exact h

theorem nodeGoodB_of_parts {n : RNode} (h1 : (n.is_end || decide (2 ≤ n.children.length)) = true)
    (h2 : subGoodB n = true) : nodeGoodB n = true := by
  rw [nodeGoodB, h1, h2]
  rfl

theorem nodeGoodB_leaf (w : List Byte) : nodeGoodB (.mk w true []) = true := by
  rw [nodeGoodB, subGoodB_mk, childrenGoodB_nil]
  rfl

/-- `insert`'s descent preserves the compression shape: below the root,
every node stays terminal-or-branching. -/
theorem insertGo_good : ∀ (n : RNode) (r : List Byte), subGoodB n = true →
    subGoodB (insertGo n r).1 = true := by
  intro n r
  induction n, r using insertGo.induct with
  | case1 n =>
    intro h
    rw [insertGo_nil]
    exact h
  | case2 k e cs c rtl lb hpost =>
    intro hg
    have hpost2 : (findLB cs c).2 = [] := hpost
    have hcs := findLB_append cs c
    rw [hpost2, List.append_nil] at hcs
    rw [insertGo_eq_newleaf k e rtl hpost2]
    rw [subGoodB_mk] at hg ⊢
    rw [childrenGoodB_append, hcs, hg]
    rw [childrenGoodB_cons, nodeGoodB_leaf, childrenGoodB_nil]
    rfl
  | case3 k e cs c rtl lb k1 child rest hpost hne =>
    intro hg
    have hpost2 : (findLB cs c).2 = (k1, child) :: rest := hpost
    have hcs := findLB_append cs c
    rw [hpost2] at hcs
    rw [insertGo_eq_wrongkey k e rtl hpost2 hne]
    rw [subGoodB_mk] at hg ⊢
    have hflat : childrenGoodB ((findLB cs c).1 ++ (k1, child) :: rest) = true := by
      rw [hcs]
      exact hg
    rw [childrenGoodB_append, Bool.and_eq_true] at hflat
    rw [childrenGoodB_append, hflat.1, childrenGoodB_cons, nodeGoodB_leaf, hflat.2]
    rfl
  | case4 k e cs c rtl lb k1 child rest hpost hne m hm hr hend =>
    intro hg
    rw [insertGo_eq_exact_done k e rtl hpost hne hm hr hend]
    exact hg
  | case5 k e cs c rtl lb k1 child rest hpost hne m hm hr hend =>
    intro hg
    have hpost2 : (findLB cs c).2 = (k1, child) :: rest := hpost
    have hcs := findLB_append cs c
    rw [hpost2] at hcs
    rw [insertGo_eq_exact_set k e rtl hpost2 hne hm hr hend]
    rw [subGoodB_mk] at hg ⊢
    have hflat : childrenGoodB ((findLB cs c).1 ++ (k1, child) :: rest) = true := by
      rw [hcs]
      exact hg
    rw [childrenGoodB_append, Bool.and_eq_true] at hflat
    have hrest := hflat.2
    rw [childrenGoodB_cons, Bool.and_eq_true] at hrest
    obtain ⟨hchild, hrest2⟩ := hrest
    obtain ⟨_, hsub⟩ := nodeGoodB_parts hchild
    rw [childrenGoodB_append, hflat.1, childrenGoodB_cons, hrest2]
    rw [nodeGoodB_of_parts (by simp [RNode.is_end]) (by
      obtain ⟨ck, ce, ccs⟩ := child
      rw [subGoodB_mk]
      rw [subGoodB_mk] at hsub
      exact hsub)]
    rfl
  | case6 k e cs c rtl lb k1 child rest hpost hne m hm hr hk =>
    intro hg
    rw [insertGo_eq_emptykey k e rtl hpost hne hm hr hk]
    exact hg
  | case7 k e cs c rtl lb k1 child rest hpost hne m hm hr hk ih =>
    intro hg
    have hpost2 : (findLB cs c).2 = (k1, child) :: rest := hpost
    have hm2 : commonPrefixLen child.key (c :: rtl) = child.key.length := hm
    have hr2 : ¬(c :: rtl).length = commonPrefixLen child.key (c :: rtl) := hr
    have hcs := findLB_append cs c
    rw [hpost2] at hcs
    rw [insertGo_eq_descend k e rtl hpost2 hne hm2 hr2 hk]
    rw [subGoodB_mk] at hg ⊢
    have hflat : childrenGoodB ((findLB cs c).1 ++ (k1, child) :: rest) = true := by
      rw [hcs]
      exact hg
    rw [childrenGoodB_append, Bool.and_eq_true] at hflat
    have hrest := hflat.2
    rw [childrenGoodB_cons, Bool.and_eq_true] at hrest
    obtain ⟨hchild, hrest2⟩ := hrest
    obtain ⟨hcrit, hsub⟩ := nodeGoodB_parts hchild
    rw [childrenGoodB_append, hflat.1, childrenGoodB_cons, hrest2]
    rw [nodeGoodB_of_parts ?crit (ih hsub)]
    · rfl
    case crit =>
      rw [insertGo_is_end]
      rcases Bool.or_eq_true .. ▸ hcrit with hc1 | hc1
      · rw [hc1]
        rfl
      · have hlen := insertGo_children_length child (List.drop m (c :: rtl))
        simp only [decide_eq_true_eq] at hc1 ⊢
        refine Bool.or_eq_true_iff.mpr (.inr (decide_eq_true ?_))
        omega
  | case8 k e cs c rtl lb k1 child rest hpost hne m hm hr =>
    intro hg
    have hpost2 : (findLB cs c).2 = (k1, child) :: rest := hpost
    have hm2 : ¬commonPrefixLen child.key (c :: rtl) = child.key.length := hm
    have hr2 : (c :: rtl).length = commonPrefixLen child.key (c :: rtl) := hr
    have hcs := findLB_append cs c
    rw [hpost2] at hcs
    rw [insertGo_eq_split_done k e rtl hpost2 hne hm2 hr2]
    rw [subGoodB_mk] at hg ⊢
    have hflat : childrenGoodB ((findLB cs c).1 ++ (k1, child) :: rest) = true := by
      rw [hcs]
      exact hg
    rw [childrenGoodB_append, Bool.and_eq_true] at hflat
    have hrest := hflat.2
    rw [childrenGoodB_cons, Bool.and_eq_true] at hrest
    obtain ⟨hchild, hrest2⟩ := hrest
    obtain ⟨hcrit, hsub⟩ := nodeGoodB_parts hchild
    rw [childrenGoodB_append, hflat.1, childrenGoodB_cons, hrest2]
    rw [nodeGoodB_of_parts (by simp [RNode.is_end]) ?sub]
    · rfl
    case sub =>
      rw [subGoodB_mk, childrenGoodB_cons, childrenGoodB_nil, Bool.and_true]
      refine nodeGoodB_of_parts ?_ ?_
      · rcases Bool.or_eq_true .. ▸ hcrit with hc1 | hc1
        · rw [show (RNode.mk (child.key.drop (commonPrefixLen child.key (c :: rtl)))
            child.is_end child.children).is_end = child.is_end from rfl, hc1]
          rfl
        · refine Bool.or_eq_true_iff.mpr (.inr ?_)
          exact hc1
      · obtain ⟨ck, ce, ccs⟩ := child
        rw [subGoodB_mk]
        rw [subGoodB_mk] at hsub
        exact hsub
  | case9 k e cs c rtl lb k1 child rest hpost hne m hm hr =>
    intro hg
    have hpost2 : (findLB cs c).2 = (k1, child) :: rest := hpost
    have hm2 : ¬commonPrefixLen child.key (c :: rtl) = child.key.length := hm
    have hr2 : ¬(c :: rtl).length = commonPrefixLen child.key (c :: rtl) := hr
    have hcs := findLB_append cs c
    rw [hpost2] at hcs
    rw [insertGo_eq_split_two k e rtl hpost2 hne hm2 hr2]
    rw [subGoodB_mk] at hg ⊢
    have hflat : childrenGoodB ((findLB cs c).1 ++ (k1, child) :: rest) = true := by
      rw [hcs]
      exact hg
    rw [childrenGoodB_append, Bool.and_eq_true] at hflat
    have hrest := hflat.2
    rw [childrenGoodB_cons, Bool.and_eq_true] at hrest
    obtain ⟨hchild, hrest2⟩ := hrest
    obtain ⟨hcrit, hsub⟩ := nodeGoodB_parts hchild
    rw [childrenGoodB_append, hflat.1, childrenGoodB_cons, hrest2]
    have hsingle := findLB_append
      [((child.key.drop (commonPrefixLen child.key (c :: rtl))).headD 0,
        .mk (child.key.drop (commonPrefixLen child.key (c :: rtl))) child.is_end
          child.children)]
      (((c :: rtl).drop (commonPrefixLen child.key (c :: rtl))).headD 0)
    rw [nodeGoodB_of_parts ?crit ?sub]
    · rfl
    case crit =>
      refine Bool.or_eq_true_iff.mpr (.inr (decide_eq_true ?_))
      show 2 ≤ ((findLB _ _).1 ++ (_, _) :: (findLB _ _).2).length
      have := congrArg List.length hsingle
      simp only [List.length_append, List.length_cons, List.length_nil] at this ⊢
      omega
    case sub =>
      rw [subGoodB_mk]
      have hgdem : nodeGoodB (.mk (child.key.drop (commonPrefixLen child.key (c :: rtl)))
          child.is_end child.children) = true := by
        refine nodeGoodB_of_parts ?_ ?_
        · rcases Bool.or_eq_true .. ▸ hcrit with hc1 | hc1
          · rw [show (RNode.mk (child.key.drop (commonPrefixLen child.key (c :: rtl)))
              child.is_end child.children).is_end = child.is_end from rfl, hc1]
            rfl
          · refine Bool.or_eq_true_iff.mpr (.inr ?_)
            exact hc1
        · obtain ⟨ck, ce, ccs⟩ := child
          rw [subGoodB_mk]
          rw [subGoodB_mk] at hsub
          exact hsub
      by_cases hlt : sgnLt ((child.key.drop (commonPrefixLen child.key (c :: rtl))).headD 0)
          (((c :: rtl).drop (commonPrefixLen child.key (c :: rtl))).headD 0) = true
      · rw [show findLB
            [((child.key.drop (commonPrefixLen child.key (c :: rtl))).headD 0,
              .mk (child.key.drop (commonPrefixLen child.key (c :: rtl))) child.is_end
                child.children)]
            (((c :: rtl).drop (commonPrefixLen child.key (c :: rtl))).headD 0) =
            ([((child.key.drop (commonPrefixLen child.key (c :: rtl))).headD 0,
              .mk (child.key.drop (commonPrefixLen child.key (c :: rtl))) child.is_end
                child.children)], []) from by simp only [findLB, hlt, if_true]]
        rw [childrenGoodB_append, childrenGoodB_cons, childrenGoodB_cons, childrenGoodB_nil,
          hgdem, nodeGoodB_leaf]
        rfl
      · rw [show findLB
            [((child.key.drop (commonPrefixLen child.key (c :: rtl))).headD 0,
              .mk (child.key.drop (commonPrefixLen child.key (c :: rtl))) child.is_end
                child.children)]
            (((c :: rtl).drop (commonPrefixLen child.key (c :: rtl))).headD 0) =
            ([], [((child.key.drop (commonPrefixLen child.key (c :: rtl))).headD 0,
              .mk (child.key.drop (commonPrefixLen child.key (c :: rtl))) child.is_end
                child.children)]) from by
              simp only [findLB, hlt]
              rfl]
        rw [List.nil_append, childrenGoodB_cons, childrenGoodB_cons, childrenGoodB_nil,
          hgdem, nodeGoodB_leaf]
        rfl

theorem subNoLoneB_mk (k : List Byte) (e : Bool) (cs : List (Byte × RNode)) :
    subNoLoneB (.mk k e cs) = childrenNoLoneB cs := by
  rw [subNoLoneB]

theorem childrenNoLoneB_nil : childrenNoLoneB [] = true := by
  rw [childrenNoLoneB]

theorem childrenNoLoneB_cons (a : Byte) (c : RNode) (rest : List (Byte × RNode)) :
    childrenNoLoneB ((a, c) :: rest) = (noLoneB c && childrenNoLoneB rest) := by
  rw [childrenNoLoneB]

/-- The terminal-or-branching shape implies the claimed compression
property: no non-root non-terminal node with exactly one child. -/
theorem noLoneB_of_goodB : ∀ n, nodeGoodB n = true → noLoneB n = true := by
  intro n
  induction n using RNode.ind with
  | _ k e cs ih =>
    intro hg
    obtain ⟨hcrit, hsub⟩ := nodeGoodB_parts hg
    rw [noLoneB]
    rw [subGoodB_mk] at hsub
    have hchildren : childrenNoLoneB cs = true := by
      clear hcrit hg
      induction cs with
      | nil => exact childrenNoLoneB_nil
      | cons p rest ihl =>
        obtain ⟨a, c⟩ := p
        rw [childrenGoodB_cons, Bool.and_eq_true] at hsub
        rw [childrenNoLoneB_cons, ih (a, c) (by simp) hsub.1,
          ihl (fun p hp => ih p (by simp [hp])) hsub.2]
        rfl
    rw [show subNoLoneB (RNode.mk k e cs) = true from by rw [subNoLoneB_mk]; exact hchildren]
    rw [Bool.and_true]
    rcases Bool.or_eq_true .. ▸ hcrit with hc1 | hc1
    · rw [show (RNode.mk k e cs).is_end = e from rfl] at hc1 ⊢
      rw [hc1]
      rfl
    · refine Bool.or_eq_true_iff.mpr (.inr ?_)
      simp only [decide_eq_true_eq] at hc1 ⊢
      omega

theorem childrenNoLoneB_of_good {cs : List (Byte × RNode)} (h : childrenGoodB cs = true) :
    childrenNoLoneB cs = true := by
  induction cs with
  | nil => exact childrenNoLoneB_nil
  | cons p rest ih =>
    obtain ⟨a, c⟩ := p
    rw [childrenGoodB_cons, Bool.and_eq_true] at h
    rw [childrenNoLoneB_cons, noLoneB_of_goodB c h.1, ih h.2]
    rfl

theorem insertT_good {t : Trie} (h : subGoodB t.root = true) (w : List Byte) :
    subGoodB (insertT t w).root = true := by
  unfold insertT
  split
  · exact h
  · exact insertGo_good t.root w h

theorem foldl_insertT_good (ws : List (List Byte)) :
    subGoodB ((ws.foldl insertT emptyTrie).root) = true := by
  have : ∀ (l : List (List Byte)) (t : Trie), subGoodB t.root = true →
      subGoodB ((l.foldl insertT t).root) = true := by
    intro l
    induction l with
    | nil =>
      intro t h
      exact h
    | cons w rest ih =>
      intro t h
      rw [List.foldl_cons]
      exact ih _ (insertT_good h w)
  apply this
  rw [show emptyTrie.root = RNode.mk [] false [] from rfl, subGoodB_mk]
  exact childrenGoodB_nil

/-- C1, amended.  As stated the claim is false (see `c1_counterexample`):
`remove` never detaches or merges anything, because its cleanup pass is an
unconditional no-op (second conjunct).  What does hold is the insert-only
compression invariant: after any sequence of `insert`s from the empty
trie, no non-root node is non-terminal with exactly one child (first
conjunct). -/
theorem c1_amended :
    (∀ ws : List (List Byte), noLoneTrieB (ws.foldl insertT emptyTrie) = true) ∧
    (∀ (root : RNode) (w : List Byte), cleanupOrphanedNodes root w = root) := by
  constructor
  · intro ws
    unfold noLoneTrieB
    have hg := foldl_insertT_good ws
    cases hroot : (ws.foldl insertT emptyTrie).root with
    | mk k e cs =>
      rw [hroot] at hg
      rw [subNoLoneB_mk]
      rw [subGoodB_mk] at hg
      exact childrenNoLoneB_of_good hg
  · exact cleanupOrphanedNodes_id

/-! ### Infrastructure: case equations for `clearEndGo`, word collection -/

theorem clearEndGo_nil (k : List Byte) (e : Bool) (cs : List (Byte × RNode)) :
    clearEndGo (.mk k e cs) [] = .mk k false cs := by
  rw [clearEndGo.eq_def]

theorem clearEndGo_eq_go {cs : List (Byte × RNode)} {c k1 : Byte} {child : RNode}
    {rest : List (Byte × RNode)} (k : List Byte) (e : Bool) (rtl : List Byte)
    (hpost : (findLB cs c).2 = (k1, child) :: rest) (hne : ¬k1 ≠ c)
    (hk : ¬child.key = []) (hlen : ¬child.key.length > (c :: rtl).length)
    (htake : ¬(c :: rtl).take child.key.length ≠ child.key) :
    clearEndGo (.mk k e cs) (c :: rtl) =
      .mk k e ((findLB cs c).1 ++
        (k1, clearEndGo child ((c :: rtl).drop child.key.length)) :: rest) := by
  rw [clearEndGo.eq_def]
  simp only [hpost]
  rw [if_neg hne, dif_neg hk, if_neg hlen, if_neg htake]

theorem collectChildren_nil (pre : List Byte) : collectChildren pre [] = [] := by
  rw [collectChildren]

theorem collectChildren_cons (pre : List Byte) (a : Byte) (c : RNode)
    (rest : List (Byte × RNode)) :
    collectChildren pre ((a, c) :: rest) = collectWords c pre ++ collectChildren pre rest := by
  rw [collectChildren]

theorem collectWords_dead_leaf (w : List Byte) (pre : List Byte) :
    collectWords (.mk w false []) pre = [] := by
  rw [collectWords_mk, collectChildren_nil]
  rfl

theorem rnode_eta (n : RNode) : RNode.mk n.key n.is_end n.children = n := by
  cases n
  rfl

/-- The heart of the removal-inverse property: when the word is not yet
stored, inserting it and then clearing its terminal flag leaves the
collected words unchanged. -/
theorem collectWords_insert_clear : ∀ (n : RNode) (r : List Byte), nodeWF n = true → r ≠ [] →
    (¬∃ tgt, findNodeGo n r = some tgt ∧ tgt.is_end = true) →
    ∀ pre, collectWords (clearEndGo (insertGo n r).1 r) pre = collectWords n pre := by
  intro n r
  induction n, r using insertGo.induct with
  | case1 n =>
    intro _ hr _ _
    exact absurd rfl hr
  | case2 k e cs c rtl lb hpost =>
    intro hwf _ _ pre
    have hpost2 : (findLB cs c).2 = [] := hpost
    have hcs := findLB_append cs c
    rw [hpost2, List.append_nil] at hcs
    rw [insertGo_eq_newleaf k e rtl hpost2]
    rw [clearEndGo_eq_go k e rtl (by
        rw [show (findLB cs c).1 ++ [(c, RNode.mk (c :: rtl) true [])] =
          (findLB cs c).1 ++ (c, RNode.mk (c :: rtl) true []) :: [] from rfl,
          findLB_insert_self])
      (by simp) (by simp [RNode.key]) (by simp [RNode.key]) (by simp [RNode.key])]
    rw [show (c :: rtl).drop (RNode.mk (c :: rtl) true []).key.length = [] from by
      simp [RNode.key]]
    rw [clearEndGo_nil]
    rw [collectWords_mk, collectWords_mk]
    rw [show (findLB ((findLB cs c).1 ++ (c, RNode.mk (c :: rtl) true []) :: []) c).1 =
      (findLB cs c).1 from by rw [findLB_insert_self]]
    rw [collectChildren_append, collectChildren_cons, collectChildren_nil,
      collectWords_dead_leaf, hcs]
    simp
  | case3 k e cs c rtl lb k1 child rest hpost hne =>
    intro hwf _ _ pre
    have hpost2 : (findLB cs c).2 = (k1, child) :: rest := hpost
    have hcs := findLB_append cs c
    rw [hpost2] at hcs
    rw [insertGo_eq_wrongkey k e rtl hpost2 hne]
    rw [clearEndGo_eq_go k e rtl (by rw [findLB_insert_self])
      (by simp) (by simp [RNode.key]) (by simp [RNode.key]) (by simp [RNode.key])]
    rw [show (c :: rtl).drop (RNode.mk (c :: rtl) true []).key.length = [] from by
      simp [RNode.key]]
    rw [clearEndGo_nil]
    rw [collectWords_mk, collectWords_mk]
    rw [show (findLB ((findLB cs c).1 ++
        (c, RNode.mk (c :: rtl) true []) :: (k1, child) :: rest) c).1 =
      (findLB cs c).1 from by rw [findLB_insert_self]]
    rw [collectChildren_append, collectChildren_cons, collectWords_dead_leaf]
    rw [List.nil_append, ← collectChildren_append, hcs]
  | case4 k e cs c rtl lb k1 child rest hpost hne m hm hr hend =>
    intro _ _ hns _
    exfalso
    apply hns
    have hpost2 : (findLB cs c).2 = (k1, child) :: rest := hpost
    have hm2 : commonPrefixLen child.key (c :: rtl) = child.key.length := hm
    have hr2 : (c :: rtl).length = commonPrefixLen child.key (c :: rtl) := hr
    have hklen : child.key.length = (c :: rtl).length := by omega
    have hkne : ¬child.key = [] := by
      intro h0
      rw [h0] at hklen
      simp at hklen
    exact ⟨child, findNodeGo_cons_hit hpost2 hne hkne hklen (by
      intro hx
      exact hx ((commonPrefixLen_eq_length_iff (by omega)).1 hm2)), hend⟩
  | case5 k e cs c rtl lb k1 child rest hpost hne m hm hr hend =>
    intro hwf _ _ pre
    have hpost2 : (findLB cs c).2 = (k1, child) :: rest := hpost
    have hm2 : commonPrefixLen child.key (c :: rtl) = child.key.length := hm
    have hr2 : (c :: rtl).length = commonPrefixLen child.key (c :: rtl) := hr
    have hklen : child.key.length = (c :: rtl).length := by omega
    have hkne : ¬child.key = [] := by
      intro h0
      rw [h0] at hklen
      simp at hklen
    rw [insertGo_eq_exact_set k e rtl hpost2 hne hm2 hr2 hend]
    rw [clearEndGo_eq_go k e rtl (by rw [findLB_replace hpost2])
      hne
      (show ¬(RNode.mk child.key true child.children).key = [] from hkne)
      (show ¬(RNode.mk child.key true child.children).key.length > (c :: rtl).length from by
        show ¬child.key.length > (c :: rtl).length
        omega)
      (show ¬(c :: rtl).take (RNode.mk child.key true child.children).key.length ≠
          (RNode.mk child.key true child.children).key from by
        show ¬(c :: rtl).take child.key.length ≠ child.key
        intro hx
        exact hx ((commonPrefixLen_eq_length_iff (by omega)).1 hm2))]
    rw [show (c :: rtl).drop (RNode.mk child.key true child.children).key.length = [] from by
      apply List.eq_nil_of_length_eq_zero
      show ((c :: rtl).drop child.key.length).length = 0
      simp only [List.length_drop]
      omega]
    rw [clearEndGo_nil]
    rw [show (RNode.mk child.key false child.children) = child from by
      conv_rhs => rw [← rnode_eta child]
      rw [show child.is_end = false from by
        cases hce : child.is_end
        · rfl
        · exact absurd hce hend]]
    rw [show (findLB ((findLB cs c).1 ++ (k1, RNode.mk child.key true child.children) :: rest)
      c).1 = (findLB cs c).1 from by rw [findLB_replace hpost2]]
    have hcs := findLB_append cs c
    rw [hpost2] at hcs
    rw [hcs]
  | case6 k e cs c rtl lb k1 child rest hpost hne m hm hr hk =>
    intro hwf _ _ _
    have hpost2 : (findLB cs c).2 = (k1, child) :: rest := hpost
    obtain ⟨_, hcwf⟩ := nodeWF_parts hwf
    have hcs := findLB_append cs c
    rw [hpost2] at hcs
    obtain ⟨hx, _, _⟩ := childrenWF_mem hcwf (by rw [← hcs]; simp : (k1, child) ∈ cs)
    exact absurd hk hx
  | case7 k e cs c rtl lb k1 child rest hpost hne m hm hr hk ih =>
    intro hwf _ hns pre
    obtain ⟨hsort, hcwf⟩ := nodeWF_parts hwf
    have hpost2 : (findLB cs c).2 = (k1, child) :: rest := hpost
    have hm2 : commonPrefixLen child.key (c :: rtl) = child.key.length := hm
    have hr2 : ¬(c :: rtl).length = commonPrefixLen child.key (c :: rtl) := hr
    have hcs := findLB_append cs c
    rw [hpost2] at hcs
    obtain ⟨_, _, hwfc⟩ := childrenWF_mem hcwf (by rw [← hcs]; simp : (k1, child) ∈ cs)
    have hle : child.key.length ≤ (c :: rtl).length := by
      have := commonPrefixLen_le_right child.key (c :: rtl)
      omega
    have htake : ¬(c :: rtl).take child.key.length ≠ child.key := by
      intro hx
      exact hx ((commonPrefixLen_eq_length_iff hle).1 hm2)
    have hrne : (c :: rtl).drop (commonPrefixLen child.key (c :: rtl)) ≠ [] := by
      intro h0
      have := congrArg List.length h0
      simp only [List.length_drop, List.length_nil] at this
      omega
    have hns2 : ¬∃ tgt, findNodeGo child
        ((c :: rtl).drop (commonPrefixLen child.key (c :: rtl))) = some tgt ∧
        tgt.is_end = true := by
      intro ⟨tgt, h1, h2⟩
      apply hns
      refine ⟨tgt, ?_, h2⟩
      rw [findNodeGo_cons_step hpost2 hne hk (by omega) htake]
      rw [show (c :: rtl).drop child.key.length =
        (c :: rtl).drop (commonPrefixLen child.key (c :: rtl)) from by rw [hm2]]
      exact h1
    rw [insertGo_eq_descend k e rtl hpost2 hne hm2 hr2 hk]
    rw [clearEndGo_eq_go k e rtl (by rw [findLB_replace hpost2]) hne
      (by rw [insertGo_key]; exact hk)
      (by rw [insertGo_key]; omega)
      (by rw [insertGo_key]; exact htake)]
    rw [insertGo_key]
    rw [show (c :: rtl).drop child.key.length =
      (c :: rtl).drop (commonPrefixLen child.key (c :: rtl)) from by rw [hm2]]
    rw [show (findLB ((findLB cs c).1 ++
        (k1, (insertGo child ((c :: rtl).drop (commonPrefixLen child.key (c :: rtl)))).1) ::
        rest) c).1 = (findLB cs c).1 from by rw [findLB_replace hpost2]]
    rw [collectWords_mk, collectWords_mk]
    rw [collectChildren_append, collectChildren_cons]
    rw [ih hwfc hrne hns2 (pre ++ k)]
    rw [← collectChildren_cons, ← collectChildren_append, hcs]
  | case8 k e cs c rtl lb k1 child rest hpost hne m hm hr =>
    intro hwf _ _ pre
    obtain ⟨hsort, hcwf⟩ := nodeWF_parts hwf
    have hpost2 : (findLB cs c).2 = (k1, child) :: rest := hpost
    have hm2 : ¬commonPrefixLen child.key (c :: rtl) = child.key.length := hm
    have hr2 : (c :: rtl).length = commonPrefixLen child.key (c :: rtl) := hr
    have hcs := findLB_append cs c
    rw [hpost2] at hcs
    obtain ⟨hx1, hx2, _⟩ := childrenWF_mem hcwf (by rw [← hcs]; simp : (k1, child) ∈ cs)
    have hkc : k1 = c := not_ne_iff.mp hne
    have hm1 : 1 ≤ commonPrefixLen child.key (c :: rtl) :=
      commonPrefixLen_pos hx1 (hkc ▸ hx2) rtl
    have hmle : commonPrefixLen child.key (c :: rtl) ≤ child.key.length :=
      commonPrefixLen_le_left child.key (c :: rtl)
    rw [insertGo_eq_split_done k e rtl hpost2 hne hm2 hr2]
    rw [clearEndGo_eq_go k e rtl (by rw [findLB_replace hpost2]) hne
      (show ¬(RNode.mk (child.key.take (commonPrefixLen child.key (c :: rtl))) true
          [((child.key.drop (commonPrefixLen child.key (c :: rtl))).headD 0,
            .mk (child.key.drop (commonPrefixLen child.key (c :: rtl))) child.is_end
              child.children)]).key = [] from by
        show ¬child.key.take (commonPrefixLen child.key (c :: rtl)) = []
        intro h0
        have := congrArg List.length h0
        simp only [List.length_take, List.length_nil] at this
        omega)
      (by
        show ¬(child.key.take (commonPrefixLen child.key (c :: rtl))).length >
          (c :: rtl).length
        simp only [List.length_take]
        omega)
      (by
        show ¬(c :: rtl).take (child.key.take (commonPrefixLen child.key (c :: rtl))).length ≠
          child.key.take (commonPrefixLen child.key (c :: rtl))
        intro hx
        apply hx
        rw [show (child.key.take (commonPrefixLen child.key (c :: rtl))).length =
          commonPrefixLen child.key (c :: rtl) from by simp only [List.length_take]; omega]
        exact (commonPrefixLen_take child.key (c :: rtl)).symm)]
    rw [show (c :: rtl).drop (RNode.mk (child.key.take (commonPrefixLen child.key (c :: rtl)))
        true
        [((child.key.drop (commonPrefixLen child.key (c :: rtl))).headD 0,
          .mk (child.key.drop (commonPrefixLen child.key (c :: rtl))) child.is_end
            child.children)]).key.length = [] from by
      apply List.eq_nil_of_length_eq_zero
      show ((c :: rtl).drop (child.key.take (commonPrefixLen child.key (c :: rtl))).length).length
        = 0
      simp only [List.length_drop, List.length_take]
      omega]
    rw [clearEndGo_nil]
    rw [show (findLB ((findLB cs c).1 ++
        (k1, RNode.mk (child.key.take (commonPrefixLen child.key (c :: rtl))) true
          [((child.key.drop (commonPrefixLen child.key (c :: rtl))).headD 0,
            .mk (child.key.drop (commonPrefixLen child.key (c :: rtl))) child.is_end
              child.children)]) :: rest) c).1 = (findLB cs c).1 from by
      rw [findLB_replace hpost2]]
    rw [collectWords_mk, collectWords_mk, collectChildren_append, collectChildren_cons]
    rw [show collectWords (RNode.mk (child.key.take (commonPrefixLen child.key (c :: rtl)))
        false
        [((child.key.drop (commonPrefixLen child.key (c :: rtl))).headD 0,
          .mk (child.key.drop (commonPrefixLen child.key (c :: rtl))) child.is_end
            child.children)]) (pre ++ k) = collectWords child (pre ++ k) from by
      rw [collectWords_mk]
      rw [if_neg (by simp)]
      rw [collectChildren_cons, collectChildren_nil, List.append_nil, List.nil_append]
      rw [← collectWords_split_key, List.take_append_drop, rnode_eta]]
    rw [← collectChildren_cons, ← collectChildren_append, hcs]
  | case9 k e cs c rtl lb k1 child rest hpost hne m hm hr =>
    intro hwf _ _ pre
    obtain ⟨hsort, hcwf⟩ := nodeWF_parts hwf
    have hpost2 : (findLB cs c).2 = (k1, child) :: rest := hpost
    have hm2 : ¬commonPrefixLen child.key (c :: rtl) = child.key.length := hm
    have hr2 : ¬(c :: rtl).length = commonPrefixLen child.key (c :: rtl) := hr
    have hcs := findLB_append cs c
    rw [hpost2] at hcs
    obtain ⟨hx1, hx2, _⟩ := childrenWF_mem hcwf (by rw [← hcs]; simp : (k1, child) ∈ cs)
    have hkc : k1 = c := not_ne_iff.mp hne
    have hm1 : 1 ≤ commonPrefixLen child.key (c :: rtl) :=
      commonPrefixLen_pos hx1 (hkc ▸ hx2) rtl
    have hmle : commonPrefixLen child.key (c :: rtl) ≤ child.key.length :=
      commonPrefixLen_le_left child.key (c :: rtl)
    have hmler : commonPrefixLen child.key (c :: rtl) ≤ (c :: rtl).length :=
      commonPrefixLen_le_right child.key (c :: rtl)
    obtain ⟨c2, rtl2, hr2eq⟩ : ∃ c2 rtl2,
        (c :: rtl).drop (commonPrefixLen child.key (c :: rtl)) = c2 :: rtl2 := by
      cases hdr : (c :: rtl).drop (commonPrefixLen child.key (c :: rtl)) with
      | nil =>
        exfalso
        have := congrArg List.length hdr
        simp only [List.length_drop, List.length_nil] at this
        omega
      | cons a b => exact ⟨a, b, rfl⟩
    have hsingle := findLB_append
      [((child.key.drop (commonPrefixLen child.key (c :: rtl))).headD 0,
        .mk (child.key.drop (commonPrefixLen child.key (c :: rtl))) child.is_end
          child.children)]
      (((c :: rtl).drop (commonPrefixLen child.key (c :: rtl))).headD 0)
    rw [insertGo_eq_split_two k e rtl hpost2 hne hm2 hr2]
    rw [clearEndGo_eq_go k e rtl (by rw [findLB_replace hpost2]) hne
      (by
        show ¬child.key.take (commonPrefixLen child.key (c :: rtl)) = []
        intro h0
        have := congrArg List.length h0
        simp only [List.length_take, List.length_nil] at this
        omega)
      (by
        show ¬(child.key.take (commonPrefixLen child.key (c :: rtl))).length >
          (c :: rtl).length
        simp only [List.length_take]
        omega)
      (by
        show ¬(c :: rtl).take (child.key.take (commonPrefixLen child.key (c :: rtl))).length ≠
          child.key.take (commonPrefixLen child.key (c :: rtl))
        intro hx
        apply hx
        rw [show (child.key.take (commonPrefixLen child.key (c :: rtl))).length =
          commonPrefixLen child.key (c :: rtl) from by simp only [List.length_take]; omega]
        exact (commonPrefixLen_take child.key (c :: rtl)).symm)]
    rw [show (c :: rtl).drop (RNode.mk (child.key.take (commonPrefixLen child.key (c :: rtl)))
        false
        ((findLB
            [((child.key.drop (commonPrefixLen child.key (c :: rtl))).headD 0,
              .mk (child.key.drop (commonPrefixLen child.key (c :: rtl))) child.is_end
                child.children)]
            (((c :: rtl).drop (commonPrefixLen child.key (c :: rtl))).headD 0)).1 ++
          ((((c :: rtl).drop (commonPrefixLen child.key (c :: rtl))).headD 0),
            .mk ((c :: rtl).drop (commonPrefixLen child.key (c :: rtl))) true []) ::
            (findLB
              [((child.key.drop (commonPrefixLen child.key (c :: rtl))).headD 0,
                .mk (child.key.drop (commonPrefixLen child.key (c :: rtl))) child.is_end
                  child.children)]
              (((c :: rtl).drop (commonPrefixLen child.key (c :: rtl))).headD 0)).2)).key.length
      = (c :: rtl).drop (commonPrefixLen child.key (c :: rtl)) from by
      show (c :: rtl).drop ((child.key.take (commonPrefixLen child.key (c :: rtl))).length) =
        (c :: rtl).drop (commonPrefixLen child.key (c :: rtl))
      congr 1
      simp only [List.length_take]
      omega]
    rw [hr2eq]
    simp only [List.headD_cons]
    rw [clearEndGo_eq_go (child.key.take (commonPrefixLen child.key (c :: rtl))) false rtl2
      (by rw [findLB_insert_self]) (by simp)
      (by
        show ¬(c2 :: rtl2) = []
        simp)
      (by
        show ¬(c2 :: rtl2).length > (c2 :: rtl2).length
        omega)
      (by
        show ¬(c2 :: rtl2).take (c2 :: rtl2).length ≠ (c2 :: rtl2)
        simp)]
    rw [show (c2 :: rtl2).drop (RNode.mk (c2 :: rtl2) true []).key.length = [] from by
      show (c2 :: rtl2).drop (c2 :: rtl2).length = []
      simp]
    rw [clearEndGo_nil]
    rw [show (findLB ((findLB cs c).1 ++
        (k1, RNode.mk (child.key.take (commonPrefixLen child.key (c :: rtl))) false
          ((findLB
              [((child.key.drop (commonPrefixLen child.key (c :: rtl))).headD 0,
                .mk (child.key.drop (commonPrefixLen child.key (c :: rtl))) child.is_end
                  child.children)] c2).1 ++
            (c2, .mk (c2 :: rtl2) true []) ::
              (findLB
                [((child.key.drop (commonPrefixLen child.key (c :: rtl))).headD 0,
                  .mk (child.key.drop (commonPrefixLen child.key (c :: rtl))) child.is_end
                    child.children)] c2).2)) :: rest) c).1 = (findLB cs c).1 from by
      rw [findLB_replace hpost2]]
    rw [show (findLB ((findLB
        [((child.key.drop (commonPrefixLen child.key (c :: rtl))).headD 0,
          .mk (child.key.drop (commonPrefixLen child.key (c :: rtl))) child.is_end
            child.children)] c2).1 ++
        (c2, RNode.mk (c2 :: rtl2) true []) ::
          (findLB
            [((child.key.drop (commonPrefixLen child.key (c :: rtl))).headD 0,
              .mk (child.key.drop (commonPrefixLen child.key (c :: rtl))) child.is_end
                child.children)] c2).2) c2).1 =
      (findLB
        [((child.key.drop (commonPrefixLen child.key (c :: rtl))).headD 0,
          .mk (child.key.drop (commonPrefixLen child.key (c :: rtl))) child.is_end
            child.children)] c2).1 from by
      rw [findLB_insert_self]]
    rw [collectWords_mk, collectWords_mk, collectChildren_append, collectChildren_cons]
    rw [show collectWords (RNode.mk (child.key.take (commonPrefixLen child.key (c :: rtl)))
        false
        ((findLB
            [((child.key.drop (commonPrefixLen child.key (c :: rtl))).headD 0,
              .mk (child.key.drop (commonPrefixLen child.key (c :: rtl))) child.is_end
                child.children)] c2).1 ++
          (c2, RNode.mk (c2 :: rtl2) false []) ::
            (findLB
              [((child.key.drop (commonPrefixLen child.key (c :: rtl))).headD 0,
                .mk (child.key.drop (commonPrefixLen child.key (c :: rtl))) child.is_end
                  child.children)] c2).2)) (pre ++ k) = collectWords child (pre ++ k) from by
      rw [collectWords_mk]
      rw [if_neg (by simp)]
      rw [List.nil_append, collectChildren_append, collectChildren_cons,
        collectWords_dead_leaf, List.nil_append, ← collectChildren_append]
      rw [show ((findLB
          [((child.key.drop (commonPrefixLen child.key (c :: rtl))).headD 0,
            .mk (child.key.drop (commonPrefixLen child.key (c :: rtl))) child.is_end
              child.children)] c2).1 ++
          (findLB
            [((child.key.drop (commonPrefixLen child.key (c :: rtl))).headD 0,
              .mk (child.key.drop (commonPrefixLen child.key (c :: rtl))) child.is_end
                child.children)] c2).2) =
        [((child.key.drop (commonPrefixLen child.key (c :: rtl))).headD 0,
          .mk (child.key.drop (commonPrefixLen child.key (c :: rtl))) child.is_end
            child.children)] from findLB_append _ c2]
      rw [collectChildren_cons, collectChildren_nil, List.append_nil]
      rw [← collectWords_split_key, List.take_append_drop, rnode_eta]]
    rw [← collectChildren_cons, ← collectChildren_append, hcs]

/-- Inserting a word that `search` does not see always grows the count. -/
theorem insertGo_grew_of_not_found {n : RNode} {r : List Byte} (hwf : nodeWF n = true)
    (hr : r ≠ []) (hns : ¬∃ tgt, findNodeGo n r = some tgt ∧ tgt.is_end = true) :
    (insertGo n r).2 = true := by
  cases hgrew : (insertGo n r).2 with
  | true => rfl
  | false =>
    exfalso
    apply hns
    have hid := insertGo_false_id n r hgrew
    have := findNodeGo_after_insert n r hwf hr
    rw [hid] at this
    exact this

theorem searchT_eq_false_iff {t : Trie} {w : List Byte} :
    searchT t w = false ↔ ¬∃ tgt, findNodeT t w = some tgt ∧ tgt.is_end = true := by
  rw [← searchT_eq_true_iff]
  cases searchT t w <;> simp

/-- C5, amended: for every reachable trie and every non-empty word `w` not
already stored, `insert(w); remove(w)` restores the original `size()` and
the original `words_with_prefix("")` enumeration.  (For an already-stored
`w` the pair of calls deletes it — see `c5_counterexample`.) -/
theorem c5_amended (ops : List Op) (w : List Byte) (hw : w ≠ [])
    (hns : searchT (applyOps ops) w = false) :
    sizeT (removeT (insertT (applyOps ops) w) w).2 = sizeT (applyOps ops) ∧
    wordsWithPfx (removeT (insertT (applyOps ops) w) w).2 [] =
      wordsWithPfx (applyOps ops) [] := by
  have hWF := applyOps_WF ops
  have hns2 : ¬∃ tgt, findNodeGo (applyOps ops).root w = some tgt ∧ tgt.is_end = true := by
    rw [searchT_eq_false_iff] at hns
    intro ⟨tgt, h1, h2⟩
    exact hns ⟨tgt, by rw [findNodeT, if_neg hw]; exact h1, h2⟩
  have hs1 : searchT (insertT (applyOps ops) w) w = true := searchT_insertT hWF hw
  rw [searchT_eq_true_iff] at hs1
  obtain ⟨tgt, hf, he⟩ := hs1
  rw [removeT_found hw hf he]
  have hgrew : (insertGo (applyOps ops).root w).2 = true :=
    insertGo_grew_of_not_found hWF hw hns2
  constructor
  · show (insertT (applyOps ops) w).count - 1 = sizeT (applyOps ops)
    unfold insertT
    rw [if_neg hw]
    dsimp only
    rw [hgrew]
    rfl
  · show wordsWithPfx ⟨clearEndGo (insertT (applyOps ops) w).root w, _⟩ [] =
      wordsWithPfx (applyOps ops) []
    unfold wordsWithPfx
    rw [if_pos rfl, if_pos rfl]
    show collectWords (clearEndGo (insertT (applyOps ops) w).root w) [] =
      collectWords (applyOps ops).root []
    rw [insertT_root hw]
    exact collectWords_insert_clear (applyOps ops).root w hWF hw hns2 []

/-- Witness for C5's amended theorem: inserting then removing `"a"` on the
empty trie restores size 0 and the empty enumeration. -/
theorem c5_witness :
    (([97] : List Byte) ≠ [] ∧ searchT (applyOps []) [97] = false) ∧
      sizeT (removeT (insertT (applyOps []) [97]) [97]).2 = sizeT (applyOps []) := by
  have h1 : ([97] : List Byte) ≠ [] := by simp
  have h2 : searchT (applyOps []) [97] = false := by
    simp [applyOps, emptyTrie, searchT, findNodeT, findNodeGo, findLB, RNode.children]
  exact ⟨⟨h1, h2⟩, (c5_amended [] [97] h1 h2).1⟩

/-! ### Sorted emission of `words_with_prefix` -/

theorem slexLt_append (x : List Byte) {w : List Byte} (hw : w ≠ []) :
    slexLt x (x ++ w) = true := by
  induction x with
  | nil =>
    cases w with
    | nil => exact absurd rfl hw
    | cons a t => rfl
  | cons a t ih =>
    simp [slexLt, sgnLt_irrefl, ih]

theorem slexLt_common (p : List Byte) {a b : Byte} (u v : List Byte) (h : sgnLt a b = true) :
    slexLt (p ++ a :: u) (p ++ b :: v) = true := by
  induction p with
  | nil => simp [slexLt, h]
  | cons c t ih => simp [slexLt, sgnLt_irrefl, ih]

theorem mem_collectChildren {pre : List Byte} {cs : List (Byte × RNode)} {w : List Byte}
    (h : w ∈ collectChildren pre cs) :
    ∃ p ∈ cs, w ∈ collectWords p.2 pre := by
  induction cs with
  | nil => simp [collectChildren] at h
  | cons q rest ih =>
    obtain ⟨a, c⟩ := q
    rw [collectChildren, List.mem_append] at h
    rcases h with h | h
    · exact ⟨(a, c), by simp, h⟩
    · obtain ⟨p, hp, hwp⟩ := ih h
      exact ⟨p, by simp [hp], hwp⟩

/-- Adjacent sortedness of a child vector upgrades to pairwise sortedness
(the signed order is transitive). -/
theorem chainSortedB_pairwise {cs : List (Byte × RNode)} (h : chainSortedB cs = true) :
    List.Pairwise (fun p q : Byte × RNode => sgnLt p.1 q.1 = true) cs := by
  rw [chainSortedB_eq_chainKeys, chainKeys_iff_chain'] at h
  haveI : IsTrans Byte (fun a b : Byte => sgnLt a b = true) :=
    ⟨fun a b c h1 h2 => sgnLt_trans h1 h2⟩
  exact List.pairwise_map.1 (List.chain'_iff_pairwise.1 h)

theorem key_cons_of_headD {l : List Byte} {a : Byte} (h1 : l ≠ []) (h2 : l.headD 0 = a) :
    ∃ t, l = a :: t := by
  cases l with
  | nil => exact absurd rfl h1
  | cons x t =>
    simp only [List.headD_cons] at h2
    exact ⟨t, by rw [h2]⟩

/-- The child loop of the DFS emits strictly ascending words (in the
signed-byte lexicographic order) when the child vector is sorted and
well-formed and each child on its own emits ascending words. -/
theorem collectChildren_pairwise :
    ∀ (cs : List (Byte × RNode)) (pre : List Byte),
      (∀ p ∈ cs, ∀ pre2 : List Byte, nodeWF p.2 = true →
        List.Pairwise (fun x y => slexLt x y = true) (collectWords p.2 pre2)) →
      List.Pairwise (fun p q : Byte × RNode => sgnLt p.1 q.1 = true) cs →
      childrenWF cs = true →
      List.Pairwise (fun x y => slexLt x y = true) (collectChildren pre cs) := by
  intro cs
  induction cs with
  | nil =>
    intro pre _ _ _
    simp [collectChildren_nil]
  | cons q rest ih =>
    obtain ⟨a, ch⟩ := q
    intro pre hIH hpw hcwf
    obtain ⟨_, _, hwf⟩ := childrenWF_mem hcwf (show (a, ch) ∈ (a, ch) :: rest by simp)
    have hrest : childrenWF rest = true := by
      rw [childrenWF_cons, Bool.and_eq_true] at hcwf
      exact hcwf.2
    rw [List.pairwise_cons] at hpw
    obtain ⟨hhd, hpwrest⟩ := hpw
    rw [collectChildren_cons, List.pairwise_append]
    refine ⟨hIH (a, ch) (by simp) pre hwf, ih pre (fun p hp => hIH p (by simp [hp])) hpwrest hrest, ?_⟩
    intro w1 hw1 w2 hw2
    obtain ⟨p2, hp2, hw2c⟩ := mem_collectChildren hw2
    obtain ⟨hne2, hhead2, _⟩ := childrenWF_mem hrest hp2
    obtain ⟨hne1, hhead1, _⟩ := childrenWF_mem hcwf (show (a, ch) ∈ (a, ch) :: rest by simp)
    obtain ⟨s1, hs1⟩ := collectWords_shape ch pre w1 hw1
    obtain ⟨s2, hs2⟩ := collectWords_shape p2.2 pre w2 hw2c
    have hb : sgnLt a p2.1 = true := hhd p2 hp2
    obtain ⟨t1, ht1⟩ := key_cons_of_headD hne1 hhead1
    obtain ⟨t2, ht2⟩ := key_cons_of_headD hne2 hhead2
    rw [hs1, hs2, ht1, ht2]
    simp only [List.append_assoc, List.cons_append]
    exact slexLt_common pre (t1 ++ s1) (t2 ++ s2) hb

/-- `collect_words_from_node` on a well-formed node emits its words in
strictly ascending signed-byte lexicographic order. -/
theorem collectWords_pairwise (n : RNode) :
    ∀ pre : List Byte, nodeWF n = true →
      List.Pairwise (fun x y => slexLt x y = true) (collectWords n pre) := by
  induction n using RNode.ind with
  | _ k e cs ih =>
    intro pre hwf
    obtain ⟨hsort, hcwf⟩ := nodeWF_parts hwf
    rw [collectWords_mk, List.pairwise_append]
    refine ⟨?_, ?_, ?_⟩
    · split <;> simp
    · exact collectChildren_pairwise cs (pre ++ k)
        (fun p hp pre2 hwfp => ih p hp pre2 hwfp) (chainSortedB_pairwise hsort) hcwf
    · intro w1 hw1 w2 hw2
      have hw1e : w1 = pre ++ k := by
        split at hw1 <;> simp_all
      obtain ⟨p2, hp2, hw2c⟩ := mem_collectChildren hw2
      obtain ⟨hne2, _, _⟩ := childrenWF_mem hcwf hp2
      obtain ⟨s2, hs2⟩ := collectWords_shape p2.2 (pre ++ k) w2 hw2c
      rw [hw1e, hs2, List.append_assoc]
      exact slexLt_append (pre ++ k) (by simp [hne2])

/-- The prefix descent emits its words in strictly ascending signed-byte
lexicographic order on every well-formed node: every branch either answers
`[]` or collects below a single well-formed child. -/
theorem wwpGo_pairwise : ∀ (n : RNode) (consumed r : List Byte), nodeWF n = true →
    List.Pairwise (fun x y => slexLt x y = true) (wwpGo n consumed r) := by
  intro n consumed r
  induction n, consumed, r using wwpGo.induct with
  | case1 n consumed =>
    intro _
    rw [wwpGo.eq_def]
    simp
  | case2 n consumed c rtl heq =>
    intro _
    rw [wwpGo.eq_def]
    simp only [heq]
    simp
  | case3 n consumed c rtl k1 child rest heq hk1 =>
    intro _
    rw [wwpGo.eq_def]
    simp only [heq]
    rw [if_pos hk1]
    simp
  | case4 n consumed c rtl k1 child rest heq hk1 hlt htk =>
    intro hwf
    rw [wwpGo.eq_def]
    simp only [heq]
    rw [if_neg hk1, if_pos hlt, if_pos htk]
    have hmem : (k1, child) ∈ n.children := by
      have h := findLB_append n.children c
      rw [heq] at h
      rw [← h]
      simp
    obtain ⟨k, e, cs⟩ := n
    obtain ⟨_, hcwf⟩ := nodeWF_parts hwf
    obtain ⟨_, _, hwfc⟩ := childrenWF_mem hcwf hmem
    exact collectWords_pairwise child consumed hwfc
  | case5 n consumed c rtl k1 child rest heq hk1 hlt htk =>
    intro _
    rw [wwpGo.eq_def]
    simp only [heq]
    rw [if_neg hk1, if_pos hlt, if_neg htk]
    simp
  | case6 n consumed c rtl k1 child rest heq hk1 hlt htk =>
    intro _
    rw [wwpGo.eq_def]
    simp only [heq]
    rw [if_neg hk1, if_neg hlt, if_pos htk]
    simp
  | case7 n consumed c rtl k1 child rest heq hk1 hlt htk hkey =>
    intro _
    rw [wwpGo.eq_def]
    simp only [heq]
    rw [if_neg hk1, if_neg hlt, if_neg htk, dif_pos hkey]
    simp
  | case8 n consumed c rtl k1 child rest heq hk1 hlt htk hkey hex =>
    intro hwf
    rw [wwpGo.eq_def]
    simp only [heq]
    rw [if_neg hk1, if_neg hlt, if_neg htk, dif_neg hkey, if_pos hex]
    have hmem : (k1, child) ∈ n.children := by
      have h := findLB_append n.children c
      rw [heq] at h
      rw [← h]
      simp
    obtain ⟨k, e, cs⟩ := n
    obtain ⟨_, hcwf⟩ := nodeWF_parts hwf
    obtain ⟨_, _, hwfc⟩ := childrenWF_mem hcwf hmem
    exact collectWords_pairwise child consumed hwfc
  | case9 n consumed c rtl k1 child rest heq hk1 hlt htk hkey hex ih =>
    intro hwf
    rw [wwpGo.eq_def]
    simp only [heq]
    rw [if_neg hk1, if_neg hlt, if_neg htk, dif_neg hkey, if_neg hex]
    have hmem : (k1, child) ∈ n.children := by
      have h := findLB_append n.children c
      rw [heq] at h
      rw [← h]
      simp
    obtain ⟨k, e, cs⟩ := n
    obtain ⟨_, hcwf⟩ := nodeWF_parts hwf
    obtain ⟨_, _, hwfc⟩ := childrenWF_mem hcwf hmem
    exact ih hwfc

/-- C8, amended: after every sequence of public operations starting from
the empty trie, every node's child vector is strictly sorted by its pair
key in *signed* char order (the order `find_child`'s `lower_bound` uses on
the reference platform), and `words_with_prefix` emits its words strictly
ascending in the signed-byte lexicographic order, for every prefix. -/
theorem c8_amended (ops : List Op) :
    nodeWF (applyOps ops).root = true ∧
    ∀ p : List Byte,
      List.Pairwise (fun x y => slexLt x y = true) (wordsWithPfx (applyOps ops) p) := by
  refine ⟨applyOps_WF ops, fun p => ?_⟩
  rw [wordsWithPfx]
  split
  · exact collectWords_pairwise _ [] (applyOps_WF ops)
  · exact wwpGo_pairwise _ [] p (applyOps_WF ops)

/-! ### The pattern matcher agrees with the glob semantics -/

theorem matchesPattern_nil_word (pat : List Byte) :
    matchesPattern [] pat = (pat.dropWhile (fun q => decide (q = star))).isEmpty := by
  rw [matchesPattern.eq_def]

theorem matchesPattern_nil_pat (c : Byte) (w' : List Byte) :
    matchesPattern (c :: w') [] = false := by
  rw [matchesPattern.eq_def]

theorem matchesPattern_cons (c : Byte) (w' : List Byte) (q : Byte) (p' : List Byte) :
    matchesPattern (c :: w') (q :: p') =
      (if q = qmark then matchesPattern w' p'
       else if q = star then
         (if p' = [] then true else (c :: w').tails.any (fun s => matchesPattern s p'))
       else if q = c then matchesPattern w' p'
       else false) := by
  rw [matchesPattern.eq_def]

theorem globMatch_nil_pat (word : List Byte) : globMatch word [] = word.isEmpty := by
  rw [globMatch.eq_def]

theorem globMatch_cons (word : List Byte) (q : Byte) (p' : List Byte) :
    globMatch word (q :: p') =
      (if q = star then
        globMatch word p' ||
          (match word with | [] => false | _ :: w' => globMatch w' (q :: p'))
      else match word with
        | [] => false
        | c :: w' => (decide (q = qmark) || decide (q = c)) && globMatch w' p') := by
  rw [globMatch.eq_def]

theorem globMatch_nil_word (pat : List Byte) :
    globMatch [] pat = (pat.dropWhile (fun q => decide (q = star))).isEmpty := by
  induction pat with
  | nil => rw [globMatch_nil_pat]; rfl
  | cons q p' ih =>
    rw [globMatch_cons, List.dropWhile_cons]
    by_cases hq : q = star
    · rw [if_pos hq]
      subst hq
      simp [ih]
    · rw [if_neg hq]
      simp [hq]

/-- `'*'` as the whole remaining pattern matches every word. -/
theorem globMatch_star_nil (word : List Byte) : globMatch word [(star : Byte)] = true := by
  induction word with
  | nil =>
    rw [globMatch_cons, if_pos rfl, globMatch_nil_pat]
    rfl
  | cons c w' ih =>
    rw [globMatch_cons, if_pos rfl]
    simp [ih]

/-- A leading `'*'` matches exactly when some tail of the word matches the
rest of the pattern. -/
theorem globMatch_star_tails (word p' : List Byte) :
    globMatch word ((star : Byte) :: p') = word.tails.any (fun s => globMatch s p') := by
  induction word with
  | nil =>
    rw [globMatch_cons, if_pos rfl]
    simp
  | cons c w' ih =>
    rw [globMatch_cons, if_pos rfl]
    simp only [List.tails_cons, List.any_cons]
    rw [← ih]

/-- `RadixTrie::matches_pattern` implements exactly the glob semantics of
the specification: `?` matches one byte, `*` zero or more, a literal
matches itself. -/
theorem matchesPattern_eq_globMatch : ∀ (pat word : List Byte),
    matchesPattern word pat = globMatch word pat := by
  intro pat
  induction pat with
  | nil =>
    intro word
    cases word with
    | nil =>
      rw [matchesPattern_nil_word, globMatch_nil_pat]
      rfl
    | cons c w' =>
      rw [matchesPattern_nil_pat, globMatch_nil_pat]
      rfl
  | cons q p' ih =>
    intro word
    cases word with
    | nil =>
      rw [matchesPattern_nil_word, globMatch_nil_word]
    | cons c w' =>
      rw [matchesPattern_cons, globMatch_cons]
      by_cases hq1 : q = qmark
      · rw [if_pos hq1]
        have hq2 : ¬q = star := by rw [hq1]; decide
        rw [if_neg hq2]
        simp [hq1, ih w']
      · rw [if_neg hq1]
        by_cases hq2 : q = star
        · rw [if_pos hq2, if_pos hq2]
          subst hq2
          by_cases hp : p' = []
          · subst hp
            rw [if_pos rfl]
            simp [globMatch_star_nil, globMatch_nil_pat]
          · rw [if_neg hp]
            have hfun : (fun s => matchesPattern s p') = (fun s => globMatch s p') :=
              funext (fun s => ih s)
            rw [hfun, ← globMatch_star_tails, globMatch_cons, if_pos rfl]
        · rw [if_neg hq2, if_neg hq2]
          by_cases hqc : q = c
          · rw [if_pos hqc]
            simp [hq1, hqc, ih w']
          · rw [if_neg hqc]
            simp [hq1, hqc]

/-! ### `pattern_match_recursive` is the filtered DFS -/

theorem patternMatchGo_mk (k : List Byte) (e : Bool) (cs : List (Byte × RNode))
    (pre pat : List Byte) :
    patternMatchGo (.mk k e cs) pre pat =
      (if e && matchesPattern (pre ++ k) pat then [pre ++ k] else []) ++
        patternMatchChildren (pre ++ k) pat cs := by
  rw [patternMatchGo]

theorem patternMatchChildren_nil (pre pat : List Byte) :
    patternMatchChildren pre pat [] = [] := by
  rw [patternMatchChildren]

theorem patternMatchChildren_cons (pre pat : List Byte) (a : Byte) (c : RNode)
    (rest : List (Byte × RNode)) :
    patternMatchChildren pre pat ((a, c) :: rest) =
      patternMatchGo c pre pat ++ patternMatchChildren pre pat rest := by
  rw [patternMatchChildren]

theorem patternMatchChildren_eq_filter :
    ∀ (cs : List (Byte × RNode)) (pre pat : List Byte),
      (∀ p ∈ cs, ∀ pre2 : List Byte,
        patternMatchGo p.2 pre2 pat =
          (collectWords p.2 pre2).filter (fun w => matchesPattern w pat)) →
      patternMatchChildren pre pat cs =
        (collectChildren pre cs).filter (fun w => matchesPattern w pat) := by
  intro cs
  induction cs with
  | nil =>
    intro pre pat _
    rw [patternMatchChildren_nil, collectChildren_nil]
    rfl
  | cons q rest ih =>
    obtain ⟨a, c⟩ := q
    intro pre pat hIH
    rw [patternMatchChildren_cons, collectChildren_cons, List.filter_append,
      hIH (a, c) (by simp) pre, ih pre pat (fun p hp => hIH p (by simp [hp]))]

/-- `pattern_match_recursive` collects exactly the words of the DFS that
pass `matches_pattern`, in DFS order. -/
theorem patternMatchGo_eq_filter (n : RNode) : ∀ (pre pat : List Byte),
    patternMatchGo n pre pat =
      (collectWords n pre).filter (fun w => matchesPattern w pat) := by
  induction n using RNode.ind with
  | _ k e cs ih =>
    intro pre pat
    rw [patternMatchGo_mk, collectWords_mk, List.filter_append,
      patternMatchChildren_eq_filter cs (pre ++ k) pat (fun p hp pre2 => ih p hp pre2 pat)]
    congr 1
    cases e with
    | false => simp
    | true =>
      by_cases hm : matchesPattern (pre ++ k) pat <;> simp [hm]

/-! ### The final `std::sort` of `pattern_search` -/

theorem insSorted_perm (w : List Byte) : ∀ l, (insSorted w l).Perm (w :: l) := by
  intro l
  induction l with
  | nil => exact List.Perm.refl _
  | cons x xs ih =>
    rw [insSorted]
    split
    · exact List.Perm.refl _
    · exact (List.Perm.cons x ih).trans (List.Perm.swap w x xs)

/-- The sort is a permutation: `pattern_search`'s output has exactly the
collected matches. -/
theorem sortWords_perm (l : List (List Byte)) : (sortWords l).Perm l := by
  induction l with
  | nil => exact List.Perm.refl _
  | cons x xs ih =>
    show (insSorted x (sortWords xs)).Perm (x :: xs)
    exact (insSorted_perm x _).trans (List.Perm.cons x ih)

theorem lexLt_asymm : ∀ (a b : List Byte), lexLt a b = true → lexLt b a = false := by
  intro a
  induction a with
  | nil =>
    intro b h
    cases b with
    | nil => simp [lexLt] at h
    | cons y ys => simp [lexLt]
  | cons x xs ih =>
    intro b h
    cases b with
    | nil => simp [lexLt] at h
    | cons y ys =>
      simp only [lexLt, Bool.or_eq_true, Bool.and_eq_true, decide_eq_true_eq] at h
      rcases h with h | ⟨hxy, hrec⟩
      · have h1 : ¬y.val < x.val := by omega
        have h2 : ¬y = x := by
          intro he
          rw [he] at h
          omega
        simp [lexLt, h1, h2]
      · subst hxy
        simp [lexLt, ih ys hrec]

theorem lexLt_trans : ∀ (a b c : List Byte), lexLt a b = true → lexLt b c = true →
    lexLt a c = true := by
  intro a
  induction a with
  | nil =>
    intro b c h1 h2
    cases b with
    | nil => simp [lexLt] at h1
    | cons y ys =>
      cases c with
      | nil => simp [lexLt] at h2
      | cons z zs => simp [lexLt]
  | cons x xs ih =>
    intro b c h1 h2
    cases b with
    | nil => simp [lexLt] at h1
    | cons y ys =>
      cases c with
      | nil => simp [lexLt] at h2
      | cons z zs =>
        simp only [lexLt, Bool.or_eq_true, Bool.and_eq_true, decide_eq_true_eq] at h1 h2 ⊢
        rcases h1 with h1 | ⟨hxy, hr1⟩
        · rcases h2 with h2 | ⟨hyz, hr2⟩
          · exact Or.inl (by omega)
          · subst hyz
            exact Or.inl h1
        · subst hxy
          rcases h2 with h2 | ⟨hyz, hr2⟩
          · exact Or.inl h2
          · subst hyz
            exact Or.inr ⟨rfl, ih ys zs hr1 hr2⟩

theorem lexLt_connex : ∀ (a b : List Byte), lexLt a b = false → lexLt b a = false →
    a = b := by
  intro a
  induction a with
  | nil =>
    intro b h1 h2
    cases b with
    | nil => rfl
    | cons y ys => simp [lexLt] at h1
  | cons x xs ih =>
    intro b h1 h2
    cases b with
    | nil => simp [lexLt] at h2
    | cons y ys =>
      simp only [lexLt, Bool.or_eq_false_iff, Bool.and_eq_false_iff,
        decide_eq_false_iff_not, not_lt] at h1 h2
      obtain ⟨h1v, h1r⟩ := h1
      obtain ⟨h2v, h2r⟩ := h2
      have hxy : x = y := Fin.ext (by omega)
      subst hxy
      rcases h1r with h1r | h1r
      · exact absurd rfl h1r
      · rcases h2r with h2r | h2r
        · exact absurd rfl h2r
        · rw [ih ys h1r h2r]

theorem lexLt_false_trans {a b c : List Byte} (h1 : lexLt b a = false)
    (h2 : lexLt c b = false) : lexLt c a = false := by
  cases hca : lexLt c a with
  | false => rfl
  | true =>
    by_cases hab : lexLt a b = true
    · rw [lexLt_trans c a b hca hab] at h2
      exact h2
    · have heq : a = b := lexLt_connex a b (by cases h : lexLt a b with
        | false => rfl
        | true => exact absurd h hab) h1
      subst heq
      rw [hca] at h2
      exact h2

theorem insSorted_pairwise (w : List Byte) :
    ∀ l, List.Pairwise (fun x y => lexLt y x = false) l →
      List.Pairwise (fun x y => lexLt y x = false) (insSorted w l) := by
  intro l
  induction l with
  | nil =>
    intro _
    simp [insSorted]
  | cons x xs ih =>
    intro hpw
    rw [List.pairwise_cons] at hpw
    obtain ⟨hx, hxs⟩ := hpw
    rw [insSorted]
    split
    · rename_i hlt
      rw [List.pairwise_cons]
      refine ⟨?_, List.Pairwise.cons hx hxs⟩
      intro z hz
      rcases List.mem_cons.1 hz with hz | hz
      · subst hz
        exact lexLt_asymm w z hlt
      · exact lexLt_false_trans (lexLt_asymm w x hlt) (hx z hz)
    · rename_i hnlt
      have hwx : lexLt w x = false := Bool.eq_false_iff.2 hnlt
      rw [List.pairwise_cons]
      refine ⟨?_, ih hxs⟩
      intro z hz
      have hz' : z ∈ w :: xs := (insSorted_perm w xs).mem_iff.1 hz
      rcases List.mem_cons.1 hz' with hz2 | hz2
      · rw [hz2]
        exact hwx
      · exact hx z hz2

/-- The sorted output is ascending under `std::string::operator<`:
no later element is below an earlier one. -/
theorem sortWords_pairwise (l : List (List Byte)) :
    List.Pairwise (fun x y => lexLt y x = false) (sortWords l) := by
  induction l with
  | nil => simp [sortWords]
  | cons x xs ih =>
    show List.Pairwise (fun x y => lexLt y x = false) (insSorted x (sortWords xs))
    exact insSorted_pairwise x (sortWords xs) ih

/-! ### The word counter tracks the number of stored words -/

/-- Clearing the terminal flag of a found terminal node removes exactly one
word from the enumeration. -/
theorem collectWords_clearEnd_length :
    ∀ (n : RNode) (r : List Byte) (tgt : RNode), findNodeGo n r = some tgt →
      tgt.is_end = true → ∀ pre : List Byte,
      (collectWords n pre).length = (collectWords (clearEndGo n r) pre).length + 1 := by
  intro n r
  induction n, r using clearEndGo.induct with
  | case1 k e cs =>
    intro tgt hf he pre
    rw [findNodeGo_self] at hf
    have htgt : tgt = RNode.mk k e cs := by
      injection hf with hf
      exact hf.symm
    subst htgt
    have he2 : e = true := he
    rw [clearEndGo_nil, collectWords_mk, collectWords_mk, he2]
    simp
  | case2 k e cs c rtl hpost =>
    intro tgt hf he pre
    rw [findNodeGo.eq_def] at hf
    simp only [RNode.children, hpost] at hf
    exact Option.noConfusion hf
  | case3 k e cs c rtl k1 child rest hpost hne =>
    intro tgt hf he pre
    rw [findNodeGo.eq_def] at hf
    simp only [RNode.children, hpost, if_pos hne] at hf
    exact Option.noConfusion hf
  | case4 k e cs c rtl k1 child rest hpost hne hk =>
    intro tgt hf he pre
    rw [findNodeGo.eq_def] at hf
    simp only [RNode.children, hpost] at hf
    rw [if_neg hne, dif_pos hk] at hf
    exact Option.noConfusion hf
  | case5 k e cs c rtl k1 child rest hpost hne hk hlen =>
    intro tgt hf he pre
    rw [findNodeGo.eq_def] at hf
    simp only [RNode.children, hpost] at hf
    rw [if_neg hne, dif_neg hk, if_pos hlen] at hf
    exact Option.noConfusion hf
  | case6 k e cs c rtl k1 child rest hpost hne hk hlen htake =>
    intro tgt hf he pre
    rw [findNodeGo.eq_def] at hf
    simp only [RNode.children, hpost] at hf
    rw [if_neg hne, dif_neg hk, if_neg hlen, if_pos htake] at hf
    exact Option.noConfusion hf
  | case7 k e cs c rtl k1 child rest hpost hne hk hlen htake ih =>
    intro tgt hf he pre
    rw [findNodeGo_cons_step hpost hne hk hlen htake] at hf
    rw [clearEndGo_eq_go k e rtl hpost hne hk hlen htake]
    have hcs := findLB_append cs c
    rw [hpost] at hcs
    obtain ⟨P, hP⟩ : ∃ P, (findLB cs c).1 = P := ⟨_, rfl⟩
    rw [hP] at hcs
    rw [hP, ← hcs, collectWords_mk, collectWords_mk, collectChildren_append,
      collectChildren_append, collectChildren_cons, collectChildren_cons]
    have hlen2 := ih tgt hf he (pre ++ k)
    simp only [List.length_append]
    omega

/-- Inserting a word that is not yet stored adds exactly one word to the
enumeration. -/
theorem collectWords_insert_length {n : RNode} {r : List Byte} (hwf : nodeWF n = true)
    (hr : r ≠ []) (hns : ¬∃ tgt, findNodeGo n r = some tgt ∧ tgt.is_end = true)
    (pre : List Byte) :
    (collectWords (insertGo n r).1 pre).length = (collectWords n pre).length + 1 := by
  obtain ⟨tgt, hf, he⟩ := findNodeGo_after_insert n r hwf hr
  have h1 := collectWords_clearEnd_length (insertGo n r).1 r tgt hf he pre
  have h2 := collectWords_insert_clear n r hwf hr hns pre
  rw [h2] at h1
  exact h1

/-- `insert` keeps `word_count_` equal to the number of stored words. -/
theorem insertT_size {t : Trie} (hwf : nodeWF t.root = true)
    (hinv : t.count = (collectWords t.root []).length) (w : List Byte) :
    (insertT t w).count = (collectWords (insertT t w).root []).length := by
  by_cases hw : w = []
  · rw [show insertT t w = t from by unfold insertT; rw [if_pos hw]]
    exact hinv
  · by_cases hfind : ∃ tgt, findNodeGo t.root w = some tgt ∧ tgt.is_end = true
    · have hstored : searchT t w = true := by
        rw [searchT_eq_true_iff]
        obtain ⟨tgt, h1, h2⟩ := hfind
        exact ⟨tgt, by rw [findNodeT, if_neg hw]; exact h1, h2⟩
      rw [insertT_of_found hwf hstored]
      exact hinv
    · have hgrew : (insertGo t.root w).2 = true := insertGo_grew_of_not_found hwf hw hfind
      unfold insertT
      rw [if_neg hw]
      dsimp only
      rw [hgrew, if_pos rfl, collectWords_insert_length hwf hw hfind []]
      omega

/-- `remove` keeps `word_count_` equal to the number of stored words. -/
theorem removeT_size {t : Trie} (hinv : t.count = (collectWords t.root []).length)
    (w : List Byte) :
    (removeT t w).2.count = (collectWords (removeT t w).2.root []).length := by
  by_cases hw : w = []
  · rw [show (removeT t w).2 = t from by unfold removeT; rw [if_pos hw]]
    exact hinv
  · cases hfind : findNodeT t w with
    | none =>
      rw [show (removeT t w).2 = t from by simp [removeT, hw, hfind]]
      exact hinv
    | some tgt =>
      by_cases hend : tgt.is_end = true
      · rw [removeT_found hw hfind hend]
        unfold findNodeT at hfind
        rw [if_neg hw] at hfind
        have h1 := collectWords_clearEnd_length t.root w tgt hfind hend []
        dsimp only
        omega
      · rw [show (removeT t w).2 = t from by simp [removeT, hw, hfind, hend]]
        exact hinv

/-! ### Reachable-state invariants: counter and root flag -/

theorem clearEndGo_is_end_cons (n : RNode) (c : Byte) (rtl : List Byte) :
    (clearEndGo n (c :: rtl)).is_end = n.is_end := by
  obtain ⟨k, e, cs⟩ := n
  show (clearEndGo (.mk k e cs) (c :: rtl)).is_end = e
  rw [clearEndGo.eq_def]
  dsimp only
  split
  · rfl
  · split
    · rfl
    · split
      · rfl
      · split
        · rfl
        · split
          · rfl
          · rfl

theorem insertT_rootEnd {t : Trie} (h : t.root.is_end = false) (w : List Byte) :
    (insertT t w).root.is_end = false := by
  by_cases hw : w = []
  · rw [show insertT t w = t from by unfold insertT; rw [if_pos hw]]
    exact h
  · rw [insertT_root hw, insertGo_is_end]
    exact h

theorem removeT_rootEnd {t : Trie} (h : t.root.is_end = false) (w : List Byte) :
    (removeT t w).2.root.is_end = false := by
  by_cases hw : w = []
  · rw [show (removeT t w).2 = t from by unfold removeT; rw [if_pos hw]]
    exact h
  · cases hfind : findNodeT t w with
    | none =>
      rw [show (removeT t w).2 = t from by simp [removeT, hw, hfind]]
      exact h
    | some tgt =>
      by_cases hend : tgt.is_end = true
      · rw [removeT_found hw hfind hend]
        obtain ⟨c, rtl, hwc⟩ := List.exists_cons_of_ne_nil hw
        dsimp only
        rw [hwc, clearEndGo_is_end_cons]
        exact h
      · rw [show (removeT t w).2 = t from by simp [removeT, hw, hfind, hend]]
        exact h

theorem scanChunkGo_inv : ∀ (bs : List Byte) (t : Trie) (cnt : Nat) (carry seg : List Byte),
    nodeWF t.root = true → t.count = (collectWords t.root []).length →
    t.root.is_end = false →
      (scanChunkGo t cnt carry seg bs).1.count =
        (collectWords (scanChunkGo t cnt carry seg bs).1.root []).length ∧
      (scanChunkGo t cnt carry seg bs).1.root.is_end = false := by
  intro bs
  induction bs with
  | nil =>
    intro t cnt carry seg _ h2 h3
    exact ⟨h2, h3⟩
  | cons b rest ih =>
    intro t cnt carry seg h1 h2 h3
    rw [scanChunkGo]
    dsimp only
    split
    · split
      · split
        · exact ih _ _ _ _ h1 h2 h3
        · exact ih _ _ _ _ (insertT_WF h1 _) (insertT_size h1 h2 _) (insertT_rootEnd h3 _)
      · exact ih _ _ _ _ h1 h2 h3
    · exact ih _ _ _ _ h1 h2 h3

theorem finalCarry_inv (st : Trie × Nat × List Byte) (h1 : nodeWF st.1.root = true)
    (h2 : st.1.count = (collectWords st.1.root []).length)
    (h3 : st.1.root.is_end = false) :
    (finalCarry st).1.count = (collectWords (finalCarry st).1.root []).length ∧
      (finalCarry st).1.root.is_end = false := by
  obtain ⟨t, cnt, carry⟩ := st
  simp only [finalCarry]
  split
  · exact ⟨h2, h3⟩
  · split
    · exact ⟨h2, h3⟩
    · exact ⟨insertT_size h1 h2 _, insertT_rootEnd h3 _⟩

theorem foldl_scan_inv (chunks : List (List Byte)) :
    ∀ (st : Trie × Nat × List Byte), nodeWF st.1.root = true →
      st.1.count = (collectWords st.1.root []).length → st.1.root.is_end = false →
      (((chunks.foldl
        (fun (acc : Trie × Nat × List Byte) chunk =>
          scanChunkGo acc.1 acc.2.1 acc.2.2 [] chunk) st)).1.count =
        (collectWords ((chunks.foldl
          (fun (acc : Trie × Nat × List Byte) chunk =>
            scanChunkGo acc.1 acc.2.1 acc.2.2 [] chunk) st)).1.root []).length) ∧
      ((chunks.foldl
        (fun (acc : Trie × Nat × List Byte) chunk =>
          scanChunkGo acc.1 acc.2.1 acc.2.2 [] chunk) st)).1.root.is_end = false := by
  induction chunks with
  | nil =>
    intro st _ h2 h3
    exact ⟨h2, h3⟩
  | cons chunk rest ih =>
    intro st h1 h2 h3
    rw [List.foldl_cons]
    obtain ⟨g2, g3⟩ := scanChunkGo_inv chunk st.1 st.2.1 st.2.2 [] h1 h2 h3
    exact ih _ (scanChunkGo_WF _ _ _ _ _ h1) g2 g3

theorem bulkT_inv {t : Trie} (h1 : nodeWF t.root = true)
    (h2 : t.count = (collectWords t.root []).length) (h3 : t.root.is_end = false)
    (bytes : List Byte) (B : Nat) :
    (bulkT t bytes B).1.count = (collectWords (bulkT t bytes B).1.root []).length ∧
      (bulkT t bytes B).1.root.is_end = false := by
  unfold bulkT
  dsimp only
  obtain ⟨g2, g3⟩ := foldl_scan_inv (chunksOf B bytes) (t, 0, []) h1 h2 h3
  exact finalCarry_inv _ (foldl_scan_WF (chunksOf B bytes) (t, 0, []) h1) g2 g3

theorem applyOps_inv (ops : List Op) :
    (applyOps ops).count = (collectWords (applyOps ops).root []).length ∧
      (applyOps ops).root.is_end = false := by
  unfold applyOps
  have main : ∀ (l : List Op) (t : Trie), nodeWF t.root = true →
      t.count = (collectWords t.root []).length → t.root.is_end = false →
      (l.foldl applyOp t).count = (collectWords (l.foldl applyOp t).root []).length ∧
        (l.foldl applyOp t).root.is_end = false := by
    intro l
    induction l with
    | nil =>
      intro t _ h2 h3
      exact ⟨h2, h3⟩
    | cons op rest ih =>
      intro t h1 h2 h3
      rw [List.foldl_cons]
      refine ih _ (applyOp_WF h1 op) ?_ ?_
      · cases op with
        | ins w => exact insertT_size h1 h2 w
        | rem w => exact removeT_size h2 w
        | clr => rfl
        | blk bytes B => exact (bulkT_inv h1 h2 h3 bytes B).1
      · cases op with
        | ins w => exact insertT_rootEnd h3 w
        | rem w => exact removeT_rootEnd h3 w
        | clr => rfl
        | blk bytes B => exact (bulkT_inv h1 h2 h3 bytes B).2
  refine main ops emptyTrie emptyTrie_WF ?_ ?_
  · rfl
  · rfl

/-- A well-formed trie whose root is not terminal never stores the empty
word. -/
theorem mem_collectWords_ne_nil {n : RNode} (hwf : nodeWF n = true)
    (he : n.is_end = false) {w : List Byte} (hw : w ∈ collectWords n []) : w ≠ [] := by
  obtain ⟨k, e, cs⟩ := n
  have he2 : e = false := he
  obtain ⟨_, hcwf⟩ := nodeWF_parts hwf
  rw [collectWords_mk, he2] at hw
  simp only [Bool.false_eq_true, if_false, List.nil_append] at hw
  obtain ⟨p, hp, hwp⟩ := mem_collectChildren hw
  obtain ⟨hne, _, _⟩ := childrenWF_mem hcwf hp
  obtain ⟨s, hs⟩ := collectWords_shape p.2 ([] ++ k) w hwp
  rw [hs]
  simp [hne]

/-- C7: on every reachable trie, `pattern_search(pat)` is the
`std::sort`-ascending reordering of the words of `words_with_prefix("")`
that match `pat` under the glob semantics (`?` one byte, `*` zero or more
bytes): it equals the sorted filter, it is a permutation of the filter, its
output is ascending under `std::string::operator<`, the empty pattern
returns the empty list, and the pattern `"*"` returns all stored words
sorted. -/
theorem c7_pattern_search (ops : List Op) (pat : List Byte) :
    patternSearchT (applyOps ops) pat =
      sortWords ((wordsWithPfx (applyOps ops) []).filter (fun w => globMatch w pat)) ∧
    (patternSearchT (applyOps ops) pat).Perm
      ((wordsWithPfx (applyOps ops) []).filter (fun w => globMatch w pat)) ∧
    List.Pairwise (fun x y => lexLt y x = false) (patternSearchT (applyOps ops) pat) ∧
    patternSearchT (applyOps ops) [] = [] ∧
    patternSearchT (applyOps ops) [(star : Byte)] =
      sortWords (wordsWithPfx (applyOps ops) []) := by
  have hWF := applyOps_WF ops
  obtain ⟨hsz, hre⟩ := applyOps_inv ops
  have hwords : wordsWithPfx (applyOps ops) [] = collectWords (applyOps ops).root [] := by
    rw [wordsWithPfx, if_pos rfl]
  have hfun : (fun w => matchesPattern w pat) = (fun w => globMatch w pat) :=
    funext (fun w => matchesPattern_eq_globMatch pat w)
  have h1 : patternSearchT (applyOps ops) pat =
      sortWords ((wordsWithPfx (applyOps ops) []).filter (fun w => globMatch w pat)) := by
    by_cases hpat : pat = []
    · subst hpat
      rw [show patternSearchT (applyOps ops) [] = [] from by simp [patternSearchT]]
      have hfilter :
          (wordsWithPfx (applyOps ops) []).filter (fun w => globMatch w []) = [] := by
        rw [List.filter_eq_nil_iff]
        intro a ha
        rw [hwords] at ha
        have hne := mem_collectWords_ne_nil hWF hre ha
        rw [globMatch_nil_pat, isEmpty_false_of_ne hne]
        simp
      rw [hfilter]
      rfl
    · by_cases hemp : emptyB (applyOps ops) = true
      · have hcnt : (applyOps ops).count = 0 := by simpa [emptyB] using hemp
        have hnil : collectWords (applyOps ops).root [] = [] := by
          apply List.eq_nil_of_length_eq_zero
          omega
        rw [show patternSearchT (applyOps ops) pat = [] from by
          unfold patternSearchT
          rw [if_pos (by simp [hemp])]]
        rw [hwords, hnil]
        rfl
      · unfold patternSearchT
        rw [if_neg (by simp [hpat, hemp]), patternMatchGo_eq_filter, hfun, hwords]
  refine ⟨h1, ?_, ?_, ?_, ?_⟩
  · rw [h1]
    exact sortWords_perm _
  · rw [h1]
    exact sortWords_pairwise _
  · simp [patternSearchT]
  · by_cases hemp : emptyB (applyOps ops) = true
    · have hcnt : (applyOps ops).count = 0 := by simpa [emptyB] using hemp
      have hnil : collectWords (applyOps ops).root [] = [] := by
        apply List.eq_nil_of_length_eq_zero
        omega
      rw [show patternSearchT (applyOps ops) [(star : Byte)] = [] from by
        unfold patternSearchT
        rw [if_pos (by simp [hemp])]]
      rw [hwords, hnil]
      rfl
    · unfold patternSearchT
      rw [if_neg (by simp [hemp]), patternMatchGo_eq_filter]
      have hall : (fun w => matchesPattern w [(star : Byte)]) = (fun _ => true) := by
        funext w
        rw [matchesPattern_eq_globMatch, globMatch_star_nil]
      rw [hall, List.filter_true, hwords]

/-! ### `bulk_insert_from_file`: chunking is irrelevant -/

/-- The scanner only ever uses `carry ++ seg`: the split between the two
accumulators does not matter. -/
theorem scanChunkGo_carry_norm : ∀ (bs : List Byte) (t : Trie) (cnt : Nat)
    (carry seg : List Byte),
    scanChunkGo t cnt carry seg bs = scanChunkGo t cnt (carry ++ seg) [] bs := by
  intro bs
  induction bs with
  | nil =>
    intro t cnt carry seg
    rw [scanChunkGo, scanChunkGo, List.append_nil]
  | cons b rest ih =>
    intro t cnt carry seg
    rw [scanChunkGo, scanChunkGo]
    dsimp only
    by_cases hd : isDelimB b = true
    · rw [if_pos hd, if_pos hd]
      by_cases hcs : carry ++ seg = []
      · obtain ⟨hc, hs⟩ := List.append_eq_nil.1 hcs
        subst hc
        subst hs
        rfl
      · have g1 : (decide (seg.length > 0) || !carry.isEmpty) = true := by
          cases seg with
          | nil =>
            cases carry with
            | nil => exact absurd rfl hcs
            | cons x xs => simp
          | cons y ys => simp
        have g2 : (decide (([] : List Byte).length > 0) || !(carry ++ seg).isEmpty) = true := by
          simp [isEmpty_false_of_ne hcs]
        rw [if_pos g1, if_pos g2]
        rw [List.append_nil]
    · rw [if_neg hd, if_neg hd]
      rw [ih t cnt carry (seg ++ [b]), ih t cnt (carry ++ seg) ([] ++ [b])]
      simp only [List.nil_append, List.append_assoc]

/-- Scanning a concatenation is scanning the first part and resuming on the
second with the carried partial line. -/
theorem scanChunkGo_append : ∀ (xs ys : List Byte) (t : Trie) (cnt : Nat)
    (carry seg : List Byte),
    scanChunkGo t cnt carry seg (xs ++ ys) =
      scanChunkGo (scanChunkGo t cnt carry seg xs).1
        (scanChunkGo t cnt carry seg xs).2.1 (scanChunkGo t cnt carry seg xs).2.2 [] ys := by
  intro xs
  induction xs with
  | nil =>
    intro ys t cnt carry seg
    rw [List.nil_append,
      show scanChunkGo t cnt carry seg [] = (t, cnt, carry ++ seg) from by rw [scanChunkGo]]
    exact scanChunkGo_carry_norm ys t cnt carry seg
  | cons b rest ih =>
    intro ys t cnt carry seg
    rw [List.cons_append, scanChunkGo,
      show scanChunkGo t cnt carry seg (b :: rest) = _ from by rw [scanChunkGo]]
    by_cases hd : isDelimB b = true
    · rw [if_pos hd, if_pos hd]
      by_cases hg : (decide (seg.length > 0) || !carry.isEmpty) = true
      · rw [if_pos hg, if_pos hg]
        by_cases htr : (trimB (carry ++ seg)).isEmpty = true
        · rw [if_pos htr, if_pos htr]
          exact ih ys t cnt [] []
        · rw [if_neg htr, if_neg htr]
          exact ih ys _ _ [] []
      · rw [if_neg hg, if_neg hg]
        exact ih ys t cnt [] []
    · rw [if_neg hd, if_neg hd]
      exact ih ys t cnt carry (seg ++ [b])

/-- The read loop over the chunks is one scan of the whole stream. -/
theorem foldl_scan_join : ∀ (chunks : List (List Byte)) (st : Trie × Nat × List Byte),
    chunks.foldl (fun (acc : Trie × Nat × List Byte) chunk =>
      scanChunkGo acc.1 acc.2.1 acc.2.2 [] chunk) st =
    scanChunkGo st.1 st.2.1 st.2.2 [] chunks.flatten := by
  intro chunks
  induction chunks with
  | nil =>
    intro st
    rw [List.foldl_nil, List.flatten_nil,
      show scanChunkGo st.1 st.2.1 st.2.2 [] [] = (st.1, st.2.1, st.2.2 ++ []) from by
        rw [scanChunkGo],
      List.append_nil]
  | cons c cs ih =>
    intro st
    rw [List.foldl_cons, ih, List.flatten_cons, scanChunkGo_append]

/-- With a positive buffer size the fixed-size reads cover the stream. -/
theorem chunksOf_flatten (B : Nat) (hB : 1 ≤ B) : ∀ (n : Nat) (l : List Byte),
    l.length ≤ n → (chunksOf B l).flatten = l := by
  intro n
  induction n with
  | zero =>
    intro l hl
    have hnil : l = [] := List.eq_nil_of_length_eq_zero (by omega)
    subst hnil
    rw [chunksOf.eq_def]
    simp
  | succ m ih =>
    intro l hl
    rw [chunksOf.eq_def]
    split
    · rename_i h
      rcases h with h | h
      · rw [h]
        rfl
      · omega
    · rename_i h
      push_neg at h
      obtain ⟨h1, h2⟩ := h
      rw [List.flatten_cons,
        ih (l.drop B) (by
          have hpos : 1 ≤ l.length := by
            cases l with
            | nil => exact absurd rfl h1
            | cons x xs => simp
          simp only [List.length_drop]
          omega)]
      exact List.take_append_drop B l

/-- One full scan plus the final-carry block inserts exactly the trimmed
non-empty records of the stream (continuing the partial line `acc`), in
order, and counts them. -/
theorem finalCarry_scan : ∀ (bs : List Byte) (t : Trie) (cnt : Nat) (acc : List Byte),
    finalCarry (scanChunkGo t cnt [] acc bs) =
      ((((splitGo acc bs).map trimB).filter (fun r => !r.isEmpty)).foldl insertT t,
        cnt + (((splitGo acc bs).map trimB).filter (fun r => !r.isEmpty)).length) := by
  intro bs
  induction bs with
  | nil =>
    intro t cnt acc
    rw [show scanChunkGo t cnt [] acc [] = (t, cnt, [] ++ acc) from by rw [scanChunkGo],
      List.nil_append, splitGo]
    by_cases hacc : acc.isEmpty = true
    · rw [if_pos hacc,
        show finalCarry (t, cnt, acc) = (t, cnt) from by
          simp only [finalCarry]
          rw [if_pos hacc]]
      simp
    · rw [if_neg hacc,
        show finalCarry (t, cnt, acc) =
            (if (trimB acc).isEmpty then (t, cnt) else (insertT t (trimB acc), cnt + 1)) from by
          simp only [finalCarry]
          rw [if_neg hacc]]
      simp only [List.map_cons, List.map_nil, List.filter_cons]
      by_cases htr : (trimB acc).isEmpty = true
      · rw [if_pos htr]
        simp [htr]
      · rw [if_neg htr]
        simp [htr]
  | cons b rest ih =>
    intro t cnt acc
    rw [show scanChunkGo t cnt [] acc (b :: rest) = _ from by rw [scanChunkGo], splitGo]
    by_cases hd : isDelimB b = true
    · rw [if_pos hd, if_pos hd]
      by_cases hacc : acc.isEmpty = true
      · have haccn : acc = [] := List.isEmpty_iff.1 hacc
        subst haccn
        rw [if_pos hacc]
        have hg : (decide (([] : List Byte).length > 0) || !([] : List Byte).isEmpty) = false := by
          simp
        rw [hg]
        simp only [Bool.false_eq_true, if_false]
        exact ih t cnt []
      · rw [if_neg hacc]
        have hne : acc ≠ [] := fun h => hacc (by rw [h]; rfl)
        have hg : (decide (acc.length > 0) || !([] : List Byte).isEmpty) = true := by
          cases acc with
          | nil => exact absurd rfl hne
          | cons x xs => simp
        rw [hg]
        simp only [if_true, List.nil_append]
        simp only [List.map_cons, List.filter_cons]
        by_cases htr : (trimB acc).isEmpty = true
        · rw [if_pos htr, if_neg (by simp [htr] : ¬(!(trimB acc).isEmpty) = true)]
          exact ih t cnt []
        · rw [if_neg htr, if_pos (by simp [htr] : (!(trimB acc).isEmpty) = true)]
          rw [ih _ _ []]
          simp only [List.foldl_cons, List.length_cons]
          exact Prod.ext rfl (by omega)
    · rw [if_neg hd, if_neg hd]
      exact ih t cnt (acc ++ [b])

/-- `bulk_insert_from_file` as a whole: for every positive buffer size it
inserts exactly the trimmed non-empty records of the stream in order and
returns their number. -/
theorem bulkT_records {t : Trie} {bytes : List Byte} {B : Nat} (hB : 1 ≤ B) :
    bulkT t bytes B = ((recordsOf bytes).foldl insertT t, (recordsOf bytes).length) := by
  unfold bulkT
  dsimp only
  rw [foldl_scan_join (chunksOf B bytes) (t, 0, [])]
  dsimp only
  rw [chunksOf_flatten B hB bytes.length bytes (le_refl _),
    finalCarry_scan bytes t 0 []]
  unfold recordsOf
  simp

/-- C4: on every reachable trie, `bulk_insert_from_file` splits its input
at every run of `\n`/`\r` bytes into records (runs of delimiters yield no
empty record), trims each record of leading and trailing ASCII whitespace,
skips records that trim to nothing, inserts each remaining record verbatim
in stream order, and returns the number of insert calls (duplicates
counted). -/
theorem c4_bulk_records (ops : List Op) (bytes : List Byte) (B : Nat) (hB : 1 ≤ B) :
    (bulkT (applyOps ops) bytes B).1 = (recordsOf bytes).foldl insertT (applyOps ops) ∧
    (bulkT (applyOps ops) bytes B).2 = (recordsOf bytes).length := by
  rw [bulkT_records hB]
  exact ⟨rfl, rfl⟩

/-- Witness for C4 at a concrete input: ingesting `"a\nb\r"` with buffer
size 4 on the empty trie. -/
theorem c4_witness : (1:Nat) ≤ 4 ∧
    ((bulkT (applyOps []) [97, 10, 98, 13] 4).1 =
        (recordsOf [97, 10, 98, 13]).foldl insertT (applyOps []) ∧
      (bulkT (applyOps []) [97, 10, 98, 13] 4).2 = (recordsOf [97, 10, 98, 13]).length) :=
  ⟨by decide, c4_bulk_records [] [97, 10, 98, 13] 4 (by decide)⟩

/-- C3: ingesting a byte stream with any two positive buffer sizes yields
the same final trie and the same returned count, and that state is the one
obtained by inserting each trimmed non-empty record of the stream in
order. -/
theorem c3_streaming_equivalence (ops : List Op) (bytes : List Byte) (B1 B2 : Nat)
    (h1 : 1 ≤ B1) (h2 : 1 ≤ B2) :
    bulkT (applyOps ops) bytes B1 = bulkT (applyOps ops) bytes B2 ∧
    (bulkT (applyOps ops) bytes B1).1 = (recordsOf bytes).foldl insertT (applyOps ops) := by
  rw [bulkT_records h1, bulkT_records h2]
  exact ⟨rfl, rfl⟩

/-- Witness for C3 at a concrete input: buffer sizes 1 and 2 on the stream
`"a\nb"`. -/
theorem c3_witness : ((1:Nat) ≤ 1 ∧ (1:Nat) ≤ 2) ∧
    bulkT (applyOps []) [97, 10, 98] 1 = bulkT (applyOps []) [97, 10, 98] 2 :=
  ⟨⟨by decide, by decide⟩,
    (c3_streaming_equivalence [] [97, 10, 98] 1 2 (by decide) (by decide)).1⟩
